import Mathlib

/-!
A shallow embedding of `src/src/core/SkDeque.cpp`.

Blocks live in an address-indexed heap (`Addr := Nat`); the raw pointers
`fNext/fPrev/fFront/fBack` of the source become `Option Addr`, with `none`
modelling the C++ `NULL`.  The pointers `fBegin/fEnd/fStop` of a `Block` point
into the block's own storage chunk, so we model them as byte offsets measured
from `start()` (the first usable byte after the `Block` header); `fBegin` and
`fEnd` can also be the `NULL` sentinel, hence `Option Nat`, while `fStop` is
always a real pointer, hence `Nat`.  The bytes of a chunk are modelled by a
function from offset to the value most recently written at that offset;
values are abstract (`Val := Nat`) because the deque is untyped raw storage.

Operations that in C++ can dereference `NULL` or fail an `SkASSERT` return
`Option` here, with `none` for exactly those two events; everything the
release build returns normally is modelled by `some`.  Pointer comparisons of
the form `p - k < q` (which in C++ never wrap) are translated to the
subtraction-free equivalent `p < q + k` so that `Nat` truncation cannot
change their meaning; each such spot is commented.
-/

namespace SkiaDeque

/-- Values stored in element slots (the deque itself is untyped). -/
abbrev Val := Nat

/-- Heap addresses standing for the identity of a malloc'ed (or inline) Block. -/
abbrev Addr := Nat

/-- `struct SkDeque::Block`.  `fBegin`/`fEnd` are byte offsets from `start()`
(`none` is the `NULL` sentinel), `fStop` is the offset of the end of the
chunk from `start()` (i.e. the usable capacity in bytes), and `data` gives
the byte contents of the chunk by slot offset. -/
structure Block where
  fNext : Option Addr
  fPrev : Option Addr
  fBegin : Option Nat
  fEnd : Option Nat
  fStop : Nat
  data : Nat → Val

/-- `Block::init(size)`: `fNext = fPrev = NULL; fBegin = fEnd = NULL;
fStop = (char*)this + size`.  Since our offsets are relative to `start()`,
the parameter here is `size - sizeof(Block)`, the usable capacity. -/
def Block.init (cap : Nat) : Block :=
  { fNext := none, fPrev := none, fBegin := none, fEnd := none,
    fStop := cap, data := fun _ => 0 }

/-- The deque state: source fields plus the explicit heap of blocks, a
fresh-address counter for allocation, and the list of addresses passed to
`sk_free` (most recent first), so that release of a block is observable. -/
structure SkDeque where
  fElemSize : Nat
  fInitialStorage : Option Addr
  fCount : Int
  fAllocCount : Nat
  fFront : Option Addr
  fBack : Option Addr
  heap : Addr → Option Block
  nextAddr : Addr
  freed : List Addr

/-- Replace the block at `a` (if any) by `f` applied to it; models a field
assignment through a `Block*`. -/
def SkDeque.updBlock (s : SkDeque) (a : Addr) (f : Block → Block) : SkDeque :=
  { s with heap := fun x => if x = a then (s.heap x).map f else s.heap x }

/-- `SkDeque::allocateBlock(allocCount)`: `sk_malloc_throw(sizeof(Block) +
allocCount * fElemSize)` then `init`, so the usable capacity is
`allocCount * fElemSize`.  Allocation never fails (the source aborts on
exhaustion); the fresh address is `nextAddr`. -/
def SkDeque.allocateBlock (s : SkDeque) (allocCount : Nat) : SkDeque × Addr :=
  ({ s with
      heap := fun x =>
        if x = s.nextAddr then some (Block.init (allocCount * s.fElemSize)) else s.heap x,
      nextAddr := s.nextAddr + 1 },
   s.nextAddr)

/-- `SkDeque::freeBlock(block)`: unconditionally `sk_free(block)`.  Note the
source has no `fInitialStorage` check here (only the destructor has one). -/
def SkDeque.freeBlock (s : SkDeque) (a : Addr) : SkDeque :=
  { s with heap := fun x => if x = a then none else s.heap x, freed := a :: s.freed }

/-- `SkDeque::SkDeque(elemSize, allocCount)`; `SkASSERT(allocCount >= 1)` is
a construction precondition (imposed on reachable states). -/
def SkDeque.mk0 (elemSize allocCount : Nat) : SkDeque :=
  { fElemSize := elemSize, fInitialStorage := none, fCount := 0,
    fAllocCount := allocCount, fFront := none, fBack := none,
    heap := fun _ => none, nextAddr := 0, freed := [] }

/-- `SkDeque::SkDeque(elemSize, storage, storageSize, allocCount)`.
`storageCap` is `storageSize - sizeof(Block)`, so the source guard
`storageSize >= sizeof(Block) + elemSize` is `elemSize ≤ storageCap`.
When the guard holds, the storage buffer becomes the first Block, at
address `0`; otherwise the deque starts with no blocks (the raw
`fInitialStorage` pointer then never corresponds to a Block, so it is
modelled as `none`). -/
def SkDeque.mkWithStorage (elemSize storageCap allocCount : Nat) : SkDeque :=
  if elemSize ≤ storageCap then
    { fElemSize := elemSize, fInitialStorage := some 0, fCount := 0,
      fAllocCount := allocCount, fFront := some 0, fBack := some 0,
      heap := fun x => if x = 0 then some (Block.init storageCap) else none,
      nextAddr := 1, freed := [] }
  else
    { fElemSize := elemSize, fInitialStorage := none, fCount := 0,
      fAllocCount := allocCount, fFront := none, fBack := none,
      heap := fun _ => none, nextAddr := 0, freed := [] }

/-- The value of a `const void*` returned by `front()`/`back()`:
`null` is `NULL`; `slot a off` points to offset `off` of block `a`'s chunk;
`junk` is a non-null pointer that does not point into any chunk (it arises
from the source computing `NULL - fElemSize`). -/
inductive Ptr where
  | null : Ptr
  | slot : Addr → Nat → Ptr
  | junk : Ptr
deriving DecidableEq

/-- `SkDeque::front()`: fall through a front block whose `fBegin` is the
`NULL` sentinel, then return `front->fBegin` (which is `NULL`, i.e. `null`,
if that next block is also marked empty — the `SkASSERT(front->fBegin)`
fails in that case but the release build returns `NULL`). -/
def SkDeque.front (s : SkDeque) : Ptr :=
  match s.fFront with
  | none => Ptr.null
  | some a =>
    match s.heap a with
    | none => Ptr.junk
    | some blk =>
      match blk.fBegin with
      | some bb => Ptr.slot a bb
      | none =>
        match blk.fNext with
        | none => Ptr.null
        | some a2 =>
          match s.heap a2 with
          | none => Ptr.junk
          | some blk2 =>
            match blk2.fBegin with
            | some bb2 => Ptr.slot a2 bb2
            | none => Ptr.null

/-- `SkDeque::back()`: fall through a back block whose `fEnd` is the `NULL`
sentinel, then return `back->fEnd - fElemSize`.  If after the single
fall-through `fEnd` is still the sentinel, the source computes
`NULL - fElemSize`: a non-null garbage pointer (`SkASSERT(back->fEnd)`
fails in debug), modelled as `junk`. -/
def SkDeque.back (s : SkDeque) : Ptr :=
  match s.fBack with
  | none => Ptr.null
  | some a =>
    match s.heap a with
    | none => Ptr.junk
    | some blk =>
      match blk.fEnd with
      | some ee => Ptr.slot a (ee - s.fElemSize)
      | none =>
        match blk.fPrev with
        | none => Ptr.null
        | some a2 =>
          match s.heap a2 with
          | none => Ptr.junk
          | some blk2 =>
            match blk2.fEnd with
            | some ee2 => Ptr.slot a2 (ee2 - s.fElemSize)
            | none => Ptr.junk

/-- Dereference the pointer returned by `front()` as an element value. -/
def SkDeque.frontVal (s : SkDeque) : Option Val :=
  match s.front with
  | Ptr.slot a off => (s.heap a).map fun b => b.data off
  | _ => none

/-- Dereference the pointer returned by `back()` as an element value. -/
def SkDeque.backVal (s : SkDeque) : Option Val :=
  match s.back with
  | Ptr.slot a off => (s.heap a).map fun b => b.data off
  | _ => none

/-- `SkDeque::push_front()`: returns the new state together with the slot
(block address, byte offset) handed to the caller.  The source test
`begin < first->start()` (with `begin = fBegin - fElemSize`) is translated
subtraction-free as `fBegin < fElemSize`. -/
def SkDeque.push_front (s0 : SkDeque) : Option (SkDeque × Addr × Nat) :=
  let s1 := { s0 with fCount := s0.fCount + 1 }
  let p :=
    match s1.fFront with
    | none =>
      let q := s1.allocateBlock s1.fAllocCount
      ({ q.1 with fFront := some q.2, fBack := some q.2 }, q.2)
    | some a => (s1, a)
  let s2 := p.1
  let firstA := p.2
  match s2.heap firstA with
  | none => none
  | some firstB =>
    match firstB.fBegin with
    | none =>
      -- INIT_CHUNK: first->fEnd = first->fStop; begin = first->fStop - fElemSize
      let s3 := s2.updBlock firstA fun b =>
        { b with fEnd := some b.fStop, fBegin := some (b.fStop - s2.fElemSize) }
      some (s3, firstA, firstB.fStop - s2.fElemSize)
    | some bb =>
      if bb < s2.fElemSize then
        -- no more room in this chunk: allocate and link as the new front
        let q := s2.allocateBlock s2.fAllocCount
        let s3 := q.1
        let newA := q.2
        let s4 := s3.updBlock newA fun b => { b with fNext := some firstA }
        let s5 := s4.updBlock firstA fun b => { b with fPrev := some newA }
        let s6 := { s5 with fFront := some newA }
        match s6.heap newA with
        | none => none
        | some newB =>
          let s7 := s6.updBlock newA fun b =>
            { b with fEnd := some b.fStop, fBegin := some (b.fStop - s6.fElemSize) }
          some (s7, newA, newB.fStop - s6.fElemSize)
      else
        let s3 := s2.updBlock firstA fun b => { b with fBegin := some (bb - s2.fElemSize) }
        some (s3, firstA, bb - s2.fElemSize)

/-- `SkDeque::push_back()`: returns the new state together with the slot
handed to the caller (`end - fElemSize`).  The source test
`end > last->fStop` (with `end = fEnd + fElemSize`) is kept as
`fStop < fEnd + fElemSize`. -/
def SkDeque.push_back (s0 : SkDeque) : Option (SkDeque × Addr × Nat) :=
  let s1 := { s0 with fCount := s0.fCount + 1 }
  let p :=
    match s1.fBack with
    | none =>
      let q := s1.allocateBlock s1.fAllocCount
      ({ q.1 with fFront := some q.2, fBack := some q.2 }, q.2)
    | some a => (s1, a)
  let s2 := p.1
  let lastA := p.2
  match s2.heap lastA with
  | none => none
  | some lastB =>
    match lastB.fBegin with
    | none =>
      -- INIT_CHUNK: last->fBegin = last->start(); end = fBegin + fElemSize
      let s3 := s2.updBlock lastA fun b =>
        { b with fBegin := some 0, fEnd := some s2.fElemSize }
      some (s3, lastA, 0)
    | some _ =>
      match lastB.fEnd with
      | none => none  -- fBegin set but fEnd NULL: the source would add to NULL
      | some ee =>
        if lastB.fStop < ee + s2.fElemSize then
          -- no more room in this chunk: allocate and link as the new back
          let q := s2.allocateBlock s2.fAllocCount
          let s3 := q.1
          let newA := q.2
          let s4 := s3.updBlock newA fun b => { b with fPrev := some lastA }
          let s5 := s4.updBlock lastA fun b => { b with fNext := some newA }
          let s6 := { s5 with fBack := some newA }
          let s7 := s6.updBlock newA fun b =>
            { b with fBegin := some 0, fEnd := some s6.fElemSize }
          some (s7, newA, 0)
        else
          let s3 := s2.updBlock lastA fun b => { b with fEnd := some (ee + s2.fElemSize) }
          some (s3, lastA, ee)

/-- `SkDeque::pop_front()`.  `none` models a failed `SkASSERT` or a `NULL`
dereference: `SkASSERT(fCount > 0)`, `SkASSERT(first != NULL)`, the
dereference of `first->fNext` when it is `NULL`, and
`SkASSERT(begin <= first->fEnd)` (translated as `¬ (fEnd < fBegin +
fElemSize)`). -/
def SkDeque.pop_front (s0 : SkDeque) : Option SkDeque :=
  if s0.fCount ≤ 0 then none
  else
    let s1 := { s0 with fCount := s0.fCount - 1 }
    match s1.fFront with
    | none => none
    | some frontA =>
      match s1.heap frontA with
      | none => none
      | some firstB =>
        let adv : Option (SkDeque × Addr) :=
          match firstB.fBegin with
          | some _ => some (s1, frontA)
          | none =>
            -- we were marked empty from before: advance and free the old front
            match firstB.fNext with
            | none => none  -- first->fPrev = NULL would dereference NULL
            | some nextA =>
              match s1.heap nextA with
              | none => none
              | some _ =>
                let s2 := s1.updBlock nextA fun b => { b with fPrev := none }
                let s3 := s2.freeBlock frontA
                some ({ s3 with fFront := some nextA }, nextA)
        match adv with
        | none => none
        | some (s4, fA) =>
          match s4.heap fA with
          | none => none
          | some fb =>
            match fb.fBegin, fb.fEnd with
            | some bb, some ee =>
              if ee < bb + s4.fElemSize then none  -- SkASSERT(begin <= first->fEnd)
              else if bb + s4.fElemSize < ee then
                some (s4.updBlock fA fun b => { b with fBegin := some (bb + s4.fElemSize) })
              else
                -- mark as empty
                some (s4.updBlock fA fun b => { b with fBegin := none, fEnd := none })
            | _, _ => none

/-- `SkDeque::pop_back()`.  The source computes `end = fEnd - fElemSize`,
asserts `end >= last->fBegin` and tests `end > last->fBegin`; both are
translated subtraction-free as `¬ (fEnd < fBegin + fElemSize)` and
`fBegin + fElemSize < fEnd`. -/
def SkDeque.pop_back (s0 : SkDeque) : Option SkDeque :=
  if s0.fCount ≤ 0 then none
  else
    let s1 := { s0 with fCount := s0.fCount - 1 }
    match s1.fBack with
    | none => none
    | some backA =>
      match s1.heap backA with
      | none => none
      | some lastB =>
        let adv : Option (SkDeque × Addr) :=
          match lastB.fEnd with
          | some _ => some (s1, backA)
          | none =>
            -- we were marked empty from before: advance and free the old back
            match lastB.fPrev with
            | none => none  -- last->fNext = NULL would dereference NULL
            | some prevA =>
              match s1.heap prevA with
              | none => none
              | some _ =>
                let s2 := s1.updBlock prevA fun b => { b with fNext := none }
                let s3 := s2.freeBlock backA
                some ({ s3 with fBack := some prevA }, prevA)
        match adv with
        | none => none
        | some (s4, bA) =>
          match s4.heap bA with
          | none => none
          | some lb =>
            match lb.fBegin, lb.fEnd with
            | some bb, some ee =>
              if ee < bb + s4.fElemSize then none  -- SkASSERT(end >= last->fBegin)
              else if bb + s4.fElemSize < ee then
                some (s4.updBlock bA fun b => { b with fEnd := some (ee - s4.fElemSize) })
              else
                -- mark as empty
                some (s4.updBlock bA fun b => { b with fBegin := none, fEnd := none })
            | _, _ => none

/-- Follow `fNext` pointers collecting the blocks, with explicit fuel (the
source loop in `numBlocksAllocated` terminates because the chain is finite;
on reachable states `nextAddr` bounds the chain length). -/
def chainList (h : Addr → Option Block) : Option Addr → Nat → List (Addr × Block)
  | none, _ => []
  | some _, 0 => []
  | some a, fuel + 1 =>
    match h a with
    | none => []
    | some b => (a, b) :: chainList h b.fNext fuel

/-- The block chain of a deque, read from `fFront` by following `fNext`. -/
def SkDeque.sChain (s : SkDeque) : List (Addr × Block) :=
  chainList s.heap s.fFront s.nextAddr

/-- `SkDeque::numBlocksAllocated()`:
`for (temp = fFront; temp; temp = temp->fNext) ++numBlocks`. -/
def SkDeque.numBlocksAllocated (s : SkDeque) : Nat :=
  s.sChain.length

/-- The caller constructs an element value into a slot it received (the
deque hands out raw storage; element construction is the caller's job). -/
def SkDeque.writeSlot (s : SkDeque) (a : Addr) (off : Nat) (v : Val) : SkDeque :=
  s.updBlock a fun b => { b with data := fun x => if x = off then v else b.data x }

/-- `push_back` followed by the caller writing value `v` into the slot. -/
def SkDeque.pushBackW (s : SkDeque) (v : Val) : Option SkDeque :=
  s.push_back.map fun q => q.1.writeSlot q.2.1 q.2.2 v

/-- `push_front` followed by the caller writing value `v` into the slot. -/
def SkDeque.pushFrontW (s : SkDeque) (v : Val) : Option SkDeque :=
  s.push_front.map fun q => q.1.writeSlot q.2.1 q.2.2 v

/-- `SkDeque::Iter`: the current block, the cursor as a byte offset into
that block's chunk (`none` = the `NULL` sentinel), and the element size. -/
structure Iter where
  fCurBlock : Option Addr
  fPos : Option Nat
  fElemSize : Nat
deriving DecidableEq

/-- `SkDeque::Iter::Iter()`: `fCurBlock(NULL), fPos(NULL), fElemSize(0)`. -/
def Iter.init : Iter := { fCurBlock := none, fPos := none, fElemSize := 0 }

/-- `SkDeque::Iter::IterStart`. -/
inductive IterStart where
  | kFront
  | kBack
deriving DecidableEq

/-- The loop `while (NULL != cur && NULL == cur->fBegin) cur = cur->fNext`,
with fuel (on reachable states the chain length bounds the iterations). -/
def skipEmptyFwd (h : Addr → Option Block) : Option Addr → Nat → Option Addr
  | none, _ => none
  | some a, 0 => some a
  | some a, fuel + 1 =>
    match h a with
    | none => some a
    | some b => if b.fBegin = none then skipEmptyFwd h b.fNext fuel else some a

/-- The loop `while (NULL != cur && NULL == cur->fEnd) cur = cur->fPrev`. -/
def skipEmptyBwd (h : Addr → Option Block) : Option Addr → Nat → Option Addr
  | none, _ => none
  | some a, 0 => some a
  | some a, fuel + 1 =>
    match h a with
    | none => some a
    | some b => if b.fEnd = none then skipEmptyBwd h b.fPrev fuel else some a

/-- `SkDeque::Iter::reset(d, startLoc)`. -/
def Iter.reset (d : SkDeque) (startLoc : IterStart) : Iter :=
  match startLoc with
  | IterStart.kFront =>
    let cb := skipEmptyFwd d.heap d.fFront (d.nextAddr + 1)
    { fCurBlock := cb,
      fPos :=
        match cb with
        | none => none
        | some a => (d.heap a).bind fun b => b.fBegin,
      fElemSize := d.fElemSize }
  | IterStart.kBack =>
    let cb := skipEmptyBwd d.heap d.fBack (d.nextAddr + 1)
    { fCurBlock := cb,
      fPos :=
        match cb with
        | none => none
        | some a => (d.heap a).bind fun b => b.fEnd.map fun ee => ee - d.fElemSize,
      fElemSize := d.fElemSize }

/-- `SkDeque::Iter::next()`: returns the pre-advance cursor, then advances.
`none` models a `NULL` dereference of `fCurBlock` or the failing
`SkASSERT(next <= fCurBlock->fEnd)`; otherwise the result is the returned
pointer (as a slot, `none` = `NULL`) paired with the updated iterator. -/
def Iter.next (d : SkDeque) (it : Iter) : Option (Option (Addr × Nat) × Iter) :=
  match it.fPos with
  | none => some (none, it)
  | some p =>
    match it.fCurBlock with
    | none => none
    | some a =>
      match d.heap a with
      | none => none
      | some b =>
        match b.fEnd with
        | none => none
        | some ee =>
          if ee < p + it.fElemSize then none  -- SkASSERT(next <= fCurBlock->fEnd)
          else if p + it.fElemSize = ee then
            -- exhausted this chunk, move to next
            let cb := skipEmptyFwd d.heap b.fNext (d.nextAddr + 1)
            let np : Option Nat :=
              match cb with
              | none => none
              | some a2 => (d.heap a2).bind fun b2 => b2.fBegin
            some (some (a, p), { it with fCurBlock := cb, fPos := np })
          else
            some (some (a, p), { it with fPos := some (p + it.fElemSize) })

/-- `SkDeque::Iter::prev()`: returns the pre-advance cursor, then retreats.
The source computes `prev = pos - fElemSize`, asserts
`prev >= fCurBlock->fBegin - fElemSize` and tests `prev < fCurBlock->fBegin`;
both are translated subtraction-free as `pos < fBegin` and
`pos < fBegin + fElemSize`. -/
def Iter.prev (d : SkDeque) (it : Iter) : Option (Option (Addr × Nat) × Iter) :=
  match it.fPos with
  | none => some (none, it)
  | some p =>
    match it.fCurBlock with
    | none => none
    | some a =>
      match d.heap a with
      | none => none
      | some b =>
        match b.fBegin with
        | none => none
        | some bb =>
          if p < bb then none  -- SkASSERT(prev >= fCurBlock->fBegin - fElemSize)
          else if p < bb + it.fElemSize then
            -- exhausted this chunk, move to prior
            let cb := skipEmptyBwd d.heap b.fPrev (d.nextAddr + 1)
            let np : Option Nat :=
              match cb with
              | none => none
              | some a2 => (d.heap a2).bind fun b2 => b2.fEnd.map fun ee => ee - it.fElemSize
            some (some (a, p), { it with fCurBlock := cb, fPos := np })
          else
            some (some (a, p), { it with fPos := some (p - it.fElemSize) })

/-- The list of pointers produced by `k` successive `next()` calls
(`none` if any call fails an assertion). -/
def nextStream (d : SkDeque) : Iter → Nat → Option (List (Option (Addr × Nat)))
  | _, 0 => some []
  | it, k + 1 =>
    match Iter.next d it with
    | none => none
    | some (r, it2) => (nextStream d it2 k).map fun l => r :: l

/-- The list of pointers produced by `k` successive `prev()` calls. -/
def prevStream (d : SkDeque) : Iter → Nat → Option (List (Option (Addr × Nat)))
  | _, 0 => some []
  | it, k + 1 =>
    match Iter.prev d it with
    | none => none
    | some (r, it2) => (prevStream d it2 k).map fun l => r :: l

/-- Push the values of `vs` at the back, in order. -/
def runPushes (s : SkDeque) : List Val → Option SkDeque
  | [] => some s
  | v :: vs => (s.pushBackW v).bind fun t => runPushes t vs

/-- `n` times: observe `front()` (which must be a live slot), then
`pop_front`; returns the observed values in order. -/
def runPopsObs (s : SkDeque) : Nat → Option (List Val × SkDeque)
  | 0 => some ([], s)
  | n + 1 =>
    match s.frontVal with
    | none => none
    | some v =>
      (s.pop_front).bind fun t =>
        (runPopsObs t n).map fun q => (v :: q.1, q.2)

/-- The deque states reachable by constructing a deque and then performing
valid operations.  `0 < es` reflects `sizeof(T) >= 1` in C++; pops carry
their `count > 0` precondition implicitly because `pop_front`/`pop_back`
return `none` when the entry assertion fails.  A push is followed by the
caller constructing a value into the returned slot (`pushBackW` /
`pushFrontW`), and callers may also rewrite any slot they hold
(`writeSlot`). -/
inductive Reach : SkDeque → Prop where
  | init0 (es ac : Nat) : 0 < es → 1 ≤ ac → Reach (SkDeque.mk0 es ac)
  | initS (es cap ac : Nat) : 0 < es → 1 ≤ ac → Reach (SkDeque.mkWithStorage es cap ac)
  | pushF (s t : SkDeque) (v : Val) : Reach s → s.pushFrontW v = some t → Reach t
  | pushB (s t : SkDeque) (v : Val) : Reach s → s.pushBackW v = some t → Reach t
  | popF (s t : SkDeque) : Reach s → s.pop_front = some t → Reach t
  | popB (s t : SkDeque) : Reach s → s.pop_back = some t → Reach t
  | write (s : SkDeque) (a : Addr) (off : Nat) (v : Val) : Reach s → Reach (s.writeSlot a off v)

/-- `Chain h p c L`: starting from the pointer `c`, following `fNext` visits
exactly the blocks of `L` (with their heap contents), each block's `fPrev`
pointing back correctly; `p` is the address of the block before the segment
(`none` at the head of the chain). -/
inductive Chain (h : Addr → Option Block) : Option Addr → Option Addr → List (Addr × Block) → Prop
  | nil (p : Option Addr) : Chain h p none []
  | cons (p : Option Addr) (a : Addr) (b : Block) (rest : List (Addr × Block)) :
      h a = some b → b.fPrev = p → Chain h (some a) b.fNext rest →
      Chain h p (some a) ((a, b) :: rest)

/-- The per-block occupancy invariant: the chunk holds at least one element,
the two sentinels are set and cleared together, and a non-empty occupied
range `[fBegin, fEnd)` lies inside the chunk and spans a whole number of
elements (at least one). -/
def BlockOK (es : Nat) (b : Block) : Prop :=
  es ≤ b.fStop ∧
  (b.fBegin = none ↔ b.fEnd = none) ∧
  ∀ bb ee, b.fBegin = some bb → b.fEnd = some ee →
    bb + es ≤ ee ∧ ee ≤ b.fStop ∧ (ee - bb) % es = 0

/-- The elements stored in one block, front to back. -/
def blockElems (es : Nat) (b : Block) : List Val :=
  match b.fBegin, b.fEnd with
  | some bb, some ee => (List.range ((ee - bb) / es)).map fun i => b.data (bb + i * es)
  | _, _ => []

/-- All elements of a chain, front to back. -/
def absList (es : Nat) (ch : List (Addr × Block)) : List Val :=
  (ch.map fun q => blockElems es q.2).flatten

/-- The live element slots of one block, front to back. -/
def blockSlots (es : Nat) (a : Addr) (b : Block) : List (Addr × Nat) :=
  match b.fBegin, b.fEnd with
  | some bb, some ee => (List.range ((ee - bb) / es)).map fun i => (a, bb + i * es)
  | _, _ => []

/-- All live element slots of a chain, front to back. -/
def liveSlots (es : Nat) (ch : List (Addr × Block)) : List (Addr × Nat) :=
  (ch.map fun q => blockSlots es q.1 q.2).flatten

/-- Only the first and last block of a chain may be marked empty: every
middle block (an element of `ch.tail.dropLast`) is non-empty. -/
def MidOK (ch : List (Addr × Block)) : Prop :=
  ∀ q ∈ ch.tail.dropLast, q.2.fBegin ≠ none

/-- The well-formedness invariant of a reachable deque state, with `ch` the
chain of blocks from `fFront` to `fBack`. -/
structure WF (s : SkDeque) (ch : List (Addr × Block)) : Prop where
  es_pos : 0 < s.fElemSize
  ac_pos : 1 ≤ s.fAllocCount
  chain : Chain s.heap none s.fFront ch
  back_eq : s.fBack = (ch.map Prod.fst).getLast?
  nodup : (ch.map Prod.fst).Nodup
  bound : ∀ a ∈ ch.map Prod.fst, a < s.nextAddr
  blocks_ok : ∀ q ∈ ch, BlockOK s.fElemSize q.2
  mid : MidOK ch
  count_eq : s.fCount = ((absList s.fElemSize ch).length : Int)

/-- Well-formedness, with the chain existential. -/
def WFs (s : SkDeque) : Prop := ∃ ch, WF s ch

/-- Backward chain segment: from cursor `c`, following `fPrev` visits
exactly the blocks of `L` (in back-to-front order); `n` is the address of
the block after the segment (`none` past the back of the chain). -/
inductive SegB (h : Addr → Option Block) : Option Addr → Option Addr → List (Addr × Block) → Prop
  | nil (n : Option Addr) : SegB h n none []
  | cons (n : Option Addr) (a : Addr) (b : Block) (rest : List (Addr × Block)) :
      h a = some b → b.fNext = n → SegB h (some a) b.fPrev rest →
      SegB h n (some a) ((a, b) :: rest)

/-- The slots of a backward block list, each block's slots from back to
front (the order `prev()` visits them). -/
def bwdSlots (es : Nat) (M : List (Addr × Block)) : List (Addr × Nat) :=
  (M.map fun q => (blockSlots es q.1 q.2).reverse).flatten

/-! ### Concrete demonstration states -/

/-- A deque over caller-supplied inline storage that holds exactly one
element of size 4 (`storageSize - sizeof(Block) = 4`). -/
def c1s0 : SkDeque := SkDeque.mkWithStorage 4 4 1

def c1s1 : SkDeque := (c1s0.pushBackW 1).getD c1s0

def c1s2 : SkDeque := (c1s1.pushBackW 2).getD c1s1

def c1s3 : SkDeque := (c1s2.pop_front).getD c1s2

def c1s4 : SkDeque := (c1s3.pop_front).getD c1s3

def c4s0 : SkDeque := SkDeque.mk0 4 1

def c4s1 : SkDeque := (c4s0.pushBackW 1).getD c4s0

def c4s2 : SkDeque := (c4s1.pushBackW 2).getD c4s1

def c4s3 : SkDeque := (c4s2.pop_front).getD c4s2

def c4s4 : SkDeque := (c4s3.pop_back).getD c4s3

def d0 : SkDeque := SkDeque.mk0 4 2

def d1 : SkDeque := (d0.pushBackW 1).getD d0

def d2 : SkDeque := (d1.pushBackW 2).getD d1

def d3 : SkDeque := (d2.pushBackW 3).getD d2

def d4 : SkDeque := (d3.pushBackW 4).getD d3

def d5 : SkDeque := (d4.pushBackW 5).getD d4

def dp1 : SkDeque := (d5.pop_front).getD d5

def dp2 : SkDeque := (dp1.pop_front).getD dp1

def dp3 : SkDeque := (dp2.pop_front).getD dp2

def dp4 : SkDeque := (dp3.pop_front).getD dp3

def dp5 : SkDeque := (dp4.pop_front).getD dp4

/-! ### Basic chain lemmas -/

theorem Chain.mem_heap {h : Addr → Option Block} {p c : Option Addr}
    {L : List (Addr × Block)} (hch : Chain h p c L) :
    ∀ q ∈ L, h q.1 = some q.2 := by
  induction hch with
  | nil => simp
  | cons p a b rest ha hp hrest ih =>
    intro q hq
    rcases List.mem_cons.mp hq with rfl | hq
    · exact ha
    · exact ih q hq

theorem Chain.frame {h h2 : Addr → Option Block} {p c : Option Addr}
    {L : List (Addr × Block)} (hch : Chain h p c L)
    (hfr : ∀ x ∈ L.map Prod.fst, h2 x = h x) : Chain h2 p c L := by
  induction hch with
  | nil => exact Chain.nil _
  | cons p a b rest ha hp hrest ih =>
    refine Chain.cons p a b rest ?_ hp (ih ?_)
    · rw [hfr a (by simp), ha]
    · intro x hx
      exact hfr x (by simp [hx])

theorem Chain.nil_inv {h : Addr → Option Block} {p c : Option Addr}
    (hch : Chain h p c []) : c = none := by
  cases hch; rfl

theorem Chain.cons_inv {h : Addr → Option Block} {p c : Option Addr}
    {q : Addr × Block} {L : List (Addr × Block)} (hch : Chain h p c (q :: L)) :
    c = some q.1 ∧ h q.1 = some q.2 ∧ q.2.fPrev = p ∧ Chain h (some q.1) q.2.fNext L := by
  obtain ⟨a, b⟩ := q
  cases hch with
  | cons _ _ _ _ ha hp hrest => exact ⟨rfl, ha, hp, hrest⟩

/-- Updating the fields of one block without touching its links preserves the
chain shape (every entry at the updated address gets the update applied). -/
theorem Chain.map_update {h : Addr → Option Block} {p c : Option Addr}
    {L : List (Addr × Block)} (hch : Chain h p c L) (a : Addr) (f : Block → Block)
    (hnext : ∀ b, (f b).fNext = b.fNext) (hprev : ∀ b, (f b).fPrev = b.fPrev) :
    Chain (fun x => if x = a then (h x).map f else h x) p c
      (L.map fun q => if q.1 = a then (q.1, f q.2) else q) := by
  induction hch with
  | nil => exact Chain.nil _
  | cons p a0 b rest ha hp hrest ih =>
    by_cases hcase : a0 = a
    · subst hcase
      simp only [List.map_cons, if_pos rfl]
      refine Chain.cons p a0 (f b) _ ?_ ?_ ?_
      · simp [ha]
      · rw [hprev, hp]
      · rw [hnext]; exact ih
    · simp only [List.map_cons, if_neg hcase]
      refine Chain.cons p a0 b _ ?_ hp ih
      simp [hcase, ha]

/-- A chain with the last block's links intact, a fresh block appended after
it, and everything else unchanged, is again a chain. -/
theorem Chain.snoc {h h2 : Addr → Option Block} {p c : Option Addr}
    {L : List (Addr × Block)} {a n : Addr} {b b2 nb : Block}
    (hch : Chain h p c (L ++ [(a, b)]))
    (hfr : ∀ x ∈ L.map Prod.fst, h2 x = h x)
    (ha2 : h2 a = some b2) (hprev2 : b2.fPrev = b.fPrev) (hnext2 : b2.fNext = some n)
    (hn : h2 n = some nb) (hnp : nb.fPrev = some a) (hnn : nb.fNext = none) :
    Chain h2 p c (L ++ [(a, b2), (n, nb)]) := by
  induction L generalizing p c with
  | nil =>
    obtain ⟨hc, ha, hp, hrest⟩ := hch.cons_inv
    subst hc
    refine Chain.cons p a b2 _ ha2 (by rw [hprev2, hp]) ?_
    rw [hnext2]
    exact Chain.cons (some a) n nb [] hn hnp (hnn ▸ Chain.nil _)
  | cons q L ih =>
    obtain ⟨hc, ha, hp, hrest⟩ := hch.cons_inv
    subst hc
    refine Chain.cons p q.1 q.2 _ ?_ hp ?_
    · rw [hfr q.1 (by simp), ha]
    · exact ih hrest fun x hx => hfr x (by simp [hx])

/-- A chain with a fresh block prepended before the old head (whose `fPrev`
is updated to the new block) is again a chain. -/
theorem Chain.cons_front {h h2 : Addr → Option Block} {c : Option Addr}
    {L : List (Addr × Block)} {a n : Addr} {b b2 nb : Block}
    (hch : Chain h none c ((a, b) :: L))
    (hfr : ∀ x ∈ L.map Prod.fst, h2 x = h x)
    (hn : h2 n = some nb) (hnp : nb.fPrev = none) (hnn : nb.fNext = some a)
    (ha2 : h2 a = some b2) (hprev2 : b2.fPrev = some n) (hnext2 : b2.fNext = b.fNext) :
    Chain h2 none (some n) ((n, nb) :: (a, b2) :: L) := by
  obtain ⟨hc, ha, hp, hrest⟩ := hch.cons_inv
  refine Chain.cons none n nb _ hn hnp ?_
  rw [hnn]
  refine Chain.cons (some n) a b2 _ ha2 hprev2 ?_
  rw [hnext2]
  exact hrest.frame hfr

/-- Dropping the head block of a chain (freeing it and clearing the new
head's `fPrev`) yields a chain again. -/
theorem Chain.drop_head {h h2 : Addr → Option Block} {c : Option Addr} {a a2 : Addr}
    {b b2 b2' : Block} {L : List (Addr × Block)}
    (hch : Chain h none c ((a, b) :: (a2, b2) :: L))
    (hfr : ∀ x ∈ L.map Prod.fst, h2 x = h x)
    (ha2 : h2 a2 = some b2') (hprev2 : b2'.fPrev = none) (hnext2 : b2'.fNext = b2.fNext) :
    Chain h2 none (some a2) ((a2, b2') :: L) := by
  obtain ⟨hc, ha, hp, hrest⟩ := hch.cons_inv
  obtain ⟨hc', ha', hp', hrest'⟩ := hrest.cons_inv
  refine Chain.cons none a2 b2' _ ha2 hprev2 ?_
  rw [hnext2]
  exact hrest'.frame hfr

/-- Dropping the last block of a chain (freeing it and clearing the new last
block's `fNext`) yields a chain again. -/
theorem Chain.drop_last {h h2 : Addr → Option Block} {p c : Option Addr}
    {a a2 : Addr} {b b2 b2' : Block} {L : List (Addr × Block)}
    (hch : Chain h p c (L ++ [(a, b), (a2, b2)]))
    (hfr : ∀ x ∈ L.map Prod.fst, h2 x = h x)
    (ha2 : h2 a = some b2') (hprev2 : b2'.fPrev = b.fPrev) (hnext2 : b2'.fNext = none) :
    Chain h2 p c (L ++ [(a, b2')]) := by
  induction L generalizing p c with
  | nil =>
    obtain ⟨hc, ha, hp, hrest⟩ := hch.cons_inv
    subst hc
    exact Chain.cons p a b2' _ ha2 (by rw [hprev2, hp]) (by rw [hnext2]; exact Chain.nil _)
  | cons q L ih =>
    obtain ⟨hc, ha, hp, hrest⟩ := hch.cons_inv
    subst hc
    refine Chain.cons p q.1 q.2 _ ?_ hp ?_
    · rw [hfr q.1 (by simp), ha]
    · exact ih hrest fun x hx => hfr x (by simp [hx])

/-- With enough fuel, `chainList` recovers the chain. -/
theorem chainList_eq {h : Addr → Option Block} {p c : Option Addr}
    {L : List (Addr × Block)} (hch : Chain h p c L) :
    ∀ fuel, L.length ≤ fuel → chainList h c fuel = L := by
  induction hch with
  | nil => intro fuel _; cases fuel <;> rfl
  | cons p a b rest ha hp hrest ih =>
    intro fuel hfuel
    match fuel, hfuel with
    | fuel + 1, hfuel =>
      simp only [chainList, ha]
      rw [ih fuel (by simpa using hfuel)]

/-- A duplicate-free list of naturals all below `n` has length at most `n`. -/
theorem length_le_of_nodup_lt {l : List Nat} {n : Nat} (hn : l.Nodup)
    (hb : ∀ a ∈ l, a < n) : l.length ≤ n := by
  have hsub : l.toFinset ⊆ Finset.range n := by
    intro x hx
    simp only [Finset.mem_range]
    exact hb x (List.mem_toFinset.mp hx)
  have := Finset.card_le_card hsub
  rwa [List.toFinset_card_of_nodup hn, Finset.card_range] at this

/-! ### Per-block slot and element lemmas -/

theorem div_mul_add_eq {es bb ee : Nat} (hle : bb ≤ ee) (hdvd : (ee - bb) % es = 0) :
    bb + ((ee - bb) / es) * es = ee := by
  have h := Nat.div_mul_cancel (Nat.dvd_of_mod_eq_zero hdvd)
  omega

theorem blockSlots_isEmpty {es : Nat} {a : Addr} {b : Block}
    (h1 : b.fBegin = none) : blockSlots es a b = [] := by
  simp [blockSlots, h1]

theorem blockSlots_eq {es bb ee : Nat} {a : Addr} {b : Block}
    (h1 : b.fBegin = some bb) (h2 : b.fEnd = some ee) :
    blockSlots es a b = (List.range ((ee - bb) / es)).map fun i => (a, bb + i * es) := by
  simp [blockSlots, h1, h2]

theorem blockElems_isEmpty {es : Nat} {b : Block}
    (h1 : b.fBegin = none) : blockElems es b = [] := by
  simp [blockElems, h1]

/-- The elements of a block are the values stored at its live slots. -/
theorem blockElems_eq_map {es : Nat} (a : Addr) (b : Block) :
    blockElems es b = (blockSlots es a b).map fun q => b.data q.2 := by
  unfold blockElems blockSlots
  cases b.fBegin <;> cases b.fEnd <;> simp [List.map_map, Function.comp]

theorem blockSlots_length {es bb ee : Nat} {a : Addr} {b : Block}
    (h1 : b.fBegin = some bb) (h2 : b.fEnd = some ee) :
    (blockSlots es a b).length = (ee - bb) / es := by
  simp [blockSlots_eq h1 h2]

theorem blockElems_length {es bb ee : Nat} {b : Block}
    (h1 : b.fBegin = some bb) (h2 : b.fEnd = some ee) :
    (blockElems es b).length = (ee - bb) / es := by
  rw [blockElems_eq_map 0, List.length_map, blockSlots_length h1 h2]

theorem blockSlots_mem {es bb ee : Nat} {a : Addr} {b : Block} (hes : 0 < es)
    (h1 : b.fBegin = some bb) (h2 : b.fEnd = some ee)
    (hle : bb ≤ ee) (hdvd : (ee - bb) % es = 0) :
    ∀ q ∈ blockSlots es a b, q.1 = a ∧ bb ≤ q.2 ∧ q.2 + es ≤ ee := by
  intro q hq
  rw [blockSlots_eq h1 h2] at hq
  obtain ⟨i, hi, rfl⟩ := List.mem_map.mp hq
  rw [List.mem_range] at hi
  refine ⟨rfl, by omega, ?_⟩
  have hmul : ee = bb + ((ee - bb) / es) * es := (div_mul_add_eq hle hdvd).symm
  have h7 : (i + 1) * es ≤ ((ee - bb) / es) * es := Nat.mul_le_mul_right es hi
  have h8 : (i + 1) * es = i * es + 1 * es := Nat.add_mul i 1 es
  have h9 : 1 * es = es := Nat.one_mul es
  omega

/-- Extending the occupied range at the back by one element appends a slot. -/
theorem blockSlots_snoc {es bb ee : Nat} {a : Addr} {b b2 : Block} (hes : 0 < es)
    (h1 : b.fBegin = some bb) (h2 : b.fEnd = some ee)
    (hle : bb ≤ ee) (hdvd : (ee - bb) % es = 0)
    (h21 : b2.fBegin = some bb) (h22 : b2.fEnd = some (ee + es)) :
    blockSlots es a b2 = blockSlots es a b ++ [(a, ee)] := by
  rw [blockSlots_eq h21 h22, blockSlots_eq h1 h2]
  have hn : (ee + es - bb) / es = (ee - bb) / es + 1 := by
    have : ee + es - bb = (ee - bb) + es := by omega
    rw [this, Nat.add_div_right _ hes]
  rw [hn, List.range_succ, List.map_append]
  congr 1
  simp only [List.map_cons, List.map_nil]
  rw [div_mul_add_eq hle hdvd]

/-- Extending the occupied range at the front by one element prepends a slot. -/
theorem blockSlots_cons {es bb ee : Nat} {a : Addr} {b b2 : Block} (hes : 0 < es)
    (h1 : b.fBegin = some bb) (h2 : b.fEnd = some ee)
    (hge : es ≤ bb) (hle : bb ≤ ee)
    (h21 : b2.fBegin = some (bb - es)) (h22 : b2.fEnd = some ee) :
    blockSlots es a b2 = (a, bb - es) :: blockSlots es a b := by
  rw [blockSlots_eq h21 h22, blockSlots_eq h1 h2]
  have hn : (ee - (bb - es)) / es = (ee - bb) / es + 1 := by
    have : ee - (bb - es) = (ee - bb) + es := by omega
    rw [this, Nat.add_div_right _ hes]
  rw [hn, List.range_succ_eq_map, List.map_cons, List.map_map]
  congr 1
  · simp
  · refine List.map_congr_left fun i _ => ?_
    simp only [Function.comp_apply]
    congr 1
    have : bb - es + Nat.succ i * es = bb - es + es + i * es := by
      rw [Nat.succ_mul]; omega
    omega

/-- Filling an empty block from the back end (`push_back`'s INIT_CHUNK). -/
theorem blockSlots_initBack {es : Nat} {a : Addr} {b2 : Block} (hes : 0 < es)
    (h21 : b2.fBegin = some 0) (h22 : b2.fEnd = some es) :
    blockSlots es a b2 = [(a, 0)] := by
  rw [blockSlots_eq h21 h22]
  have : (es - 0) / es = 1 := by simp [Nat.div_self hes]
  rw [this]
  have hr : List.range 1 = [0] := rfl
  rw [hr]
  simp

/-- Filling an empty block from the front end (`push_front`'s INIT_CHUNK). -/
theorem blockSlots_initFront {es cap : Nat} {a : Addr} {b2 : Block} (hes : 0 < es)
    (hcap : es ≤ cap) (h21 : b2.fBegin = some (cap - es)) (h22 : b2.fEnd = some cap) :
    blockSlots es a b2 = [(a, cap - es)] := by
  rw [blockSlots_eq h21 h22]
  have : (cap - (cap - es)) / es = 1 := by
    have : cap - (cap - es) = es := by omega
    rw [this, Nat.div_self hes]
  rw [this]
  have hr : List.range 1 = [0] := rfl
  rw [hr]
  simp

/-- Shrinking the occupied range at the front by one element is `tail`. -/
theorem blockSlots_tail {es bb ee : Nat} {a : Addr} {b b2 : Block} (hes : 0 < es)
    (h1 : b.fBegin = some bb) (h2 : b.fEnd = some ee)
    (hge : bb + es ≤ ee)
    (h21 : b2.fBegin = some (bb + es)) (h22 : b2.fEnd = some ee) :
    blockSlots es a b = (a, bb) :: blockSlots es a b2 := by
  rw [blockSlots_eq h21 h22, blockSlots_eq h1 h2]
  have hn : (ee - bb) / es = (ee - (bb + es)) / es + 1 := by
    have : ee - bb = (ee - (bb + es)) + es := by omega
    rw [this, Nat.add_div_right _ hes]
  rw [hn, List.range_succ_eq_map, List.map_cons, List.map_map]
  congr 1
  · simp
  · refine List.map_congr_left fun i _ => ?_
    simp only [Function.comp_apply]
    congr 1
    rw [Nat.succ_mul]
    omega

/-- Shrinking the occupied range at the back by one element drops the last
slot. -/
theorem blockSlots_dropLast {es bb ee : Nat} {a : Addr} {b b2 : Block} (hes : 0 < es)
    (h1 : b.fBegin = some bb) (h2 : b.fEnd = some ee)
    (hge : bb + es ≤ ee) (hdvd : (ee - bb) % es = 0)
    (h21 : b2.fBegin = some bb) (h22 : b2.fEnd = some (ee - es)) :
    blockSlots es a b = blockSlots es a b2 ++ [(a, ee - es)] := by
  rw [blockSlots_eq h21 h22, blockSlots_eq h1 h2]
  have hn : (ee - bb) / es = (ee - es - bb) / es + 1 := by
    have h3 : ee - bb = (ee - es - bb) + es := by omega
    rw [h3, Nat.add_div_right _ hes]
  rw [hn, List.range_succ, List.map_append]
  congr 1
  simp only [List.map_cons, List.map_nil]
  have hdvd2 : (ee - es - bb) % es = 0 := by
    obtain ⟨k, hk⟩ := Nat.dvd_of_mod_eq_zero hdvd
    have h6 : (k - 1) * es = k * es - 1 * es := Nat.sub_mul k 1 es
    have h8 : es * k = k * es := Nat.mul_comm es k
    have h9 : 1 * es = es := Nat.one_mul es
    have h5 : ee - es - bb = (k - 1) * es := by omega
    rw [h5]
    exact Nat.mul_mod_left _ _
  rw [div_mul_add_eq (by omega) hdvd2]

/-! ### Chain-wide element-list lemmas -/

theorem absList_nil {es : Nat} : absList es [] = [] := rfl

theorem absList_cons {es : Nat} {q : Addr × Block} {ch : List (Addr × Block)} :
    absList es (q :: ch) = blockElems es q.2 ++ absList es ch := by
  simp [absList]

theorem absList_append {es : Nat} {ch1 ch2 : List (Addr × Block)} :
    absList es (ch1 ++ ch2) = absList es ch1 ++ absList es ch2 := by
  simp [absList, List.flatten_append]

theorem liveSlots_nil {es : Nat} : liveSlots es [] = [] := rfl

theorem liveSlots_cons {es : Nat} {q : Addr × Block} {ch : List (Addr × Block)} :
    liveSlots es (q :: ch) = blockSlots es q.1 q.2 ++ liveSlots es ch := by
  simp [liveSlots]

theorem liveSlots_append {es : Nat} {ch1 ch2 : List (Addr × Block)} :
    liveSlots es (ch1 ++ ch2) = liveSlots es ch1 ++ liveSlots es ch2 := by
  simp [liveSlots, List.flatten_append]

/-- A pointwise update that touches no member of the list leaves it fixed. -/
theorem map_update_not_mem {a : Addr} {f : Block → Block} {L : List (Addr × Block)}
    (h : a ∉ L.map Prod.fst) :
    (L.map fun q => if q.1 = a then (q.1, f q.2) else q) = L := by
  have : ∀ q ∈ L, (if q.1 = a then (q.1, f q.2) else q) = q := by
    intro q hq
    have : q.1 ≠ a := fun heq => h (heq ▸ List.mem_map_of_mem Prod.fst hq)
    simp [this]
  rw [List.map_congr_left this, List.map_id']

/-- On a well-formed state, `sChain` is the chain of the invariant. -/
theorem WF.sChain_eq {s : SkDeque} {ch : List (Addr × Block)} (hwf : WF s ch) :
    s.sChain = ch := by
  refine chainList_eq hwf.chain s.nextAddr ?_
  have := length_le_of_nodup_lt hwf.nodup hwf.bound
  simpa using this

/-! ### Additional chain update lemmas -/

/-- Updating the last block's non-link fields preserves the chain shape. -/
theorem Chain.update_last {h h2 : Addr → Option Block} {p c : Option Addr}
    {L : List (Addr × Block)} {a : Addr} {b b2 : Block}
    (hch : Chain h p c (L ++ [(a, b)]))
    (hfr : ∀ x ∈ L.map Prod.fst, h2 x = h x)
    (ha2 : h2 a = some b2) (hp2 : b2.fPrev = b.fPrev) (hn2 : b2.fNext = b.fNext) :
    Chain h2 p c (L ++ [(a, b2)]) := by
  induction L generalizing p c with
  | nil =>
    obtain ⟨hc, ha, hp, hrest⟩ := hch.cons_inv
    subst hc
    refine Chain.cons p a b2 _ ha2 (by rw [hp2, hp]) ?_
    rw [hn2]
    have := hrest.nil_inv
    rw [this]
    exact Chain.nil _
  | cons q L ih =>
    obtain ⟨hc, ha, hp, hrest⟩ := hch.cons_inv
    subst hc
    refine Chain.cons p q.1 q.2 _ ?_ hp ?_
    · rw [hfr q.1 (by simp), ha]
    · exact ih hrest fun x hx => hfr x (by simp [hx])

/-- Updating the head block's non-link fields preserves the chain shape. -/
theorem Chain.update_head {h h2 : Addr → Option Block} {p c : Option Addr}
    {R : List (Addr × Block)} {a : Addr} {b b2 : Block}
    (hch : Chain h p c ((a, b) :: R))
    (hfr : ∀ x ∈ R.map Prod.fst, h2 x = h x)
    (ha2 : h2 a = some b2) (hp2 : b2.fPrev = b.fPrev) (hn2 : b2.fNext = b.fNext) :
    Chain h2 p c ((a, b2) :: R) := by
  obtain ⟨hc, ha, hp, hrest⟩ := hch.cons_inv
  subst hc
  refine Chain.cons p a b2 _ ha2 (by rw [hp2, hp]) ?_
  rw [hn2]
  exact hrest.frame hfr

/-- Updating the non-link fields of a block in the middle of a chain
preserves the chain shape. -/
theorem Chain.update_mid {h h2 : Addr → Option Block} {p c : Option Addr}
    {pre post : List (Addr × Block)} {a : Addr} {b b2 : Block}
    (hch : Chain h p c (pre ++ (a, b) :: post))
    (hfr : ∀ x ∈ (pre ++ post).map Prod.fst, h2 x = h x)
    (ha2 : h2 a = some b2) (hp2 : b2.fPrev = b.fPrev) (hn2 : b2.fNext = b.fNext) :
    Chain h2 p c (pre ++ (a, b2) :: post) := by
  induction pre generalizing p c with
  | nil =>
    simp only [List.nil_append] at hch ⊢
    obtain ⟨hc, ha, hp, hrest⟩ := hch.cons_inv
    subst hc
    refine Chain.cons p a b2 _ ha2 (by rw [hp2, hp]) ?_
    rw [hn2]
    refine hrest.frame fun x hx => hfr x ?_
    simpa using hx
  | cons q pre ih =>
    simp only [List.cons_append] at hch ⊢
    obtain ⟨hc, ha, hp, hrest⟩ := hch.cons_inv
    subst hc
    refine Chain.cons p q.1 q.2 _ ?_ hp ?_
    · rw [hfr q.1 (by simp), ha]
    · exact ih hrest fun x hx => hfr x (by simp at hx ⊢; tauto)

/-! ### MidOK transfer lemmas -/

theorem mem_of_mem_dropLast {α : Type} {q : α} {L : List α}
    (h : q ∈ L.dropLast) : q ∈ L :=
  (List.dropLast_sublist L).mem h

theorem MidOK_nil : MidOK [] := by intro q hq; simp at hq

theorem MidOK_single {q : Addr × Block} : MidOK [q] := by
  intro r hr; simp at hr

/-- Middle entries of `pre ++ q :: post`, in membership form. -/
theorem MidOK.of_split {pre post : List (Addr × Block)} {q x : Addr × Block}
    (h : MidOK (pre ++ q :: post))
    (hx : x ∈ (pre ++ q :: post).tail.dropLast) : x.2.fBegin ≠ none :=
  h x hx

/-- Replacing one entry by an entry that is empty only if the old one was
keeps `MidOK`. -/
theorem MidOK.update {pre post : List (Addr × Block)} {q q2 : Addr × Block}
    (h : MidOK (pre ++ q :: post)) (hq : q2.2.fBegin = none → q.2.fBegin = none) :
    MidOK (pre ++ q2 :: post) := by
  cases pre with
  | nil =>
    intro x hx
    exact h x hx
  | cons p0 pre =>
    cases post with
    | nil =>
      intro x hx
      simp only [List.cons_append, List.tail_cons] at hx ⊢
      rw [List.dropLast_concat] at hx
      refine h x ?_
      simp only [List.cons_append, List.tail_cons]
      rw [List.dropLast_concat]
      exact hx
    | cons r0 post =>
      intro x hx
      simp only [List.cons_append, List.tail_cons] at hx ⊢
      rw [List.dropLast_append_cons, List.dropLast_cons_of_ne_nil (by simp)] at hx
      rcases List.mem_append.mp hx with hx | hx
      · refine h x ?_
        simp only [List.cons_append, List.tail_cons]
        rw [List.dropLast_append_cons, List.dropLast_cons_of_ne_nil (by simp)]
        exact List.mem_append_left _ hx
      · rcases List.mem_cons.mp hx with rfl | hx
        · intro hnone
          refine h q ?_ (hq hnone)
          simp only [List.cons_append, List.tail_cons]
          rw [List.dropLast_append_cons, List.dropLast_cons_of_ne_nil (by simp)]
          exact List.mem_append_right _ (by simp)
        · refine h x ?_
          simp only [List.cons_append, List.tail_cons]
          rw [List.dropLast_append_cons, List.dropLast_cons_of_ne_nil (by simp)]
          exact List.mem_append_right _ (by simp [hx])

/-- Replacing the last entry keeps `MidOK`. -/
theorem MidOK.replace_last {L : List (Addr × Block)} {q q2 : Addr × Block}
    (h : MidOK (L ++ [q])) : MidOK (L ++ [q2]) := by
  intro r hr
  cases L with
  | nil => simp at hr
  | cons x L =>
    refine h r ?_
    simp only [List.cons_append, List.tail_cons] at hr ⊢
    rw [List.dropLast_concat] at hr
    rw [List.dropLast_concat]
    exact hr

/-- Replacing the head entry keeps `MidOK`. -/
theorem MidOK.replace_head {R : List (Addr × Block)} {q q2 : Addr × Block}
    (h : MidOK (q :: R)) : MidOK (q2 :: R) := by
  intro r hr
  exact h r hr

/-- Appending a new last block after the (non-empty) old last block. -/
theorem MidOK.append_last {L : List (Addr × Block)} {q q2 r : Addr × Block}
    (h : MidOK (L ++ [q])) (hq2 : q2.2.fBegin ≠ none) :
    MidOK (L ++ [q2, r]) := by
  intro x hx
  cases L with
  | nil => simp at hx
  | cons y L =>
    simp only [List.cons_append, List.tail_cons] at hx
    have hre : L ++ [q2, r] = (L ++ [q2]) ++ [r] := by simp
    rw [hre, List.dropLast_concat] at hx
    rcases List.mem_append.mp hx with hx | hx
    · refine h x ?_
      simp only [List.cons_append, List.tail_cons]
      rw [List.dropLast_concat]
      exact hx
    · simp only [List.mem_singleton] at hx
      subst hx
      exact hq2

/-- Prepending a new head block before the (non-empty) old head block. -/
theorem MidOK.prepend {R : List (Addr × Block)} {q q2 n : Addr × Block}
    (h : MidOK (q :: R)) (hq2 : q2.2.fBegin ≠ none) :
    MidOK (n :: q2 :: R) := by
  intro x hx
  rw [List.tail_cons] at hx
  cases R with
  | nil => simp at hx
  | cons y R =>
    rw [List.dropLast_cons_of_ne_nil (by simp)] at hx
    rcases List.mem_cons.mp hx with rfl | hx
    · exact hq2
    · exact h x hx

/-- Dropping the head block keeps `MidOK` (the new head may be anything). -/
theorem MidOK.of_drop_head {R : List (Addr × Block)} {q q1 q2 : Addr × Block}
    (h : MidOK (q :: q1 :: R)) : MidOK (q2 :: R) := by
  intro x hx
  rw [List.tail_cons] at hx
  cases R with
  | nil => simp at hx
  | cons y R =>
    refine h x ?_
    rw [List.tail_cons, List.dropLast_cons_of_ne_nil (by simp)]
    exact List.mem_cons_of_mem _ hx

/-- Dropping the last block keeps `MidOK` (the new last may be anything). -/
theorem MidOK.of_drop_last {L : List (Addr × Block)} {q1 q2 q3 : Addr × Block}
    (h : MidOK (L ++ [q1, q2])) : MidOK (L ++ [q3]) := by
  intro x hx
  cases L with
  | nil => simp at hx
  | cons y L =>
    simp only [List.cons_append, List.tail_cons] at hx
    rw [List.dropLast_concat] at hx
    refine h x ?_
    simp only [List.cons_append, List.tail_cons]
    have hre : L ++ [q1, q2] = (L ++ [q1]) ++ [q2] := by simp
    rw [hre, List.dropLast_concat]
    exact List.mem_append_left _ hx

/-- `BlockOK` only looks at `fBegin`, `fEnd` and `fStop`. -/
theorem BlockOK.congr {es : Nat} {b b2 : Block} (h : BlockOK es b)
    (h1 : b2.fBegin = b.fBegin) (h2 : b2.fEnd = b.fEnd) (h3 : b2.fStop = b.fStop) :
    BlockOK es b2 := by
  obtain ⟨hc, hiff, hr⟩ := h
  refine ⟨h3 ▸ hc, by rw [h1, h2]; exact hiff, ?_⟩
  intro bb ee hbb hee
  rw [h1] at hbb
  rw [h2] at hee
  have := hr bb ee hbb hee
  exact ⟨this.1, h3 ▸ this.2.1, this.2.2⟩

theorem BlockOK.rng {es bb ee : Nat} {b : Block} (h : BlockOK es b)
    (h1 : b.fBegin = some bb) (h2 : b.fEnd = some ee) :
    bb + es ≤ ee ∧ ee ≤ b.fStop ∧ (ee - bb) % es = 0 :=
  h.2.2 bb ee h1 h2

theorem BlockOK.fEnd_some {es bb : Nat} {b : Block} (h : BlockOK es b)
    (h1 : b.fBegin = some bb) : ∃ ee, b.fEnd = some ee := by
  rcases he : b.fEnd with _ | ee
  · rw [h.2.1.mpr he] at h1
    cases h1
  · exact ⟨ee, rfl⟩

theorem BlockOK.fBegin_some {es ee : Nat} {b : Block} (h : BlockOK es b)
    (h2 : b.fEnd = some ee) : ∃ bb, b.fBegin = some bb := by
  rcases hb : b.fBegin with _ | bb
  · rw [h.2.1.mp hb] at h2
    cases h2
  · exact ⟨bb, rfl⟩

/-! ### Element-list lemmas with data updates -/

theorem blockElems_congr_length {es : Nat} {b b2 : Block}
    (h1 : b2.fBegin = b.fBegin) (h2 : b2.fEnd = b.fEnd) :
    (blockElems es b2).length = (blockElems es b).length := by
  unfold blockElems
  rw [h1, h2]
  cases b.fBegin <;> cases b.fEnd <;> simp

/-- Pushing at the back: the new element list is the old one with `v`
appended (the write at offset `ee` does not disturb the older slots). -/
theorem blockElems_snoc {es bb ee : Nat} {b b2 : Block} {v : Val} (hes : 0 < es)
    (h1 : b.fBegin = some bb) (h2 : b.fEnd = some ee)
    (hle : bb ≤ ee) (hdvd : (ee - bb) % es = 0)
    (h21 : b2.fBegin = some bb) (h22 : b2.fEnd = some (ee + es))
    (hde : b2.data ee = v) (hdo : ∀ x, x ≠ ee → b2.data x = b.data x) :
    blockElems es b2 = blockElems es b ++ [v] := by
  rw [blockElems_eq_map 0, blockElems_eq_map 0,
    blockSlots_snoc hes h1 h2 hle hdvd h21 h22, List.map_append]
  congr 1
  · refine List.map_congr_left fun q hq => ?_
    have hmem := blockSlots_mem hes h1 h2 hle hdvd q hq
    exact hdo q.2 (by omega)
  · simp [hde]

/-- Pushing at the front: the new element list is the old one with `v`
prepended. -/
theorem blockElems_cons {es bb ee : Nat} {b b2 : Block} {v : Val} (hes : 0 < es)
    (h1 : b.fBegin = some bb) (h2 : b.fEnd = some ee)
    (hge : es ≤ bb) (hle : bb ≤ ee) (hdvd : (ee - bb) % es = 0)
    (h21 : b2.fBegin = some (bb - es)) (h22 : b2.fEnd = some ee)
    (hde : b2.data (bb - es) = v) (hdo : ∀ x, x ≠ bb - es → b2.data x = b.data x) :
    blockElems es b2 = v :: blockElems es b := by
  rw [blockElems_eq_map 0, blockElems_eq_map 0,
    blockSlots_cons hes h1 h2 hge hle h21 h22, List.map_cons]
  have htl : List.map (fun q => b2.data q.2) (blockSlots es 0 b) =
      List.map (fun q => b.data q.2) (blockSlots es 0 b) := by
    refine List.map_congr_left fun q hq => ?_
    have hmem := blockSlots_mem hes h1 h2 hle hdvd q hq
    exact hdo q.2 (by omega)
  rw [hde, htl]

/-- Filling an empty block from the back: the element list becomes `[v]`. -/
theorem blockElems_initBack {es : Nat} {b2 : Block} {v : Val} (hes : 0 < es)
    (h21 : b2.fBegin = some 0) (h22 : b2.fEnd = some es)
    (hde : b2.data 0 = v) : blockElems es b2 = [v] := by
  rw [blockElems_eq_map 0, blockSlots_initBack hes h21 h22]
  simp [hde]

/-- Filling an empty block from the front: the element list becomes `[v]`. -/
theorem blockElems_initFront {es cap : Nat} {b2 : Block} {v : Val} (hes : 0 < es)
    (hcap : es ≤ cap) (h21 : b2.fBegin = some (cap - es)) (h22 : b2.fEnd = some cap)
    (hde : b2.data (cap - es) = v) : blockElems es b2 = [v] := by
  rw [blockElems_eq_map 0, blockSlots_initFront hes hcap h21 h22]
  simp [hde]

/-- Popping at the front: the old element list is the head value followed by
the shrunk block's list. -/
theorem blockElems_tail_eq {es bb ee : Nat} {b b2 : Block} (hes : 0 < es)
    (h1 : b.fBegin = some bb) (h2 : b.fEnd = some ee) (hge : bb + es ≤ ee)
    (h21 : b2.fBegin = some (bb + es)) (h22 : b2.fEnd = some ee)
    (hdo : ∀ x, b2.data x = b.data x) :
    blockElems es b = b.data bb :: blockElems es b2 := by
  rw [blockElems_eq_map 0, blockElems_eq_map 0,
    blockSlots_tail hes h1 h2 hge h21 h22, List.map_cons]
  congr 1
  refine List.map_congr_left fun q _ => ?_
  rw [hdo]

/-- Popping at the back: the old element list is the shrunk block's list
followed by the last value. -/
theorem blockElems_dropLast_eq {es bb ee : Nat} {b b2 : Block} (hes : 0 < es)
    (h1 : b.fBegin = some bb) (h2 : b.fEnd = some ee) (hge : bb + es ≤ ee)
    (hdvd : (ee - bb) % es = 0)
    (h21 : b2.fBegin = some bb) (h22 : b2.fEnd = some (ee - es))
    (hdo : ∀ x, b2.data x = b.data x) :
    blockElems es b = blockElems es b2 ++ [b.data (ee - es)] := by
  rw [blockElems_eq_map 0, blockElems_eq_map 0,
    blockSlots_dropLast hes h1 h2 hge hdvd h21 h22, List.map_append]
  congr 1
  refine List.map_congr_left fun q _ => ?_
  rw [hdo]

/-! ### Misc WF helpers -/

theorem nodup_split_not_mem {pre post : List (Addr × Block)} {q : Addr × Block}
    (h : ((pre ++ q :: post).map Prod.fst).Nodup) :
    q.1 ∉ (pre ++ post).map Prod.fst := by
  rw [List.map_append, List.map_cons] at h
  intro hmem
  rw [List.map_append, List.mem_append] at hmem
  rcases hmem with hmem | hmem
  · exact (List.nodup_append.mp h).2.2 hmem (by simp)
  · exact (List.nodup_cons.mp (List.nodup_append.mp h).2.1).1 hmem

theorem WF.ends_none {s : SkDeque} (hwf : WF s [])  :
    s.fFront = none ∧ s.fBack = none :=
  ⟨hwf.chain.nil_inv, by simpa using hwf.back_eq⟩

theorem WF.back_concat {s : SkDeque} {L : List (Addr × Block)} {q : Addr × Block}
    (hwf : WF s (L ++ [q])) : s.fBack = some q.1 := by
  rw [hwf.back_eq]
  simp [List.getLast?_concat]

/-! ### Constructors establish WF -/

theorem WF_mk0 {es ac : Nat} (hes : 0 < es) (hac : 1 ≤ ac) :
    WF (SkDeque.mk0 es ac) [] := by
  refine ⟨hes, hac, Chain.nil _, rfl, List.nodup_nil, ?_, ?_, MidOK_nil, rfl⟩
  · intro a ha
    simp at ha
  · intro q hq
    simp at hq

theorem WF_mkWithStorage {es cap ac : Nat} (hes : 0 < es) (hac : 1 ≤ ac) :
    ∃ ch, WF (SkDeque.mkWithStorage es cap ac) ch := by
  by_cases hcap : es ≤ cap
  · refine ⟨[(0, Block.init cap)], ?_, ?_, ?_, ?_, ?_, ?_, ?_, MidOK_single, ?_⟩
    · simpa [SkDeque.mkWithStorage, hcap] using hes
    · simpa [SkDeque.mkWithStorage, hcap] using hac
    · simp only [SkDeque.mkWithStorage, if_pos hcap]
      exact Chain.cons none 0 (Block.init cap) [] (by simp) rfl (Chain.nil _)
    · simp [SkDeque.mkWithStorage, hcap]
    · simp
    · intro a ha
      simp only [List.map_cons, List.map_nil, List.mem_singleton] at ha
      simp [SkDeque.mkWithStorage, hcap, ha]
    · intro q hq
      simp only [List.mem_singleton] at hq
      subst hq
      refine ⟨?_, by simp [Block.init], fun bb ee hbb _ => by simp [Block.init] at hbb⟩
      simpa [SkDeque.mkWithStorage, hcap, Block.init] using hcap
    · simp [SkDeque.mkWithStorage, hcap, absList, blockElems, Block.init]
  · refine ⟨[], ?_, ?_, ?_, ?_, ?_, ?_, ?_, MidOK_nil, ?_⟩ <;>
      simp [SkDeque.mkWithStorage, hcap, absList]
    · exact hes
    · exact hac
    · exact Chain.nil _

/-! ### WF is preserved by a slot write -/

theorem WF.writeSlot {s : SkDeque} {ch : List (Addr × Block)} (hwf : WF s ch)
    (a : Addr) (off : Nat) (v : Val) :
    ∃ ch2, WF (s.writeSlot a off v) ch2 ∧
      ch2.map Prod.fst = ch.map Prod.fst ∧
      (absList (s.writeSlot a off v).fElemSize ch2).length =
        (absList s.fElemSize ch).length := by
  by_cases hmem : a ∈ ch.map Prod.fst
  · obtain ⟨q, hq, hqa⟩ := List.mem_map.mp hmem
    subst hqa
    obtain ⟨pre, post, rfl⟩ := List.append_of_mem hq
    have hheap : s.heap q.1 = some q.2 := hwf.chain.mem_heap q (by simp)
    set b2 : Block := { q.2 with data := fun x => if x = off then v else q.2.data x } with hb2
    have hnot : q.1 ∉ (pre ++ post).map Prod.fst := nodup_split_not_mem hwf.nodup
    have hlen : (absList s.fElemSize (pre ++ (q.1, b2) :: post)).length =
        (absList s.fElemSize (pre ++ q :: post)).length := by
      rw [absList_append, absList_append, absList_cons, absList_cons]
      simp only [List.length_append]
      have := @blockElems_congr_length s.fElemSize q.2 b2 rfl rfl
      omega
    refine ⟨pre ++ (q.1, b2) :: post, ?_, by simp, ?_⟩
    · constructor
      · exact hwf.es_pos
      · exact hwf.ac_pos
      · refine hwf.chain.update_mid ?_ ?_ rfl rfl
        · intro x hx
          have hxa : x ≠ q.1 := fun heq => hnot (heq ▸ hx)
          simp [SkDeque.writeSlot, SkDeque.updBlock, hxa]
        · simp [SkDeque.writeSlot, SkDeque.updBlock, hheap, hb2]
      · rw [show (s.writeSlot q.1 off v).fBack = s.fBack from rfl, hwf.back_eq]
        simp
      · simpa using hwf.nodup
      · rw [show (s.writeSlot q.1 off v).nextAddr = s.nextAddr from rfl]
        simpa using hwf.bound
      · intro r hr
        simp only [List.mem_append, List.mem_cons] at hr
        rw [show (s.writeSlot q.1 off v).fElemSize = s.fElemSize from rfl]
        rcases hr with hr | hr | hr
        · exact hwf.blocks_ok r (by simp [hr])
        · subst hr
          exact (hwf.blocks_ok q (by simp)).congr rfl rfl rfl
        · exact hwf.blocks_ok r (by simp [hr])
      · exact hwf.mid.update fun h => h
      · rw [show (s.writeSlot q.1 off v).fCount = s.fCount from rfl, hwf.count_eq,
          show (s.writeSlot q.1 off v).fElemSize = s.fElemSize from rfl]
        exact_mod_cast hlen.symm
    · rw [show (s.writeSlot q.1 off v).fElemSize = s.fElemSize from rfl]
      exact hlen
  · refine ⟨ch, ?_, rfl, rfl⟩
    constructor
    · exact hwf.es_pos
    · exact hwf.ac_pos
    · refine hwf.chain.frame fun x hx => ?_
      have hxa : x ≠ a := fun heq => hmem (heq ▸ hx)
      simp [SkDeque.writeSlot, SkDeque.updBlock, hxa]
    · exact hwf.back_eq
    · exact hwf.nodup
    · exact hwf.bound
    · exact hwf.blocks_ok
    · exact hwf.mid
    · exact hwf.count_eq

/-! ### Operation characterization by case -/

/-- `push_back` on a deque with no blocks: allocate, link, INIT_CHUNK,
and let the caller write `v` at offset 0 of the fresh block. -/
theorem push_back_char_empty {s : SkDeque} (v : Val) (hback : s.fBack = none) :
    s.pushBackW v = some
      { fElemSize := s.fElemSize, fInitialStorage := s.fInitialStorage,
        fCount := s.fCount + 1, fAllocCount := s.fAllocCount,
        fFront := some s.nextAddr, fBack := some s.nextAddr,
        heap := fun x => if x = s.nextAddr then some
          { fNext := none, fPrev := none, fBegin := some 0,
            fEnd := some s.fElemSize, fStop := s.fAllocCount * s.fElemSize,
            data := fun y => if y = 0 then v else 0 } else s.heap x,
        nextAddr := s.nextAddr + 1, freed := s.freed } := by
  simp only [SkDeque.pushBackW, SkDeque.push_back, SkDeque.allocateBlock,
    SkDeque.updBlock, SkDeque.writeSlot, hback, Block.init]
  simp only [ite_true, Option.map_some, Option.map_some']
  refine congrArg some ?_
  beta_reduce
  congr 1
  funext x
  by_cases hx : x = s.nextAddr <;> simp [hx]

/-- `push_back` when the back block is marked empty: INIT_CHUNK refills it. -/
theorem push_back_char_refill {s : SkDeque} {a : Addr} {b : Block} (v : Val)
    (hback : s.fBack = some a) (hheap : s.heap a = some b) (hbb : b.fBegin = none) :
    s.pushBackW v = some
      { fElemSize := s.fElemSize, fInitialStorage := s.fInitialStorage,
        fCount := s.fCount + 1, fAllocCount := s.fAllocCount,
        fFront := s.fFront, fBack := s.fBack,
        heap := fun x => if x = a then some
          { fNext := b.fNext, fPrev := b.fPrev, fBegin := some 0,
            fEnd := some s.fElemSize, fStop := b.fStop,
            data := fun y => if y = 0 then v else b.data y } else s.heap x,
        nextAddr := s.nextAddr, freed := s.freed } := by
  simp only [SkDeque.pushBackW, SkDeque.push_back, SkDeque.allocateBlock,
    SkDeque.updBlock, SkDeque.writeSlot, hback, hheap, hbb, Option.map_some, Option.map_some']
  refine congrArg some ?_
  beta_reduce
  congr 1
  funext x
  by_cases hx : x = a <;> simp [hx, hheap, hbb]

/-- `push_back` when the back block has room: extend `fEnd` and write. -/
theorem push_back_char_room {s : SkDeque} {a : Addr} {b : Block} {bb ee : Nat} (v : Val)
    (hback : s.fBack = some a) (hheap : s.heap a = some b)
    (hbb : b.fBegin = some bb) (hee : b.fEnd = some ee)
    (hroom : ¬ b.fStop < ee + s.fElemSize) :
    s.pushBackW v = some
      { fElemSize := s.fElemSize, fInitialStorage := s.fInitialStorage,
        fCount := s.fCount + 1, fAllocCount := s.fAllocCount,
        fFront := s.fFront, fBack := s.fBack,
        heap := fun x => if x = a then some
          { fNext := b.fNext, fPrev := b.fPrev, fBegin := b.fBegin,
            fEnd := some (ee + s.fElemSize), fStop := b.fStop,
            data := fun y => if y = ee then v else b.data y } else s.heap x,
        nextAddr := s.nextAddr, freed := s.freed } := by
  simp only [SkDeque.pushBackW, SkDeque.push_back, SkDeque.allocateBlock,
    SkDeque.updBlock, SkDeque.writeSlot, hback, hheap, hbb, hee]
  simp only [ite_true, if_neg hroom, Option.map_some, Option.map_some']
  refine congrArg some ?_
  beta_reduce
  congr 1
  funext x
  by_cases hx : x = a <;> simp [hx, hheap, hbb, hee]

/-- `push_back` when the back block is full: allocate, link as new back,
INIT_CHUNK, and write. -/
theorem push_back_char_full {s : SkDeque} {a : Addr} {b : Block} {bb ee : Nat} (v : Val)
    (hback : s.fBack = some a) (hheap : s.heap a = some b)
    (hbb : b.fBegin = some bb) (hee : b.fEnd = some ee)
    (hfull : b.fStop < ee + s.fElemSize) (hne : a ≠ s.nextAddr) :
    s.pushBackW v = some
      { fElemSize := s.fElemSize, fInitialStorage := s.fInitialStorage,
        fCount := s.fCount + 1, fAllocCount := s.fAllocCount,
        fFront := s.fFront, fBack := some s.nextAddr,
        heap := fun x =>
          if x = s.nextAddr then some
            { fNext := none, fPrev := some a, fBegin := some 0,
              fEnd := some s.fElemSize, fStop := s.fAllocCount * s.fElemSize,
              data := fun y => if y = 0 then v else 0 }
          else if x = a then some
            { fNext := some s.nextAddr, fPrev := b.fPrev, fBegin := b.fBegin,
              fEnd := b.fEnd, fStop := b.fStop, data := b.data }
          else s.heap x,
        nextAddr := s.nextAddr + 1, freed := s.freed } := by
  have hne2 : s.nextAddr ≠ a := Ne.symm hne
  simp only [SkDeque.pushBackW, SkDeque.push_back, SkDeque.allocateBlock,
    SkDeque.updBlock, SkDeque.writeSlot, hback, hheap, hbb, hee]
  simp only [ite_true, if_pos hfull, if_neg hne2, hheap, Option.map_some, Option.map_some']
  refine congrArg some ?_
  beta_reduce
  congr 1
  funext x
  by_cases hx : x = s.nextAddr
  · simp [hx, hne2, Block.init]
  · by_cases hxa : x = a <;> simp [hx, hxa, hheap, hbb, hee, hne]

/-- `push_front` on a deque with no blocks. -/
theorem push_front_char_empty {s : SkDeque} (v : Val) (hfront : s.fFront = none) :
    s.pushFrontW v = some
      { fElemSize := s.fElemSize, fInitialStorage := s.fInitialStorage,
        fCount := s.fCount + 1, fAllocCount := s.fAllocCount,
        fFront := some s.nextAddr, fBack := some s.nextAddr,
        heap := fun x => if x = s.nextAddr then some
          { fNext := none, fPrev := none,
            fBegin := some (s.fAllocCount * s.fElemSize - s.fElemSize),
            fEnd := some (s.fAllocCount * s.fElemSize),
            fStop := s.fAllocCount * s.fElemSize,
            data := fun y => if y = s.fAllocCount * s.fElemSize - s.fElemSize
                             then v else 0 } else s.heap x,
        nextAddr := s.nextAddr + 1, freed := s.freed } := by
  simp only [SkDeque.pushFrontW, SkDeque.push_front, SkDeque.allocateBlock,
    SkDeque.updBlock, SkDeque.writeSlot, hfront, Block.init]
  simp only [ite_true, Option.map_some, Option.map_some']
  refine congrArg some ?_
  beta_reduce
  congr 1
  funext x
  by_cases hx : x = s.nextAddr <;> simp [hx]

/-- `push_front` when the front block is marked empty: INIT_CHUNK refills it
from the top. -/
theorem push_front_char_refill {s : SkDeque} {a : Addr} {b : Block} (v : Val)
    (hfront : s.fFront = some a) (hheap : s.heap a = some b) (hbb : b.fBegin = none) :
    s.pushFrontW v = some
      { fElemSize := s.fElemSize, fInitialStorage := s.fInitialStorage,
        fCount := s.fCount + 1, fAllocCount := s.fAllocCount,
        fFront := s.fFront, fBack := s.fBack,
        heap := fun x => if x = a then some
          { fNext := b.fNext, fPrev := b.fPrev,
            fBegin := some (b.fStop - s.fElemSize), fEnd := some b.fStop,
            fStop := b.fStop,
            data := fun y => if y = b.fStop - s.fElemSize then v else b.data y }
          else s.heap x,
        nextAddr := s.nextAddr, freed := s.freed } := by
  simp only [SkDeque.pushFrontW, SkDeque.push_front, SkDeque.allocateBlock,
    SkDeque.updBlock, SkDeque.writeSlot, hfront, hheap, hbb, Option.map_some, Option.map_some']
  refine congrArg some ?_
  beta_reduce
  congr 1
  funext x
  by_cases hx : x = a <;> simp [hx, hheap, hbb]

/-- `push_front` when the front block has room: move `fBegin` down and write.
The source test `begin < first->start()` is `bb < fElemSize` here. -/
theorem push_front_char_room {s : SkDeque} {a : Addr} {b : Block} {bb : Nat} (v : Val)
    (hfront : s.fFront = some a) (hheap : s.heap a = some b)
    (hbb : b.fBegin = some bb) (hroom : ¬ bb < s.fElemSize) :
    s.pushFrontW v = some
      { fElemSize := s.fElemSize, fInitialStorage := s.fInitialStorage,
        fCount := s.fCount + 1, fAllocCount := s.fAllocCount,
        fFront := s.fFront, fBack := s.fBack,
        heap := fun x => if x = a then some
          { fNext := b.fNext, fPrev := b.fPrev,
            fBegin := some (bb - s.fElemSize), fEnd := b.fEnd, fStop := b.fStop,
            data := fun y => if y = bb - s.fElemSize then v else b.data y }
          else s.heap x,
        nextAddr := s.nextAddr, freed := s.freed } := by
  simp only [SkDeque.pushFrontW, SkDeque.push_front, SkDeque.allocateBlock,
    SkDeque.updBlock, SkDeque.writeSlot, hfront, hheap, hbb]
  simp only [ite_true, if_neg hroom, Option.map_some, Option.map_some']
  refine congrArg some ?_
  beta_reduce
  congr 1
  funext x
  by_cases hx : x = a <;> simp [hx, hheap, hbb]

/-- `push_front` when the front block is full at the front: allocate, link as
new front, INIT_CHUNK, and write. -/
theorem push_front_char_full {s : SkDeque} {a : Addr} {b : Block} {bb : Nat} (v : Val)
    (hfront : s.fFront = some a) (hheap : s.heap a = some b)
    (hbb : b.fBegin = some bb) (hfull : bb < s.fElemSize) (hne : a ≠ s.nextAddr) :
    s.pushFrontW v = some
      { fElemSize := s.fElemSize, fInitialStorage := s.fInitialStorage,
        fCount := s.fCount + 1, fAllocCount := s.fAllocCount,
        fFront := some s.nextAddr, fBack := s.fBack,
        heap := fun x =>
          if x = s.nextAddr then some
            { fNext := some a, fPrev := none,
              fBegin := some (s.fAllocCount * s.fElemSize - s.fElemSize),
              fEnd := some (s.fAllocCount * s.fElemSize),
              fStop := s.fAllocCount * s.fElemSize,
              data := fun y => if y = s.fAllocCount * s.fElemSize - s.fElemSize
                               then v else 0 }
          else if x = a then some
            { fNext := b.fNext, fPrev := some s.nextAddr, fBegin := b.fBegin,
              fEnd := b.fEnd, fStop := b.fStop, data := b.data }
          else s.heap x,
        nextAddr := s.nextAddr + 1, freed := s.freed } := by
  have hne2 : s.nextAddr ≠ a := Ne.symm hne
  simp only [SkDeque.pushFrontW, SkDeque.push_front, SkDeque.allocateBlock,
    SkDeque.updBlock, SkDeque.writeSlot, hfront, hheap, hbb]
  simp only [ite_true, if_pos hfull, if_neg hne2, hheap, Option.map_some, Option.map_some']
  refine congrArg some ?_
  beta_reduce
  congr 1
  funext x
  by_cases hx : x = s.nextAddr
  · simp [hx, hne2, Block.init]
  · by_cases hxa : x = a <;> simp [hx, hxa, hheap, hbb, hne]

/-- `pop_front` when the front block has more than one element: shrink. -/
theorem pop_front_char_shrink {s : SkDeque} {a : Addr} {b : Block} {bb ee : Nat}
    (hcount : ¬ s.fCount ≤ 0)
    (hfront : s.fFront = some a) (hheap : s.heap a = some b)
    (hbb : b.fBegin = some bb) (hee : b.fEnd = some ee)
    (hok : ¬ ee < bb + s.fElemSize) (hmore : bb + s.fElemSize < ee) :
    s.pop_front = some
      { fElemSize := s.fElemSize, fInitialStorage := s.fInitialStorage,
        fCount := s.fCount - 1, fAllocCount := s.fAllocCount,
        fFront := s.fFront, fBack := s.fBack,
        heap := fun x => if x = a then some
          { fNext := b.fNext, fPrev := b.fPrev, fBegin := some (bb + s.fElemSize),
            fEnd := b.fEnd, fStop := b.fStop, data := b.data } else s.heap x,
        nextAddr := s.nextAddr, freed := s.freed } := by
  simp only [SkDeque.pop_front, SkDeque.updBlock, SkDeque.freeBlock, if_neg hcount,
    hfront, hheap, hbb, hee, if_neg hok, if_pos hmore]
  refine congrArg some ?_
  congr 1
  funext x
  by_cases hx : x = a <;> simp [hx, hheap, hbb, hee]

/-- `pop_front` when the front block has exactly one element: mark it empty,
do not free it. -/
theorem pop_front_char_mark {s : SkDeque} {a : Addr} {b : Block} {bb ee : Nat}
    (hcount : ¬ s.fCount ≤ 0)
    (hfront : s.fFront = some a) (hheap : s.heap a = some b)
    (hbb : b.fBegin = some bb) (hee : b.fEnd = some ee)
    (hok : ¬ ee < bb + s.fElemSize) (hlast : ¬ bb + s.fElemSize < ee) :
    s.pop_front = some
      { fElemSize := s.fElemSize, fInitialStorage := s.fInitialStorage,
        fCount := s.fCount - 1, fAllocCount := s.fAllocCount,
        fFront := s.fFront, fBack := s.fBack,
        heap := fun x => if x = a then some
          { fNext := b.fNext, fPrev := b.fPrev, fBegin := none,
            fEnd := none, fStop := b.fStop, data := b.data } else s.heap x,
        nextAddr := s.nextAddr, freed := s.freed } := by
  simp only [SkDeque.pop_front, SkDeque.updBlock, SkDeque.freeBlock, if_neg hcount,
    hfront, hheap, hbb, hee, if_neg hok, if_neg hlast]
  refine congrArg some ?_
  congr 1
  funext x
  by_cases hx : x = a <;> simp [hx, hheap, hbb, hee]

/-- `pop_front` when the front block was already marked empty: advance to the
next block, free the old front, then shrink the new front block. -/
theorem pop_front_char_advance_shrink {s : SkDeque} {a a2 : Addr} {b b2 : Block}
    {bb2 ee2 : Nat} (hcount : ¬ s.fCount ≤ 0)
    (hfront : s.fFront = some a) (hheap : s.heap a = some b)
    (hbb : b.fBegin = none) (hnext : b.fNext = some a2)
    (hheap2 : s.heap a2 = some b2) (hne : a2 ≠ a)
    (hbb2 : b2.fBegin = some bb2) (hee2 : b2.fEnd = some ee2)
    (hok : ¬ ee2 < bb2 + s.fElemSize) (hmore : bb2 + s.fElemSize < ee2) :
    s.pop_front = some
      { fElemSize := s.fElemSize, fInitialStorage := s.fInitialStorage,
        fCount := s.fCount - 1, fAllocCount := s.fAllocCount,
        fFront := some a2, fBack := s.fBack,
        heap := fun x =>
          if x = a2 then some
            { fNext := b2.fNext, fPrev := none, fBegin := some (bb2 + s.fElemSize),
              fEnd := b2.fEnd, fStop := b2.fStop, data := b2.data }
          else if x = a then none
          else s.heap x,
        nextAddr := s.nextAddr, freed := a :: s.freed } := by
  simp only [SkDeque.pop_front, SkDeque.updBlock, SkDeque.freeBlock, if_neg hcount,
    hfront, hheap, hbb, hnext, hheap2, if_neg hne, hbb2, hee2, if_neg hok, if_pos hmore,
    ite_true, Option.map_some, Option.map_some']
  refine congrArg some ?_
  congr 1
  funext x
  by_cases hx : x = a2
  · simp [hx, hne, hheap2, hbb2, hee2]
  · by_cases hxa : x = a <;> simp [hx, hxa, hheap, hheap2, hbb2, hee2, Ne.symm hne]

/-- `pop_front` in the advance case when the new front block then becomes
empty: mark it, keep it. -/
theorem pop_front_char_advance_mark {s : SkDeque} {a a2 : Addr} {b b2 : Block}
    {bb2 ee2 : Nat} (hcount : ¬ s.fCount ≤ 0)
    (hfront : s.fFront = some a) (hheap : s.heap a = some b)
    (hbb : b.fBegin = none) (hnext : b.fNext = some a2)
    (hheap2 : s.heap a2 = some b2) (hne : a2 ≠ a)
    (hbb2 : b2.fBegin = some bb2) (hee2 : b2.fEnd = some ee2)
    (hok : ¬ ee2 < bb2 + s.fElemSize) (hlast : ¬ bb2 + s.fElemSize < ee2) :
    s.pop_front = some
      { fElemSize := s.fElemSize, fInitialStorage := s.fInitialStorage,
        fCount := s.fCount - 1, fAllocCount := s.fAllocCount,
        fFront := some a2, fBack := s.fBack,
        heap := fun x =>
          if x = a2 then some
            { fNext := b2.fNext, fPrev := none, fBegin := none,
              fEnd := none, fStop := b2.fStop, data := b2.data }
          else if x = a then none
          else s.heap x,
        nextAddr := s.nextAddr, freed := a :: s.freed } := by
  simp only [SkDeque.pop_front, SkDeque.updBlock, SkDeque.freeBlock, if_neg hcount,
    hfront, hheap, hbb, hnext, hheap2, if_neg hne, hbb2, hee2, if_neg hok, if_neg hlast,
    ite_true, Option.map_some, Option.map_some']
  refine congrArg some ?_
  congr 1
  funext x
  by_cases hx : x = a2
  · simp [hx, hne, hheap2, hbb2, hee2]
  · by_cases hxa : x = a <;> simp [hx, hxa, hheap, hheap2, hbb2, hee2, Ne.symm hne]

/-- `pop_back` when the back block has more than one element: shrink. -/
theorem pop_back_char_shrink {s : SkDeque} {a : Addr} {b : Block} {bb ee : Nat}
    (hcount : ¬ s.fCount ≤ 0)
    (hback : s.fBack = some a) (hheap : s.heap a = some b)
    (hbb : b.fBegin = some bb) (hee : b.fEnd = some ee)
    (hok : ¬ ee < bb + s.fElemSize) (hmore : bb + s.fElemSize < ee) :
    s.pop_back = some
      { fElemSize := s.fElemSize, fInitialStorage := s.fInitialStorage,
        fCount := s.fCount - 1, fAllocCount := s.fAllocCount,
        fFront := s.fFront, fBack := s.fBack,
        heap := fun x => if x = a then some
          { fNext := b.fNext, fPrev := b.fPrev, fBegin := b.fBegin,
            fEnd := some (ee - s.fElemSize), fStop := b.fStop, data := b.data }
          else s.heap x,
        nextAddr := s.nextAddr, freed := s.freed } := by
  simp only [SkDeque.pop_back, SkDeque.updBlock, SkDeque.freeBlock, if_neg hcount,
    hback, hheap, hbb, hee, if_neg hok, if_pos hmore]
  refine congrArg some ?_
  congr 1
  funext x
  by_cases hx : x = a <;> simp [hx, hheap, hbb, hee]

/-- `pop_back` when the back block has exactly one element: mark it empty. -/
theorem pop_back_char_mark {s : SkDeque} {a : Addr} {b : Block} {bb ee : Nat}
    (hcount : ¬ s.fCount ≤ 0)
    (hback : s.fBack = some a) (hheap : s.heap a = some b)
    (hbb : b.fBegin = some bb) (hee : b.fEnd = some ee)
    (hok : ¬ ee < bb + s.fElemSize) (hlast : ¬ bb + s.fElemSize < ee) :
    s.pop_back = some
      { fElemSize := s.fElemSize, fInitialStorage := s.fInitialStorage,
        fCount := s.fCount - 1, fAllocCount := s.fAllocCount,
        fFront := s.fFront, fBack := s.fBack,
        heap := fun x => if x = a then some
          { fNext := b.fNext, fPrev := b.fPrev, fBegin := none,
            fEnd := none, fStop := b.fStop, data := b.data } else s.heap x,
        nextAddr := s.nextAddr, freed := s.freed } := by
  simp only [SkDeque.pop_back, SkDeque.updBlock, SkDeque.freeBlock, if_neg hcount,
    hback, hheap, hbb, hee, if_neg hok, if_neg hlast]
  refine congrArg some ?_
  congr 1
  funext x
  by_cases hx : x = a <;> simp [hx, hheap, hbb, hee]

/-- `pop_back` when the back block was already marked empty: advance to the
previous block, free the old back, then shrink the new back block. -/
theorem pop_back_char_advance_shrink {s : SkDeque} {a a2 : Addr} {b b2 : Block}
    {bb2 ee2 : Nat} (hcount : ¬ s.fCount ≤ 0)
    (hback : s.fBack = some a) (hheap : s.heap a = some b)
    (hee : b.fEnd = none) (hprev : b.fPrev = some a2)
    (hheap2 : s.heap a2 = some b2) (hne : a2 ≠ a)
    (hbb2 : b2.fBegin = some bb2) (hee2 : b2.fEnd = some ee2)
    (hok : ¬ ee2 < bb2 + s.fElemSize) (hmore : bb2 + s.fElemSize < ee2) :
    s.pop_back = some
      { fElemSize := s.fElemSize, fInitialStorage := s.fInitialStorage,
        fCount := s.fCount - 1, fAllocCount := s.fAllocCount,
        fFront := s.fFront, fBack := some a2,
        heap := fun x =>
          if x = a2 then some
            { fNext := none, fPrev := b2.fPrev, fBegin := b2.fBegin,
              fEnd := some (ee2 - s.fElemSize), fStop := b2.fStop, data := b2.data }
          else if x = a then none
          else s.heap x,
        nextAddr := s.nextAddr, freed := a :: s.freed } := by
  simp only [SkDeque.pop_back, SkDeque.updBlock, SkDeque.freeBlock, if_neg hcount,
    hback, hheap, hee, hprev, hheap2, if_neg hne, hbb2, hee2, if_neg hok, if_pos hmore,
    ite_true, Option.map_some, Option.map_some']
  refine congrArg some ?_
  congr 1
  funext x
  by_cases hx : x = a2
  · simp [hx, hne, hheap2, hbb2, hee2]
  · by_cases hxa : x = a <;> simp [hx, hxa, hheap, hheap2, hbb2, hee2, Ne.symm hne]

/-- `pop_back` in the advance case when the new back block then becomes
empty: mark it, keep it. -/
theorem pop_back_char_advance_mark {s : SkDeque} {a a2 : Addr} {b b2 : Block}
    {bb2 ee2 : Nat} (hcount : ¬ s.fCount ≤ 0)
    (hback : s.fBack = some a) (hheap : s.heap a = some b)
    (hee : b.fEnd = none) (hprev : b.fPrev = some a2)
    (hheap2 : s.heap a2 = some b2) (hne : a2 ≠ a)
    (hbb2 : b2.fBegin = some bb2) (hee2 : b2.fEnd = some ee2)
    (hok : ¬ ee2 < bb2 + s.fElemSize) (hlast : ¬ bb2 + s.fElemSize < ee2) :
    s.pop_back = some
      { fElemSize := s.fElemSize, fInitialStorage := s.fInitialStorage,
        fCount := s.fCount - 1, fAllocCount := s.fAllocCount,
        fFront := s.fFront, fBack := some a2,
        heap := fun x =>
          if x = a2 then some
            { fNext := none, fPrev := b2.fPrev, fBegin := none,
              fEnd := none, fStop := b2.fStop, data := b2.data }
          else if x = a then none
          else s.heap x,
        nextAddr := s.nextAddr, freed := a :: s.freed } := by
  simp only [SkDeque.pop_back, SkDeque.updBlock, SkDeque.freeBlock, if_neg hcount,
    hback, hheap, hee, hprev, hheap2, if_neg hne, hbb2, hee2, if_neg hok, if_neg hlast,
    ite_true, Option.map_some, Option.map_some']
  refine congrArg some ?_
  congr 1
  funext x
  by_cases hx : x = a2
  · simp [hx, hne, hheap2, hbb2, hee2]
  · by_cases hxa : x = a <;> simp [hx, hxa, hheap, hheap2, hbb2, hee2, Ne.symm hne]

/-! ### push_back preserves WF -/

theorem nodup_concat_not_mem {L : List (Addr × Block)} {q : Addr × Block}
    (h : ((L ++ [q]).map Prod.fst).Nodup) : q.1 ∉ L.map Prod.fst := by
  rw [List.map_append] at h
  obtain ⟨h1, h2, hdisj⟩ := List.nodup_append.mp h
  intro hmem
  exact hdisj hmem (by simp)

theorem blockElems_congr {es : Nat} {b b2 : Block}
    (h1 : b2.fBegin = b.fBegin) (h2 : b2.fEnd = b.fEnd) (hd : b2.data = b.data) :
    blockElems es b2 = blockElems es b := by
  unfold blockElems
  rw [h1, h2, hd]

theorem es_le_mul {es ac : Nat} (hes : 0 < es) (hac : 1 ≤ ac) : es ≤ ac * es :=
  Nat.le_mul_of_pos_left es hac

/-- `pushBackW` on a well-formed state always succeeds, preserves the
invariant, and appends `v` to the abstract element list. -/
theorem pushBackW_spec {s : SkDeque} {ch : List (Addr × Block)} (hwf : WF s ch) (v : Val) :
    ∃ t ch2, s.pushBackW v = some t ∧ WF t ch2 ∧
      absList t.fElemSize ch2 = absList s.fElemSize ch ++ [v] ∧
      t.fElemSize = s.fElemSize ∧ t.fAllocCount = s.fAllocCount ∧
      t.fInitialStorage = s.fInitialStorage ∧ t.fCount = s.fCount + 1 ∧
      t.freed = s.freed ∧ s.nextAddr ≤ t.nextAddr := by
  have hes := hwf.es_pos
  have hac := hwf.ac_pos
  rcases List.eq_nil_or_concat ch with rfl | ⟨L, q, hch⟩
  · -- the chain is empty: allocate the first block
    obtain ⟨hfront, hback⟩ := hwf.ends_none
    have h0 : s.fCount = 0 := by simpa [absList_nil] using hwf.count_eq
    set nb : Block :=
      { fNext := none, fPrev := none, fBegin := some 0,
        fEnd := some s.fElemSize, fStop := s.fAllocCount * s.fElemSize,
        data := fun y => if y = 0 then v else 0 } with hnb
    have hdat : nb.data 0 = v := by simp [hnb]
    have habs : absList s.fElemSize [(s.nextAddr, nb)] = [v] := by
      rw [absList_cons, absList_nil, blockElems_initBack hes rfl rfl hdat]
      simp
    refine ⟨_, [(s.nextAddr, nb)],
      push_back_char_empty v hback, ?_, ?_, rfl, rfl, rfl, rfl, rfl,
      Nat.le_succ _⟩
    · constructor
      · exact hes
      · exact hac
      · refine Chain.cons none s.nextAddr _ [] (by simp) rfl ?_
        exact Chain.nil _
      · simp
      · simp
      · intro x hx
        simp only [List.map_cons, List.map_nil, List.mem_singleton] at hx
        subst hx
        exact Nat.lt_succ_self _
      · intro r hr
        simp only [List.mem_singleton] at hr
        subst hr
        show BlockOK s.fElemSize nb
        refine ⟨es_le_mul hes hac, by simp, ?_⟩
        intro bb ee hbb hee
        simp only [hnb, Option.some.injEq] at hbb hee
        subst hbb
        subst hee
        refine ⟨by omega, es_le_mul hes hac, by simp⟩
      · exact MidOK_single
      · show s.fCount + 1 = ((absList s.fElemSize [(s.nextAddr, nb)]).length : Int)
        rw [habs, h0]
        simp
    · show absList s.fElemSize [(s.nextAddr, nb)] = absList s.fElemSize [] ++ [v]
      rw [habs, absList_nil]
      simp
  · -- the chain is non-empty
    rw [List.concat_eq_append] at hch
    subst hch
    obtain ⟨a, bL⟩ := q
    have hback : s.fBack = some a := hwf.back_concat
    have hheap : s.heap a = some bL := hwf.chain.mem_heap (a, bL) (by simp)
    have hnotL : a ∉ L.map Prod.fst := nodup_concat_not_mem hwf.nodup
    have hokL : BlockOK s.fElemSize bL := hwf.blocks_ok (a, bL) (by simp)
    have halt : a < s.nextAddr := hwf.bound a (by simp)
    rcases hbb : bL.fBegin with _ | bb
    · -- the back block is marked empty: INIT_CHUNK refills it
      set b2 : Block :=
        { fNext := bL.fNext, fPrev := bL.fPrev, fBegin := some 0,
          fEnd := some s.fElemSize, fStop := bL.fStop,
          data := fun y => if y = 0 then v else bL.data y } with hb2
      have hdat : b2.data 0 = v := by simp [hb2]
      have hbl0 : blockElems s.fElemSize bL = [] := blockElems_isEmpty hbb
      have habs2 : absList s.fElemSize (L ++ [(a, b2)]) =
          absList s.fElemSize (L ++ [(a, bL)]) ++ [v] := by
        rw [absList_append, absList_append, absList_cons, absList_cons, absList_nil,
          blockElems_initBack hes rfl rfl hdat, hbl0]
        simp
      refine ⟨_, L ++ [(a, b2)], push_back_char_refill v hback hheap hbb,
        ?_, ?_, rfl, rfl, rfl, rfl, rfl, le_refl _⟩
      · constructor
        · exact hes
        · exact hac
        · refine hwf.chain.update_last ?_ ?_ rfl rfl
          · intro x hx
            have hxa : x ≠ a := fun h => hnotL (h ▸ hx)
            simp [hxa]
          · simp
        · show s.fBack = _
          rw [hwf.back_eq]
          simp
        · show ((L ++ [(a, b2)]).map Prod.fst).Nodup
          have := hwf.nodup
          simp only [List.map_append, List.map_cons, List.map_nil] at this ⊢
          exact this
        · intro x hx
          show x < s.nextAddr
          refine hwf.bound x ?_
          simp only [List.map_append, List.map_cons, List.map_nil] at hx ⊢
          exact hx
        · intro r hr
          show BlockOK s.fElemSize r.2
          rcases List.mem_append.mp hr with hr | hr
          · exact hwf.blocks_ok r (by simp [hr])
          · simp only [List.mem_singleton] at hr
            subst hr
            refine ⟨hokL.1, by simp [hb2], ?_⟩
            intro bb' ee' hbb' hee'
            simp only [hb2, Option.some.injEq] at hbb' hee'
            subst hbb'
            subst hee'
            exact ⟨by omega, hokL.1, by simp⟩
        · exact hwf.mid.replace_last
        · show s.fCount + 1 = ((absList s.fElemSize (L ++ [(a, b2)])).length : Int)
          rw [habs2, List.length_append, hwf.count_eq]
          push_cast
          simp
      · show absList s.fElemSize (L ++ [(a, b2)]) = _
        exact habs2
    · -- the back block holds elements
      obtain ⟨ee, hee⟩ := hokL.fEnd_some hbb
      obtain ⟨hged, heed, hdvd⟩ := hokL.rng hbb hee
      by_cases hroom : bL.fStop < ee + s.fElemSize
      · -- full: allocate a new back block
        have hne : a ≠ s.nextAddr := Nat.ne_of_lt halt
        set b2 : Block :=
          { fNext := some s.nextAddr, fPrev := bL.fPrev, fBegin := bL.fBegin,
            fEnd := bL.fEnd, fStop := bL.fStop, data := bL.data } with hb2
        set nb : Block :=
          { fNext := none, fPrev := some a, fBegin := some 0,
            fEnd := some s.fElemSize, fStop := s.fAllocCount * s.fElemSize,
            data := fun y => if y = 0 then v else 0 } with hnb
        have hsplit : L ++ [(a, b2), (s.nextAddr, nb)] =
            (L ++ [(a, b2)]) ++ [(s.nextAddr, nb)] := by simp
        have habs2 : absList s.fElemSize (L ++ [(a, b2), (s.nextAddr, nb)]) =
            absList s.fElemSize (L ++ [(a, bL)]) ++ [v] := by
          rw [hsplit, absList_append, absList_append, absList_append,
            absList_cons, absList_cons, absList_nil, absList_cons, absList_nil,
            @blockElems_initBack s.fElemSize nb v hes (by simp [hnb]) (by simp [hnb])
              (by simp [hnb]),
            @blockElems_congr s.fElemSize bL b2 rfl rfl rfl]
          simp
        refine ⟨_, L ++ [(a, b2), (s.nextAddr, nb)],
          push_back_char_full v hback hheap hbb hee hroom hne,
          ?_, ?_, rfl, rfl, rfl, rfl, rfl, Nat.le_succ _⟩
        · constructor
          · exact hes
          · exact hac
          · refine hwf.chain.snoc ?_ ?_ rfl rfl ?_ rfl rfl
            · intro x hx
              have hxa : x ≠ a := fun h => hnotL (h ▸ hx)
              have hxn : x ≠ s.nextAddr :=
                Nat.ne_of_lt (hwf.bound x (by simp [hx]))
              simp [hxa, hxn]
            · simp [hne]
            · simp
          · show some s.nextAddr = _
            rw [hsplit, List.map_append, List.map_cons, List.map_nil,
              List.getLast?_concat]
          · show ((L ++ [(a, b2), (s.nextAddr, nb)]).map Prod.fst).Nodup
            rw [hsplit, List.map_append, List.nodup_append]
            have hfst : (L ++ [(a, b2)]).map Prod.fst = (L ++ [(a, bL)]).map Prod.fst := by
              simp
            refine ⟨hfst ▸ hwf.nodup, List.nodup_singleton _, ?_⟩
            intro x hx hx2
            simp only [List.map_cons, List.map_nil, List.mem_singleton] at hx2
            subst hx2
            rw [hfst] at hx
            exact absurd (hwf.bound _ hx) (lt_irrefl _)
          · intro x hx
            show x < s.nextAddr + 1
            rw [hsplit, List.map_append, List.mem_append] at hx
            rcases hx with hx | hx
            · have : (L ++ [(a, b2)]).map Prod.fst = (L ++ [(a, bL)]).map Prod.fst := by
                simp
              rw [this] at hx
              exact Nat.lt_succ_of_lt (hwf.bound x hx)
            · simp only [List.map_cons, List.map_nil, List.mem_singleton] at hx
              subst hx
              exact Nat.lt_succ_self _
          · intro r hr
            show BlockOK s.fElemSize r.2
            rcases List.mem_append.mp hr with hr | hr
            · exact hwf.blocks_ok r (by simp [hr])
            · rcases List.mem_cons.mp hr with hr | hr
              · rw [hr]
                exact hokL.congr rfl rfl rfl
              · rw [List.mem_singleton] at hr
                rw [hr]
                refine ⟨es_le_mul hes hac, by simp [hnb], ?_⟩
                intro bb' ee' hbb' hee'
                simp only [hnb, Option.some.injEq] at hbb' hee'
                subst hbb'
                subst hee'
                exact ⟨Nat.le_of_eq (Nat.zero_add _), es_le_mul hes hac, by simp⟩
          · refine hwf.mid.append_last ?_
            simp [hb2, hbb]
          · show s.fCount + 1 =
              ((absList s.fElemSize (L ++ [(a, b2), (s.nextAddr, nb)])).length : Int)
            rw [habs2, List.length_append, hwf.count_eq]
            push_cast
            simp
        · show absList s.fElemSize (L ++ [(a, b2), (s.nextAddr, nb)]) = _
          exact habs2
      · -- room in the back block: extend fEnd
        set b2 : Block :=
          { fNext := bL.fNext, fPrev := bL.fPrev, fBegin := bL.fBegin,
            fEnd := some (ee + s.fElemSize), fStop := bL.fStop,
            data := fun y => if y = ee then v else bL.data y } with hb2
        have hsome : b2.fBegin = some bb := by rw [hb2]; exact hbb
        have hsnoc : blockElems s.fElemSize b2 = blockElems s.fElemSize bL ++ [v] := by
          refine blockElems_snoc hes hbb hee (by omega) hdvd hsome rfl (by simp [hb2]) ?_
          intro x hx
          simp [hb2, hx]
        have habs2 : absList s.fElemSize (L ++ [(a, b2)]) =
            absList s.fElemSize (L ++ [(a, bL)]) ++ [v] := by
          rw [absList_append, absList_append, absList_cons, absList_cons, absList_nil,
            hsnoc]
          simp
        refine ⟨_, L ++ [(a, b2)], push_back_char_room v hback hheap hbb hee hroom,
          ?_, ?_, rfl, rfl, rfl, rfl, rfl, le_refl _⟩
        · constructor
          · exact hes
          · exact hac
          · refine hwf.chain.update_last ?_ ?_ rfl rfl
            · intro x hx
              have hxa : x ≠ a := fun h => hnotL (h ▸ hx)
              simp [hxa]
            · simp [hbb, hb2]
          · show s.fBack = _
            rw [hwf.back_eq]
            simp
          · show ((L ++ [(a, b2)]).map Prod.fst).Nodup
            have := hwf.nodup
            simp only [List.map_append, List.map_cons, List.map_nil] at this ⊢
            exact this
          · intro x hx
            show x < s.nextAddr
            refine hwf.bound x ?_
            simp only [List.map_append, List.map_cons, List.map_nil] at hx ⊢
            exact hx
          · intro r hr
            show BlockOK s.fElemSize r.2
            rcases List.mem_append.mp hr with hr | hr
            · exact hwf.blocks_ok r (by simp [hr])
            · rw [List.mem_singleton] at hr
              rw [hr]
              refine ⟨hokL.1, by simp [hb2, hbb], ?_⟩
              intro bb' ee' hbb' hee'
              rw [show ((a, b2).2 : Block).fBegin = some bb from hsome,
                Option.some.injEq] at hbb'
              rw [show ((a, b2).2 : Block).fEnd = some (ee + s.fElemSize) from rfl,
                Option.some.injEq] at hee'
              subst hbb'
              subst hee'
              refine ⟨Nat.le_trans hged (Nat.le_add_right _ _), Nat.le_of_not_lt hroom, ?_⟩
              have heq : ee + s.fElemSize - bb = (ee - bb) + s.fElemSize := by
                clear hb2
                omega
              rw [show ((a, b2).2 : Block).fStop = bL.fStop from rfl] at *
              rw [heq, Nat.add_mod_right]
              exact hdvd
          · exact hwf.mid.replace_last
          · show s.fCount + 1 = ((absList s.fElemSize (L ++ [(a, b2)])).length : Int)
            rw [habs2, List.length_append, hwf.count_eq]
            push_cast
            simp
        · show absList s.fElemSize (L ++ [(a, b2)]) = _
          exact habs2

/-! ### push_front preserves WF -/

/-- `pushFrontW` on a well-formed state always succeeds, preserves the
invariant, and prepends `v` to the abstract element list. -/
theorem pushFrontW_spec {s : SkDeque} {ch : List (Addr × Block)} (hwf : WF s ch) (v : Val) :
    ∃ t ch2, s.pushFrontW v = some t ∧ WF t ch2 ∧
      absList t.fElemSize ch2 = v :: absList s.fElemSize ch ∧
      t.fElemSize = s.fElemSize ∧ t.fAllocCount = s.fAllocCount ∧
      t.fInitialStorage = s.fInitialStorage ∧ t.fCount = s.fCount + 1 ∧
      t.freed = s.freed ∧ s.nextAddr ≤ t.nextAddr := by
  have hes := hwf.es_pos
  have hac := hwf.ac_pos
  have hcap : s.fElemSize ≤ s.fAllocCount * s.fElemSize := es_le_mul hes hac
  rcases ch with _ | ⟨⟨a, bF⟩, R⟩
  · -- the chain is empty: allocate the first block
    obtain ⟨hfront, hback⟩ := hwf.ends_none
    have h0 : s.fCount = 0 := by simpa [absList_nil] using hwf.count_eq
    set nb : Block :=
      { fNext := none, fPrev := none,
        fBegin := some (s.fAllocCount * s.fElemSize - s.fElemSize),
        fEnd := some (s.fAllocCount * s.fElemSize),
        fStop := s.fAllocCount * s.fElemSize,
        data := fun y => if y = s.fAllocCount * s.fElemSize - s.fElemSize
                         then v else 0 } with hnb
    have hdat : nb.data (s.fAllocCount * s.fElemSize - s.fElemSize) = v := by
      simp [hnb]
    have habs : absList s.fElemSize [(s.nextAddr, nb)] = [v] := by
      rw [absList_cons, absList_nil, blockElems_initFront hes hcap rfl rfl hdat]
      simp
    refine ⟨_, [(s.nextAddr, nb)],
      push_front_char_empty v hfront, ?_, ?_, rfl, rfl, rfl, rfl, rfl,
      Nat.le_succ _⟩
    · constructor
      · exact hes
      · exact hac
      · refine Chain.cons none s.nextAddr _ [] (by simp) rfl ?_
        exact Chain.nil _
      · simp
      · simp
      · intro x hx
        simp only [List.map_cons, List.map_nil, List.mem_singleton] at hx
        subst hx
        exact Nat.lt_succ_self _
      · intro r hr
        simp only [List.mem_singleton] at hr
        subst hr
        show BlockOK s.fElemSize nb
        refine ⟨hcap, by simp [hnb], ?_⟩
        intro bb ee hbb hee
        simp only [hnb, Option.some.injEq] at hbb hee
        subst hbb
        subst hee
        refine ⟨Nat.le_of_eq (Nat.sub_add_cancel hcap), Nat.le_refl _, ?_⟩
        rw [Nat.sub_sub_self hcap, Nat.mod_self]
      · exact MidOK_single
      · show s.fCount + 1 = ((absList s.fElemSize [(s.nextAddr, nb)]).length : Int)
        rw [habs, h0]
        simp
    · show absList s.fElemSize [(s.nextAddr, nb)] = v :: absList s.fElemSize []
      rw [habs, absList_nil]
  · -- the chain is non-empty
    obtain ⟨hfront, hheap, hprev, hrest⟩ := hwf.chain.cons_inv
    have hch0 : Chain s.heap none (some a) ((a, bF) :: R) := by
      have h := hwf.chain
      rw [hfront] at h
      exact h
    have hnotR : a ∉ R.map Prod.fst := (List.nodup_cons.mp hwf.nodup).1
    have hokF : BlockOK s.fElemSize bF := hwf.blocks_ok (a, bF) (by simp)
    have halt : a < s.nextAddr := hwf.bound a (by simp)
    rcases hbb : bF.fBegin with _ | bb
    · -- the front block is marked empty: INIT_CHUNK refills it from the top
      set b2 : Block :=
        { fNext := bF.fNext, fPrev := bF.fPrev,
          fBegin := some (bF.fStop - s.fElemSize), fEnd := some bF.fStop,
          fStop := bF.fStop,
          data := fun y => if y = bF.fStop - s.fElemSize then v else bF.data y } with hb2
      have hdat : b2.data (bF.fStop - s.fElemSize) = v := by simp [hb2]
      have hbl0 : blockElems s.fElemSize bF = [] := blockElems_isEmpty hbb
      have habs2 : absList s.fElemSize ((a, b2) :: R) =
          v :: absList s.fElemSize ((a, bF) :: R) := by
        rw [absList_cons, absList_cons, hbl0,
          blockElems_initFront hes hokF.1 rfl rfl hdat]
        simp
      refine ⟨_, (a, b2) :: R, push_front_char_refill v hfront hheap hbb,
        ?_, ?_, rfl, rfl, rfl, rfl, rfl, le_refl _⟩
      · constructor
        · exact hes
        · exact hac
        · refine hwf.chain.update_head ?_ ?_ rfl rfl
          · intro x hx
            have hxa : x ≠ a := fun h => hnotR (h ▸ hx)
            simp [hxa]
          · simp
        · show s.fBack = _
          rw [hwf.back_eq]
          cases R <;> simp
        · show ((( a, b2) :: R).map Prod.fst).Nodup
          simpa using hwf.nodup
        · intro x hx
          show x < s.nextAddr
          refine hwf.bound x ?_
          simpa using hx
        · intro r hr
          show BlockOK s.fElemSize r.2
          rcases List.mem_cons.mp hr with hr | hr
          · rw [hr]
            refine ⟨hokF.1, by simp [hb2], ?_⟩
            intro bb' ee' hbb' hee'
            rw [show ((a, b2).2 : Block).fBegin
                = some (bF.fStop - s.fElemSize) from rfl, Option.some.injEq] at hbb'
            rw [show ((a, b2).2 : Block).fEnd = some bF.fStop from rfl,
              Option.some.injEq] at hee'
            subst hbb'
            subst hee'
            refine ⟨Nat.le_of_eq (Nat.sub_add_cancel hokF.1), Nat.le_refl _, ?_⟩
            rw [show ((a, b2).2 : Block).fStop = bF.fStop from rfl]
            rw [Nat.sub_sub_self hokF.1, Nat.mod_self]
          · exact hwf.blocks_ok r (by simp [hr])
        · exact hwf.mid.replace_head
        · show s.fCount + 1 = ((absList s.fElemSize ((a, b2) :: R)).length : Int)
          rw [habs2, List.length_cons, hwf.count_eq]
          push_cast
          ring
      · show absList s.fElemSize ((a, b2) :: R) = _
        exact habs2
    · -- the front block holds elements
      obtain ⟨ee, hee⟩ := hokF.fEnd_some hbb
      obtain ⟨hged, heed, hdvd⟩ := hokF.rng hbb hee
      by_cases hroom : bb < s.fElemSize
      · -- no room at the front: allocate a new front block
        have hne : a ≠ s.nextAddr := Nat.ne_of_lt halt
        set b2 : Block :=
          { fNext := bF.fNext, fPrev := some s.nextAddr, fBegin := bF.fBegin,
            fEnd := bF.fEnd, fStop := bF.fStop, data := bF.data } with hb2
        set nb : Block :=
          { fNext := some a, fPrev := none,
            fBegin := some (s.fAllocCount * s.fElemSize - s.fElemSize),
            fEnd := some (s.fAllocCount * s.fElemSize),
            fStop := s.fAllocCount * s.fElemSize,
            data := fun y => if y = s.fAllocCount * s.fElemSize - s.fElemSize
                             then v else 0 } with hnb
        have habs2 : absList s.fElemSize ((s.nextAddr, nb) :: (a, b2) :: R) =
            v :: absList s.fElemSize ((a, bF) :: R) := by
          rw [absList_cons, absList_cons, absList_cons,
            @blockElems_initFront s.fElemSize (s.fAllocCount * s.fElemSize) nb v hes
              hcap (by simp [hnb]) (by simp [hnb]) (by simp [hnb]),
            @blockElems_congr s.fElemSize bF b2 rfl rfl rfl]
          simp
        refine ⟨_, (s.nextAddr, nb) :: (a, b2) :: R,
          push_front_char_full v hfront hheap hbb hroom hne,
          ?_, ?_, rfl, rfl, rfl, rfl, rfl, Nat.le_succ _⟩
        · constructor
          · exact hes
          · exact hac
          · refine hch0.cons_front ?_ ?_ rfl rfl ?_ rfl rfl
            · intro x hx
              have hxa : x ≠ a := fun h => hnotR (h ▸ hx)
              have hxn : x ≠ s.nextAddr :=
                Nat.ne_of_lt (hwf.bound x (by simp [hx]))
              simp [hxa, hxn]
            · simp
            · simp [hne]
          · show s.fBack = _
            rw [hwf.back_eq]
            rw [List.map_cons, List.map_cons, List.map_cons, List.getLast?_cons_cons]
          · show ((s.nextAddr, nb) :: (a, b2) :: R).map Prod.fst |>.Nodup
            rw [List.map_cons, List.nodup_cons]
            constructor
            · intro hmem
              have := hwf.bound s.nextAddr (by simpa using hmem)
              exact absurd this (lt_irrefl _)
            · simpa using hwf.nodup
          · intro x hx
            show x < s.nextAddr + 1
            rw [List.map_cons, List.mem_cons] at hx
            rcases hx with hx | hx
            · subst hx
              exact Nat.lt_succ_self _
            · exact Nat.lt_succ_of_lt (hwf.bound x (by simpa using hx))
          · intro r hr
            show BlockOK s.fElemSize r.2
            rcases List.mem_cons.mp hr with hr | hr
            · rw [hr]
              refine ⟨hcap, by simp [hnb], ?_⟩
              intro bb' ee' hbb' hee'
              simp only [hnb, Option.some.injEq] at hbb' hee'
              subst hbb'
              subst hee'
              refine ⟨Nat.le_of_eq (Nat.sub_add_cancel hcap), Nat.le_refl _, ?_⟩
              rw [Nat.sub_sub_self hcap, Nat.mod_self]
            · rcases List.mem_cons.mp hr with hr | hr
              · rw [hr]
                exact hokF.congr rfl rfl rfl
              · exact hwf.blocks_ok r (by simp [hr])
          · refine hwf.mid.prepend ?_
            simp [hb2, hbb]
          · show s.fCount + 1 =
              ((absList s.fElemSize ((s.nextAddr, nb) :: (a, b2) :: R)).length : Int)
            rw [habs2, List.length_cons, hwf.count_eq]
            push_cast
            ring
        · show absList s.fElemSize ((s.nextAddr, nb) :: (a, b2) :: R) = _
          exact habs2
      · -- room at the front: move fBegin down
        set b2 : Block :=
          { fNext := bF.fNext, fPrev := bF.fPrev,
            fBegin := some (bb - s.fElemSize), fEnd := bF.fEnd, fStop := bF.fStop,
            data := fun y => if y = bb - s.fElemSize then v else bF.data y } with hb2
        have hge : s.fElemSize ≤ bb := Nat.le_of_not_lt hroom
        have hcons : blockElems s.fElemSize b2 = v :: blockElems s.fElemSize bF :=
          blockElems_cons hes hbb hee hge
            (Nat.le_trans (Nat.le_add_right _ _) hged) hdvd rfl hee
            (by simp [hb2]) (fun x hx => by simp [hb2, hx])
        have habs2 : absList s.fElemSize ((a, b2) :: R) =
            v :: absList s.fElemSize ((a, bF) :: R) := by
          rw [absList_cons, absList_cons, hcons]
          simp
        refine ⟨_, (a, b2) :: R, push_front_char_room v hfront hheap hbb hroom,
          ?_, ?_, rfl, rfl, rfl, rfl, rfl, le_refl _⟩
        · constructor
          · exact hes
          · exact hac
          · refine hwf.chain.update_head ?_ ?_ rfl rfl
            · intro x hx
              have hxa : x ≠ a := fun h => hnotR (h ▸ hx)
              simp [hxa]
            · simp [hbb, hb2]
          · show s.fBack = _
            rw [hwf.back_eq]
            cases R <;> simp
          · show (((a, b2) :: R).map Prod.fst).Nodup
            simpa using hwf.nodup
          · intro x hx
            show x < s.nextAddr
            refine hwf.bound x ?_
            simpa using hx
          · intro r hr
            show BlockOK s.fElemSize r.2
            rcases List.mem_cons.mp hr with hr | hr
            · rw [hr]
              refine ⟨hokF.1, by simp [hb2, hbb, hee], ?_⟩
              intro bb' ee' hbb' hee'
              rw [show ((a, b2).2 : Block).fBegin
                  = some (bb - s.fElemSize) from rfl, Option.some.injEq] at hbb'
              rw [show ((a, b2).2 : Block).fEnd = bF.fEnd from rfl, hee,
                Option.some.injEq] at hee'
              subst hbb'
              subst hee'
              refine ⟨?_, ?_, ?_⟩
              · rw [Nat.sub_add_cancel hge]
                exact Nat.le_trans (Nat.le_add_right _ _) hged
              · rw [show ((a, b2).2 : Block).fStop = bF.fStop from rfl]
                exact heed
              · have heq : ee - (bb - s.fElemSize) = (ee - bb) + s.fElemSize := by
                  clear hb2
                  omega
                rw [heq, Nat.add_mod_right]
                exact hdvd
            · exact hwf.blocks_ok r (by simp [hr])
          · exact hwf.mid.replace_head
          · show s.fCount + 1 = ((absList s.fElemSize ((a, b2) :: R)).length : Int)
            rw [habs2, List.length_cons, hwf.count_eq]
            push_cast
            ring
        · show absList s.fElemSize ((a, b2) :: R) = _
          exact habs2

theorem two_steps {es bb ee : Nat} (hdvd : (ee - bb) % es = 0)
    (hlt : bb + es < ee) : bb + es + es ≤ ee := by
  obtain ⟨k, hk⟩ := Nat.dvd_of_mod_eq_zero hdvd
  match k, hk with
  | 0, hk => omega
  | 1, hk =>
    simp only [Nat.mul_one] at hk
    omega
  | k + 2, hk =>
    have h3 : es * (k + 2) = es * k + es + es := by ring
    omega

theorem blockElems_one {es bb : Nat} {b : Block} (hes : 0 < es)
    (h1 : b.fBegin = some bb) (h2 : b.fEnd = some (bb + es)) :
    blockElems es b = [b.data bb] := by
  rw [blockElems_eq_map 0]
  have hsl : blockSlots es 0 b = [(0, bb)] := by
    rw [blockSlots_eq h1 h2]
    have h3 : (bb + es - bb) / es = 1 := by
      rw [Nat.add_sub_cancel_left, Nat.div_self hes]
    rw [h3]
    have hr : List.range 1 = [0] := rfl
    rw [hr]
    simp
  rw [hsl]
  simp

/-- `pop_front` on a well-formed non-empty state always succeeds, preserves
the invariant, removes the head of the abstract element list, and performs
the lazy-release discipline: a pop that merely shrinks or empties the front
block frees nothing, while a pop that finds the front block already marked
empty advances past it and frees exactly that block. -/
theorem popFront_spec {s : SkDeque} {ch : List (Addr × Block)} (hwf : WF s ch)
    (hpos : 0 < s.fCount) :
    ∃ t ch2, s.pop_front = some t ∧ WF t ch2 ∧
      absList t.fElemSize ch2 = (absList s.fElemSize ch).tail ∧
      t.fElemSize = s.fElemSize ∧ t.fAllocCount = s.fAllocCount ∧
      t.fInitialStorage = s.fInitialStorage ∧ t.fCount = s.fCount - 1 ∧
      t.nextAddr = s.nextAddr ∧
      (∀ a b, s.fFront = some a → s.heap a = some b → b.fBegin ≠ none →
        t.freed = s.freed ∧ ch2.length = ch.length ∧
        (∀ bb, b.fBegin = some bb → b.fEnd = some (bb + s.fElemSize) →
          ∃ b2, t.heap a = some b2 ∧ b2.fBegin = none ∧ b2.fEnd = none)) ∧
      (∀ a b, s.fFront = some a → s.heap a = some b → b.fBegin = none →
        t.freed = a :: s.freed ∧ t.heap a = none ∧ ch2.length + 1 = ch.length ∧
        t.fFront = b.fNext) := by
  have hes := hwf.es_pos
  have hac := hwf.ac_pos
  have hcount : ¬ s.fCount ≤ 0 := by omega
  have habsne : absList s.fElemSize ch ≠ [] := by
    intro h
    rw [hwf.count_eq, h] at hpos
    simp at hpos
  rcases ch with _ | ⟨⟨a, bF⟩, R⟩
  · exact absurd (absList_nil) habsne
  obtain ⟨hfront, hheap, hprev, hrest⟩ := hwf.chain.cons_inv
  have hnotR : a ∉ R.map Prod.fst := (List.nodup_cons.mp hwf.nodup).1
  have hokF : BlockOK s.fElemSize bF := hwf.blocks_ok (a, bF) (by simp)
  rcases hbb : bF.fBegin with _ | bb
  · -- the front block is already marked empty: advance and free it
    have hend : bF.fEnd = none := hokF.2.1.mp hbb
    have habsF : blockElems s.fElemSize bF = [] := blockElems_isEmpty hbb
    rcases R with _ | ⟨⟨a2, b2⟩, R2⟩
    · exfalso
      apply habsne
      rw [absList_cons, habsF, absList_nil]
      rfl
    obtain ⟨hnext, hheap2, hprev2, hrest2⟩ := hrest.cons_inv
    have hne : a2 ≠ a := by
      have := hwf.nodup
      simp only [List.map_cons, List.nodup_cons, List.mem_cons] at this
      exact fun h => this.1 (Or.inl h.symm)
    rcases hbb2 : b2.fBegin with _ | bb2
    · -- impossible: the second block cannot also be empty while count > 0
      exfalso
      have hb2e : blockElems s.fElemSize b2 = [] := blockElems_isEmpty hbb2
      rcases R2 with _ | ⟨q3, R3⟩
      · apply habsne
        rw [absList_cons, absList_cons, habsF, hb2e, absList_nil]
        rfl
      · refine hwf.mid (a2, b2) ?_ hbb2
        rw [List.tail_cons, List.dropLast_cons_of_ne_nil (by simp)]
        simp
    obtain ⟨ee2, hee2⟩ := (hwf.blocks_ok (a2, b2) (by simp)).fEnd_some hbb2
    obtain ⟨hged2, heed2, hdvd2⟩ := (hwf.blocks_ok (a2, b2) (by simp)).rng hbb2 hee2
    have hee2p : b2.fEnd = some ee2 := hee2
    have hok2 : ¬ ee2 < bb2 + s.fElemSize := by omega
    have habsR : absList s.fElemSize ((a, bF) :: (a2, b2) :: R2) =
        blockElems s.fElemSize b2 ++ absList s.fElemSize R2 := by
      rw [absList_cons, absList_cons, habsF]
      rfl
    by_cases hmore : bb2 + s.fElemSize < ee2
    · -- new front block keeps elements: shrink it
      set b2n : Block :=
        { fNext := b2.fNext, fPrev := none, fBegin := some (bb2 + s.fElemSize),
          fEnd := b2.fEnd, fStop := b2.fStop, data := b2.data } with hb2n
      have htl : blockElems s.fElemSize b2 =
          b2.data bb2 :: blockElems s.fElemSize b2n := by
        refine blockElems_tail_eq hes hbb2 hee2 hged2 rfl ?_ (fun x => rfl)
        show b2n.fEnd = some ee2
        rw [hb2n]
        exact hee2
      have habs2 : absList s.fElemSize ((a2, b2n) :: R2) =
          (absList s.fElemSize ((a, bF) :: (a2, b2) :: R2)).tail := by
        rw [habsR, htl, absList_cons]
        rfl
      refine ⟨_, (a2, b2n) :: R2,
        pop_front_char_advance_shrink hcount hfront hheap hbb hnext hheap2 hne
          hbb2 hee2 hok2 hmore,
        ?_, habs2, rfl, rfl, rfl, rfl, rfl, ?_, ?_⟩
      · constructor
        · exact hes
        · exact hac
        · refine hwf.chain.drop_head ?_ ?_ rfl rfl
          · intro x hx
            have hxa : x ≠ a := fun h => by
              have := hwf.nodup
              simp only [List.map_cons, List.nodup_cons, List.mem_cons] at this
              exact this.1 (Or.inr (h ▸ hx))
            have hxa2 : x ≠ a2 := fun h => by
              have := hwf.nodup
              simp only [List.map_cons, List.nodup_cons] at this
              exact this.2.1 (h ▸ hx)
            simp [hxa, hxa2]
          · simp [Ne.symm hne]
        · show s.fBack = _
          rw [hwf.back_eq]
          rw [List.map_cons, List.map_cons, List.map_cons, List.getLast?_cons_cons]
        · have := hwf.nodup
          simp only [List.map_cons, List.nodup_cons] at this ⊢
          exact this.2
        · intro x hx
          show x < s.nextAddr
          refine hwf.bound x ?_
          simp only [List.map_cons, List.mem_cons] at hx ⊢
          tauto
        · intro r hr
          show BlockOK s.fElemSize r.2
          rcases List.mem_cons.mp hr with hr | hr
          · rw [hr]
            refine ⟨(hwf.blocks_ok (a2, b2) (by simp)).1, by simp [hb2n, hee2p], ?_⟩
            intro bb' ee' hbb' hee'
            rw [show ((a2, b2n).2 : Block).fBegin
                = some (bb2 + s.fElemSize) from rfl, Option.some.injEq] at hbb'
            rw [show ((a2, b2n).2 : Block).fEnd = b2.fEnd from rfl, hee2,
              Option.some.injEq] at hee'
            subst hbb'
            subst hee'
            refine ⟨two_steps hdvd2 hmore, ?_, ?_⟩
            · rw [show ((a2, b2n).2 : Block).fStop = b2.fStop from rfl]
              exact heed2
            · have heq : ee2 - (bb2 + s.fElemSize) = (ee2 - bb2) - s.fElemSize := by
                clear hb2n
                omega
              rw [heq]
              obtain ⟨k, hk⟩ := Nat.dvd_of_mod_eq_zero hdvd2
              match k, hk with
              | 0, hk => exfalso; clear hb2n; omega
              | k + 1, hk =>
                have h4 : ee2 - bb2 - s.fElemSize = s.fElemSize * k := by
                  have h5 : s.fElemSize * (k + 1) = s.fElemSize * k + s.fElemSize := by
                    ring
                  clear hb2n
                  omega
                rw [h4, Nat.mul_comm]
                exact Nat.mul_mod_left _ _
          · exact hwf.blocks_ok r (by simp [hr])
        · exact hwf.mid.of_drop_head
        · show s.fCount - 1 = ((absList s.fElemSize ((a2, b2n) :: R2)).length : Int)
          have hlen : (absList s.fElemSize ((a, bF) :: (a2, b2) :: R2)).length =
              (absList s.fElemSize ((a2, b2n) :: R2)).length + 1 := by
            rw [habs2, habsR, htl]
            simp [absList_cons]
          rw [hwf.count_eq, hlen]
          push_cast
          ring
      · intro a' b' hfa hha hcond
        exfalso
        rw [hfront, Option.some.injEq] at hfa
        subst hfa
        rw [hheap, Option.some.injEq] at hha
        subst hha
        exact hcond hbb
      · intro a' b' hfa hha hcond
        rw [hfront, Option.some.injEq] at hfa
        subst hfa
        rw [hheap, Option.some.injEq] at hha
        subst hha
        refine ⟨rfl, ?_, by simp, ?_⟩
        · show (if a = a2 then _ else if a = a then none else s.heap a) = none
          rw [if_neg (Ne.symm hne), if_pos rfl]
        · show some a2 = bF.fNext
          rw [hnext]
    · -- new front block had exactly one element: mark it empty
      have heq2 : ee2 = bb2 + s.fElemSize := by omega
      subst heq2
      set b2n : Block :=
        { fNext := b2.fNext, fPrev := none, fBegin := none,
          fEnd := none, fStop := b2.fStop, data := b2.data } with hb2n
      have hone : blockElems s.fElemSize b2 = [b2.data bb2] :=
        blockElems_one hes hbb2 hee2
      have habs2 : absList s.fElemSize ((a2, b2n) :: R2) =
          (absList s.fElemSize ((a, bF) :: (a2, b2) :: R2)).tail := by
        rw [habsR, hone, absList_cons, blockElems_isEmpty (show b2n.fBegin = none from rfl)]
        rfl
      refine ⟨_, (a2, b2n) :: R2,
        pop_front_char_advance_mark hcount hfront hheap hbb hnext hheap2 hne
          hbb2 hee2 hok2 hmore,
        ?_, habs2, rfl, rfl, rfl, rfl, rfl, ?_, ?_⟩
      · constructor
        · exact hes
        · exact hac
        · refine hwf.chain.drop_head ?_ ?_ rfl rfl
          · intro x hx
            have hxa : x ≠ a := fun h => by
              have := hwf.nodup
              simp only [List.map_cons, List.nodup_cons, List.mem_cons] at this
              exact this.1 (Or.inr (h ▸ hx))
            have hxa2 : x ≠ a2 := fun h => by
              have := hwf.nodup
              simp only [List.map_cons, List.nodup_cons] at this
              exact this.2.1 (h ▸ hx)
            simp [hxa, hxa2]
          · simp [Ne.symm hne]
        · show s.fBack = _
          rw [hwf.back_eq]
          rw [List.map_cons, List.map_cons, List.map_cons, List.getLast?_cons_cons]
        · have := hwf.nodup
          simp only [List.map_cons, List.nodup_cons] at this ⊢
          exact this.2
        · intro x hx
          show x < s.nextAddr
          refine hwf.bound x ?_
          simp only [List.map_cons, List.mem_cons] at hx ⊢
          tauto
        · intro r hr
          show BlockOK s.fElemSize r.2
          rcases List.mem_cons.mp hr with hr | hr
          · rw [hr]
            exact ⟨(hwf.blocks_ok (a2, b2) (by simp)).1, by simp [hb2n],
              fun bb' ee' hbb' _ => by
                rw [show ((a2, b2n).2 : Block).fBegin = none from rfl] at hbb'
                cases hbb'⟩
          · exact hwf.blocks_ok r (by simp [hr])
        · exact hwf.mid.of_drop_head
        · show s.fCount - 1 = ((absList s.fElemSize ((a2, b2n) :: R2)).length : Int)
          have hlen : (absList s.fElemSize ((a, bF) :: (a2, b2) :: R2)).length =
              (absList s.fElemSize ((a2, b2n) :: R2)).length + 1 := by
            rw [habs2, habsR, hone]
            simp [absList_cons]
          rw [hwf.count_eq, hlen]
          push_cast
          ring
      · intro a' b' hfa hha hcond
        exfalso
        rw [hfront, Option.some.injEq] at hfa
        subst hfa
        rw [hheap, Option.some.injEq] at hha
        subst hha
        exact hcond hbb
      · intro a' b' hfa hha hcond
        rw [hfront, Option.some.injEq] at hfa
        subst hfa
        rw [hheap, Option.some.injEq] at hha
        subst hha
        refine ⟨rfl, ?_, by simp, ?_⟩
        · show (if a = a2 then _ else if a = a then none else s.heap a) = none
          rw [if_neg (Ne.symm hne), if_pos rfl]
        · show some a2 = bF.fNext
          rw [hnext]
  · -- the front block holds elements
    obtain ⟨ee, hee⟩ := hokF.fEnd_some hbb
    obtain ⟨hged, heed, hdvd⟩ := hokF.rng hbb hee
    have hok : ¬ ee < bb + s.fElemSize := by omega
    by_cases hmore : bb + s.fElemSize < ee
    · -- more than one element: shrink
      set bFn : Block :=
        { fNext := bF.fNext, fPrev := bF.fPrev, fBegin := some (bb + s.fElemSize),
          fEnd := bF.fEnd, fStop := bF.fStop, data := bF.data } with hbFn
      have htl : blockElems s.fElemSize bF =
          bF.data bb :: blockElems s.fElemSize bFn := by
        refine blockElems_tail_eq hes hbb hee hged rfl ?_ (fun x => rfl)
        show bFn.fEnd = some ee
        rw [hbFn]
        exact hee
      have habs2 : absList s.fElemSize ((a, bFn) :: R) =
          (absList s.fElemSize ((a, bF) :: R)).tail := by
        rw [absList_cons, absList_cons, htl]
        rfl
      refine ⟨_, (a, bFn) :: R,
        pop_front_char_shrink hcount hfront hheap hbb hee hok hmore,
        ?_, habs2, rfl, rfl, rfl, rfl, rfl, ?_, ?_⟩
      · constructor
        · exact hes
        · exact hac
        · refine hwf.chain.update_head ?_ ?_ rfl rfl
          · intro x hx
            have hxa : x ≠ a := fun h => hnotR (h ▸ hx)
            simp [hxa]
          · simp [hbFn, hee]
        · show s.fBack = _
          rw [hwf.back_eq]
          cases R <;> simp
        · simpa using hwf.nodup
        · intro x hx
          show x < s.nextAddr
          refine hwf.bound x ?_
          simpa using hx
        · intro r hr
          show BlockOK s.fElemSize r.2
          rcases List.mem_cons.mp hr with hr | hr
          · rw [hr]
            refine ⟨hokF.1, by simp [hbFn, hee], ?_⟩
            intro bb' ee' hbb' hee'
            rw [show ((a, bFn).2 : Block).fBegin
                = some (bb + s.fElemSize) from rfl, Option.some.injEq] at hbb'
            rw [show ((a, bFn).2 : Block).fEnd = bF.fEnd from rfl, hee,
              Option.some.injEq] at hee'
            subst hbb'
            subst hee'
            refine ⟨two_steps hdvd hmore, ?_, ?_⟩
            · rw [show ((a, bFn).2 : Block).fStop = bF.fStop from rfl]
              exact heed
            · have heq : ee - (bb + s.fElemSize) = (ee - bb) - s.fElemSize := by
                clear hbFn
                omega
              rw [heq]
              obtain ⟨k, hk⟩ := Nat.dvd_of_mod_eq_zero hdvd
              match k, hk with
              | 0, hk => exfalso; clear hbFn; omega
              | k + 1, hk =>
                have h4 : ee - bb - s.fElemSize = s.fElemSize * k := by
                  have h5 : s.fElemSize * (k + 1) = s.fElemSize * k + s.fElemSize := by
                    ring
                  clear hbFn
                  omega
                rw [h4, Nat.mul_comm]
                exact Nat.mul_mod_left _ _
          · exact hwf.blocks_ok r (by simp [hr])
        · exact hwf.mid.replace_head
        · show s.fCount - 1 = ((absList s.fElemSize ((a, bFn) :: R)).length : Int)
          have hlen : (absList s.fElemSize ((a, bF) :: R)).length =
              (absList s.fElemSize ((a, bFn) :: R)).length + 1 := by
            rw [habs2, absList_cons, htl]
            simp [absList_cons]
          rw [hwf.count_eq, hlen]
          push_cast
          ring
      · intro a' b' hfa hha hcond
        rw [hfront, Option.some.injEq] at hfa
        subst hfa
        rw [hheap, Option.some.injEq] at hha
        subst hha
        refine ⟨rfl, by simp, ?_⟩
        intro bb' hbb' hee'
        exfalso
        rw [hbb, Option.some.injEq] at hbb'
        subst hbb'
        rw [hee, Option.some.injEq] at hee'
        rw [hee'] at hmore
        exact absurd hmore (lt_irrefl _)
      · intro a' b' hfa hha hcond
        exfalso
        rw [hfront, Option.some.injEq] at hfa
        subst hfa
        rw [hheap, Option.some.injEq] at hha
        subst hha
        rw [hbb] at hcond
        cases hcond
    · -- exactly one element: mark the block empty, do not free it
      have heqe : ee = bb + s.fElemSize := by omega
      subst heqe
      set bFn : Block :=
        { fNext := bF.fNext, fPrev := bF.fPrev, fBegin := none,
          fEnd := none, fStop := bF.fStop, data := bF.data } with hbFn
      have hone : blockElems s.fElemSize bF = [bF.data bb] :=
        blockElems_one hes hbb hee
      have habs2 : absList s.fElemSize ((a, bFn) :: R) =
          (absList s.fElemSize ((a, bF) :: R)).tail := by
        rw [absList_cons, absList_cons, hone,
          blockElems_isEmpty (show bFn.fBegin = none from rfl)]
        rfl
      refine ⟨_, (a, bFn) :: R,
        pop_front_char_mark hcount hfront hheap hbb hee hok hmore,
        ?_, habs2, rfl, rfl, rfl, rfl, rfl, ?_, ?_⟩
      · constructor
        · exact hes
        · exact hac
        · refine hwf.chain.update_head ?_ ?_ rfl rfl
          · intro x hx
            have hxa : x ≠ a := fun h => hnotR (h ▸ hx)
            simp [hxa]
          · simp [hbb, hee]
        · show s.fBack = _
          rw [hwf.back_eq]
          cases R <;> simp
        · simpa using hwf.nodup
        · intro x hx
          show x < s.nextAddr
          refine hwf.bound x ?_
          simpa using hx
        · intro r hr
          show BlockOK s.fElemSize r.2
          rcases List.mem_cons.mp hr with hr | hr
          · rw [hr]
            exact ⟨hokF.1, by simp [hbFn],
              fun bb' ee' hbb' _ => by
                rw [show ((a, bFn).2 : Block).fBegin = none from rfl] at hbb'
                cases hbb'⟩
          · exact hwf.blocks_ok r (by simp [hr])
        · exact hwf.mid.replace_head
        · show s.fCount - 1 = ((absList s.fElemSize ((a, bFn) :: R)).length : Int)
          have hlen : (absList s.fElemSize ((a, bF) :: R)).length =
              (absList s.fElemSize ((a, bFn) :: R)).length + 1 := by
            rw [habs2, absList_cons, hone]
            simp [absList_cons]
          rw [hwf.count_eq, hlen]
          push_cast
          ring
      · intro a' b' hfa hha hcond
        rw [hfront, Option.some.injEq] at hfa
        subst hfa
        rw [hheap, Option.some.injEq] at hha
        subst hha
        refine ⟨rfl, by simp, ?_⟩
        intro bb' hbb' hee'
        exact ⟨bFn, by simp, rfl, rfl⟩
      · intro a' b' hfa hha hcond
        exfalso
        rw [hfront, Option.some.injEq] at hfa
        subst hfa
        rw [hheap, Option.some.injEq] at hha
        subst hha
        rw [hbb] at hcond
        cases hcond

theorem Chain.concat2_prev {h : Addr → Option Block} {p c : Option Addr}
    {L : List (Addr × Block)} {a a2 : Addr} {b b2 : Block}
    (hch : Chain h p c (L ++ [(a2, b2), (a, b)])) : b.fPrev = some a2 := by
  induction L generalizing p c with
  | nil =>
    obtain ⟨hc, ha, hp, hrest⟩ := hch.cons_inv
    obtain ⟨hc2, ha2, hp2, _⟩ := hrest.cons_inv
    exact hp2
  | cons q L ih =>
    obtain ⟨hc, ha, hp, hrest⟩ := hch.cons_inv
    exact ih hrest

/-- `pop_back` on a well-formed non-empty state always succeeds, preserves
the invariant, removes the last element of the abstract element list, and
performs the lazy-release discipline at the back end: a pop that merely
shrinks or empties the back block frees nothing, while a pop that finds the
back block already marked empty retreats past it and frees exactly that
block. -/
theorem popBack_spec {s : SkDeque} {ch : List (Addr × Block)} (hwf : WF s ch)
    (hpos : 0 < s.fCount) :
    ∃ t ch2, s.pop_back = some t ∧ WF t ch2 ∧
      absList t.fElemSize ch2 = (absList s.fElemSize ch).dropLast ∧
      t.fElemSize = s.fElemSize ∧ t.fAllocCount = s.fAllocCount ∧
      t.fInitialStorage = s.fInitialStorage ∧ t.fCount = s.fCount - 1 ∧
      t.nextAddr = s.nextAddr ∧
      (∀ a b, s.fBack = some a → s.heap a = some b → b.fEnd ≠ none →
        t.freed = s.freed ∧ ch2.length = ch.length ∧
        (∀ bb, b.fBegin = some bb → b.fEnd = some (bb + s.fElemSize) →
          ∃ b2, t.heap a = some b2 ∧ b2.fBegin = none ∧ b2.fEnd = none)) ∧
      (∀ a b, s.fBack = some a → s.heap a = some b → b.fEnd = none →
        t.freed = a :: s.freed ∧ t.heap a = none ∧ ch2.length + 1 = ch.length ∧
        t.fBack = b.fPrev) := by
  have hes := hwf.es_pos
  have hac := hwf.ac_pos
  have hcount : ¬ s.fCount ≤ 0 := by omega
  have habsne : absList s.fElemSize ch ≠ [] := by
    intro h
    rw [hwf.count_eq, h] at hpos
    simp at hpos
  rcases List.eq_nil_or_concat' ch with rfl | ⟨L, ⟨a, bB⟩, rfl⟩
  · exact absurd (absList_nil) habsne
  have hback : s.fBack = some a := hwf.back_concat
  have hheapB : s.heap a = some bB := hwf.chain.mem_heap (a, bB) (by simp)
  have hokB : BlockOK s.fElemSize bB := hwf.blocks_ok (a, bB) (by simp)
  have hnotL : a ∉ L.map Prod.fst := nodup_concat_not_mem hwf.nodup
  rcases hend : bB.fEnd with _ | ee
  · -- the back block is already marked empty: retreat and free it
    have hbbB : bB.fBegin = none := hokB.2.1.mpr hend
    have habsB : blockElems s.fElemSize bB = [] := blockElems_isEmpty hbbB
    rcases List.eq_nil_or_concat' L with rfl | ⟨L2, ⟨a2, b2⟩, rfl⟩
    · exfalso
      apply habsne
      simp [absList_cons, absList_nil, habsB]
    have hch2 : Chain s.heap none s.fFront (L2 ++ [(a2, b2), (a, bB)]) := by
      rw [← List.singleton_append, ← List.append_assoc]
      exact hwf.chain
    have hprevB : bB.fPrev = some a2 := hch2.concat2_prev
    have hheap2 : s.heap a2 = some b2 := hwf.chain.mem_heap (a2, b2) (by simp)
    have hok2B : BlockOK s.fElemSize b2 := hwf.blocks_ok (a2, b2) (by simp)
    have hnd := hwf.nodup
    simp only [List.map_append, List.map_cons, List.map_nil] at hnd
    have hndo := List.nodup_append.mp hnd
    have hne : a2 ≠ a := by
      intro h
      have h1 : a2 ∈ List.map Prod.fst L2 ++ [a2] := List.mem_append_right _ (by simp)
      have h2 : a2 ∈ [a] := by simp [h]
      exact hndo.2.2 h1 h2
    have hxa2 : ∀ x ∈ L2.map Prod.fst, x ≠ a2 := by
      intro x hx h
      have h2 : x ∈ [a2] := by simp [h]
      exact (List.nodup_append.mp hndo.1).2.2 hx h2
    have hxa : ∀ x ∈ L2.map Prod.fst, x ≠ a := by
      intro x hx h
      have h1 : x ∈ List.map Prod.fst L2 ++ [a2] := List.mem_append_left _ hx
      have h2 : x ∈ [a] := by simp [h]
      exact hndo.2.2 h1 h2
    rcases hbb2 : b2.fBegin with _ | bb2
    · -- impossible: the next-to-last block cannot also be empty
      exfalso
      have hb2e : blockElems s.fElemSize b2 = [] := blockElems_isEmpty hbb2
      rcases L2 with _ | ⟨y, L3⟩
      · apply habsne
        simp [absList_cons, absList_nil, habsB, hb2e]
      · refine hwf.mid (a2, b2) ?_ hbb2
        simp only [List.cons_append, List.tail_cons]
        rw [List.dropLast_concat]
        simp
    obtain ⟨ee2, hee2⟩ := hok2B.fEnd_some hbb2
    obtain ⟨hged2, heed2, hdvd2⟩ := hok2B.rng hbb2 hee2
    have hok2 : ¬ ee2 < bb2 + s.fElemSize := by omega
    have habsch : absList s.fElemSize ((L2 ++ [(a2, b2)]) ++ [(a, bB)]) =
        absList s.fElemSize L2 ++ blockElems s.fElemSize b2 := by
      simp [absList_append, absList_cons, absList_nil, habsB]
    by_cases hmore : bb2 + s.fElemSize < ee2
    · -- new back block keeps elements: shrink it
      set b2n : Block :=
        { fNext := none, fPrev := b2.fPrev, fBegin := b2.fBegin,
          fEnd := some (ee2 - s.fElemSize), fStop := b2.fStop, data := b2.data }
        with hb2n
      have hsplit : blockElems s.fElemSize b2 =
          blockElems s.fElemSize b2n ++ [b2.data (ee2 - s.fElemSize)] := by
        refine blockElems_dropLast_eq hes hbb2 hee2 hged2 hdvd2 ?_ rfl (fun x => rfl)
        show b2.fBegin = some bb2
        exact hbb2
      have habs2 : absList s.fElemSize (L2 ++ [(a2, b2n)]) =
          (absList s.fElemSize ((L2 ++ [(a2, b2)]) ++ [(a, bB)])).dropLast := by
        rw [habsch, hsplit, ← List.append_assoc, List.dropLast_concat]
        simp [absList_append, absList_cons, absList_nil]
      refine ⟨_, L2 ++ [(a2, b2n)],
        pop_back_char_advance_shrink hcount hback hheapB hend hprevB hheap2 hne
          hbb2 hee2 hok2 hmore,
        ?_, habs2, rfl, rfl, rfl, rfl, rfl, ?_, ?_⟩
      · constructor
        · exact hes
        · exact hac
        · refine hch2.drop_last ?_ ?_ rfl rfl
          · intro x hx
            simp [hxa2 x hx, hxa x hx]
          · simp
        · show some a2 = _
          rw [List.map_append, List.map_cons, List.map_nil, List.getLast?_concat]
        · simp only [List.map_append, List.map_cons, List.map_nil]
          exact hndo.1
        · intro x hx
          show x < s.nextAddr
          refine hwf.bound x ?_
          simp only [List.map_append, List.map_cons, List.map_nil, List.mem_append,
            List.mem_singleton] at hx ⊢
          tauto
        · intro r hr
          show BlockOK s.fElemSize r.2
          rcases List.mem_append.mp hr with hr | hr
          · exact hwf.blocks_ok r (by simp [hr])
          · rw [List.mem_singleton] at hr
            rw [hr]
            refine ⟨hok2B.1, by simp [hb2n, hbb2], ?_⟩
            intro bb' ee' hbb' hee'
            rw [show ((a2, b2n).2 : Block).fBegin = b2.fBegin from rfl, hbb2,
              Option.some.injEq] at hbb'
            rw [show ((a2, b2n).2 : Block).fEnd
                = some (ee2 - s.fElemSize) from rfl, Option.some.injEq] at hee'
            subst hbb'
            subst hee'
            refine ⟨Nat.le_sub_of_add_le (two_steps hdvd2 hmore), ?_, ?_⟩
            · rw [show ((a2, b2n).2 : Block).fStop = b2.fStop from rfl]
              exact Nat.le_trans (Nat.sub_le _ _) heed2
            · rw [Nat.sub_right_comm]
              obtain ⟨k, hk⟩ := Nat.dvd_of_mod_eq_zero hdvd2
              match k, hk with
              | 0, hk => exfalso; clear hb2n; omega
              | k + 1, hk =>
                have h4 : ee2 - bb2 - s.fElemSize = s.fElemSize * k := by
                  have h5 : s.fElemSize * (k + 1) = s.fElemSize * k + s.fElemSize := by
                    ring
                  clear hb2n
                  omega
                rw [h4, Nat.mul_comm]
                exact Nat.mul_mod_left _ _
        · have hmid2 : MidOK (L2 ++ [(a2, b2), (a, bB)]) := by
            rw [← List.singleton_append, ← List.append_assoc]
            exact hwf.mid
          exact hmid2.of_drop_last
        · show s.fCount - 1 = ((absList s.fElemSize (L2 ++ [(a2, b2n)])).length : Int)
          have hlen : (absList s.fElemSize ((L2 ++ [(a2, b2)]) ++ [(a, bB)])).length =
              (absList s.fElemSize (L2 ++ [(a2, b2n)])).length + 1 := by
            rw [habsch, hsplit, ← List.append_assoc]
            simp only [absList_append, absList_cons, absList_nil, List.length_append,
              List.length_cons, List.length_nil, List.append_nil]
          rw [hwf.count_eq, hlen]
          push_cast
          ring
      · intro a' b' hfa hha hcond
        exfalso
        rw [hback, Option.some.injEq] at hfa
        subst hfa
        rw [hheapB, Option.some.injEq] at hha
        subst hha
        exact hcond hend
      · intro a' b' hfa hha hcond
        rw [hback, Option.some.injEq] at hfa
        subst hfa
        rw [hheapB, Option.some.injEq] at hha
        subst hha
        refine ⟨rfl, ?_, by simp, ?_⟩
        · show (if a = a2 then _ else if a = a then none else s.heap a) = none
          rw [if_neg (Ne.symm hne), if_pos rfl]
        · show some a2 = bB.fPrev
          rw [hprevB]
    · -- new back block had exactly one element: mark it empty
      have heq2 : ee2 = bb2 + s.fElemSize := by omega
      subst heq2
      set b2n : Block :=
        { fNext := none, fPrev := b2.fPrev, fBegin := none,
          fEnd := none, fStop := b2.fStop, data := b2.data } with hb2n
      have hone : blockElems s.fElemSize b2 = [b2.data bb2] :=
        blockElems_one hes hbb2 hee2
      have habs2 : absList s.fElemSize (L2 ++ [(a2, b2n)]) =
          (absList s.fElemSize ((L2 ++ [(a2, b2)]) ++ [(a, bB)])).dropLast := by
        rw [habsch, hone, List.dropLast_concat]
        simp [absList_append, absList_cons, absList_nil,
          blockElems_isEmpty (show b2n.fBegin = none from rfl)]
      refine ⟨_, L2 ++ [(a2, b2n)],
        pop_back_char_advance_mark hcount hback hheapB hend hprevB hheap2 hne
          hbb2 hee2 hok2 hmore,
        ?_, habs2, rfl, rfl, rfl, rfl, rfl, ?_, ?_⟩
      · constructor
        · exact hes
        · exact hac
        · refine hch2.drop_last ?_ ?_ rfl rfl
          · intro x hx
            simp [hxa2 x hx, hxa x hx]
          · simp
        · show some a2 = _
          rw [List.map_append, List.map_cons, List.map_nil, List.getLast?_concat]
        · simp only [List.map_append, List.map_cons, List.map_nil]
          exact hndo.1
        · intro x hx
          show x < s.nextAddr
          refine hwf.bound x ?_
          simp only [List.map_append, List.map_cons, List.map_nil, List.mem_append,
            List.mem_singleton] at hx ⊢
          tauto
        · intro r hr
          show BlockOK s.fElemSize r.2
          rcases List.mem_append.mp hr with hr | hr
          · exact hwf.blocks_ok r (by simp [hr])
          · rw [List.mem_singleton] at hr
            rw [hr]
            exact ⟨hok2B.1, by simp [hb2n],
              fun bb' ee' hbb' _ => by
                rw [show ((a2, b2n).2 : Block).fBegin = none from rfl] at hbb'
                cases hbb'⟩
        · have hmid2 : MidOK (L2 ++ [(a2, b2), (a, bB)]) := by
            rw [← List.singleton_append, ← List.append_assoc]
            exact hwf.mid
          exact hmid2.of_drop_last
        · show s.fCount - 1 = ((absList s.fElemSize (L2 ++ [(a2, b2n)])).length : Int)
          have hlen : (absList s.fElemSize ((L2 ++ [(a2, b2)]) ++ [(a, bB)])).length =
              (absList s.fElemSize (L2 ++ [(a2, b2n)])).length + 1 := by
            rw [habsch, hone]
            simp [absList_append, absList_cons, absList_nil,
              blockElems_isEmpty (show b2n.fBegin = none from rfl)]
          rw [hwf.count_eq, hlen]
          push_cast
          ring
      · intro a' b' hfa hha hcond
        exfalso
        rw [hback, Option.some.injEq] at hfa
        subst hfa
        rw [hheapB, Option.some.injEq] at hha
        subst hha
        exact hcond hend
      · intro a' b' hfa hha hcond
        rw [hback, Option.some.injEq] at hfa
        subst hfa
        rw [hheapB, Option.some.injEq] at hha
        subst hha
        refine ⟨rfl, ?_, by simp, ?_⟩
        · show (if a = a2 then _ else if a = a then none else s.heap a) = none
          rw [if_neg (Ne.symm hne), if_pos rfl]
        · show some a2 = bB.fPrev
          rw [hprevB]
  · -- the back block holds elements
    obtain ⟨bb, hbb⟩ := hokB.fBegin_some hend
    obtain ⟨hged, heed, hdvd⟩ := hokB.rng hbb hend
    have hok : ¬ ee < bb + s.fElemSize := by omega
    by_cases hmore : bb + s.fElemSize < ee
    · -- more than one element: shrink
      set bBn : Block :=
        { fNext := bB.fNext, fPrev := bB.fPrev, fBegin := bB.fBegin,
          fEnd := some (ee - s.fElemSize), fStop := bB.fStop, data := bB.data }
        with hbBn
      have hsplit : blockElems s.fElemSize bB =
          blockElems s.fElemSize bBn ++ [bB.data (ee - s.fElemSize)] := by
        refine blockElems_dropLast_eq hes hbb hend hged hdvd ?_ rfl (fun x => rfl)
        show bB.fBegin = some bb
        exact hbb
      have habs2 : absList s.fElemSize (L ++ [(a, bBn)]) =
          (absList s.fElemSize (L ++ [(a, bB)])).dropLast := by
        rw [absList_append, absList_append, absList_cons, absList_cons, absList_nil,
          hsplit]
        rw [List.append_nil, List.append_nil, ← List.append_assoc,
          List.dropLast_concat]
      refine ⟨_, L ++ [(a, bBn)],
        pop_back_char_shrink hcount hback hheapB hbb hend hok hmore,
        ?_, habs2, rfl, rfl, rfl, rfl, rfl, ?_, ?_⟩
      · constructor
        · exact hes
        · exact hac
        · refine hwf.chain.update_last ?_ ?_ rfl rfl
          · intro x hx
            have hxa : x ≠ a := fun h => hnotL (h ▸ hx)
            simp [hxa]
          · simp [hbBn]
        · show s.fBack = _
          rw [hback, List.map_append, List.map_cons, List.map_nil,
            List.getLast?_concat]
        · simpa using hwf.nodup
        · intro x hx
          show x < s.nextAddr
          refine hwf.bound x ?_
          simpa using hx
        · intro r hr
          show BlockOK s.fElemSize r.2
          rcases List.mem_append.mp hr with hr | hr
          · exact hwf.blocks_ok r (by simp [hr])
          · rw [List.mem_singleton] at hr
            rw [hr]
            refine ⟨hokB.1, by simp [hbBn, hbb], ?_⟩
            intro bb' ee' hbb' hee'
            rw [show ((a, bBn).2 : Block).fBegin = bB.fBegin from rfl, hbb,
              Option.some.injEq] at hbb'
            rw [show ((a, bBn).2 : Block).fEnd
                = some (ee - s.fElemSize) from rfl, Option.some.injEq] at hee'
            subst hbb'
            subst hee'
            refine ⟨Nat.le_sub_of_add_le (two_steps hdvd hmore), ?_, ?_⟩
            · rw [show ((a, bBn).2 : Block).fStop = bB.fStop from rfl]
              exact Nat.le_trans (Nat.sub_le _ _) heed
            · rw [Nat.sub_right_comm]
              obtain ⟨k, hk⟩ := Nat.dvd_of_mod_eq_zero hdvd
              match k, hk with
              | 0, hk => exfalso; clear hbBn; omega
              | k + 1, hk =>
                have h4 : ee - bb - s.fElemSize = s.fElemSize * k := by
                  have h5 : s.fElemSize * (k + 1) = s.fElemSize * k + s.fElemSize := by
                    ring
                  clear hbBn
                  omega
                rw [h4, Nat.mul_comm]
                exact Nat.mul_mod_left _ _
        · exact hwf.mid.replace_last
        · show s.fCount - 1 = ((absList s.fElemSize (L ++ [(a, bBn)])).length : Int)
          have hlen : (absList s.fElemSize (L ++ [(a, bB)])).length =
              (absList s.fElemSize (L ++ [(a, bBn)])).length + 1 := by
            rw [absList_append, absList_cons, absList_nil, hsplit, absList_append,
              absList_cons, absList_nil]
            simp only [List.append_nil, List.length_append, List.length_cons,
              List.length_nil, Nat.zero_add]
            exact (Nat.add_assoc _ _ 1).symm
          rw [hwf.count_eq, hlen]
          push_cast
          ring
      · intro a' b' hfa hha hcond
        rw [hback, Option.some.injEq] at hfa
        subst hfa
        rw [hheapB, Option.some.injEq] at hha
        subst hha
        refine ⟨rfl, by simp, ?_⟩
        intro bb' hbb' hee'
        exfalso
        rw [hbb, Option.some.injEq] at hbb'
        subst hbb'
        rw [hend, Option.some.injEq] at hee'
        rw [hee'] at hmore
        exact absurd hmore (lt_irrefl _)
      · intro a' b' hfa hha hcond
        exfalso
        rw [hback, Option.some.injEq] at hfa
        subst hfa
        rw [hheapB, Option.some.injEq] at hha
        subst hha
        rw [hend] at hcond
        cases hcond
    · -- exactly one element: mark the block empty, do not free it
      have heqe : ee = bb + s.fElemSize := by omega
      subst heqe
      set bBn : Block :=
        { fNext := bB.fNext, fPrev := bB.fPrev, fBegin := none,
          fEnd := none, fStop := bB.fStop, data := bB.data } with hbBn
      have hone : blockElems s.fElemSize bB = [bB.data bb] :=
        blockElems_one hes hbb hend
      have habs2 : absList s.fElemSize (L ++ [(a, bBn)]) =
          (absList s.fElemSize (L ++ [(a, bB)])).dropLast := by
        rw [absList_append, absList_append, absList_cons, absList_cons, absList_nil,
          hone, blockElems_isEmpty (show bBn.fBegin = none from rfl)]
        simp
      refine ⟨_, L ++ [(a, bBn)],
        pop_back_char_mark hcount hback hheapB hbb hend hok hmore,
        ?_, habs2, rfl, rfl, rfl, rfl, rfl, ?_, ?_⟩
      · constructor
        · exact hes
        · exact hac
        · refine hwf.chain.update_last ?_ ?_ rfl rfl
          · intro x hx
            have hxa : x ≠ a := fun h => hnotL (h ▸ hx)
            simp [hxa]
          · simp [hbBn]
        · show s.fBack = _
          rw [hback, List.map_append, List.map_cons, List.map_nil,
            List.getLast?_concat]
        · simpa using hwf.nodup
        · intro x hx
          show x < s.nextAddr
          refine hwf.bound x ?_
          simpa using hx
        · intro r hr
          show BlockOK s.fElemSize r.2
          rcases List.mem_append.mp hr with hr | hr
          · exact hwf.blocks_ok r (by simp [hr])
          · rw [List.mem_singleton] at hr
            rw [hr]
            exact ⟨hokB.1, by simp [hbBn],
              fun bb' ee' hbb' _ => by
                rw [show ((a, bBn).2 : Block).fBegin = none from rfl] at hbb'
                cases hbb'⟩
        · exact hwf.mid.replace_last
        · show s.fCount - 1 = ((absList s.fElemSize (L ++ [(a, bBn)])).length : Int)
          have hlen : (absList s.fElemSize (L ++ [(a, bB)])).length =
              (absList s.fElemSize (L ++ [(a, bBn)])).length + 1 := by
            rw [habs2, absList_append, absList_cons, absList_nil, hone]
            simp
          rw [hwf.count_eq, hlen]
          push_cast
          ring
      · intro a' b' hfa hha hcond
        rw [hback, Option.some.injEq] at hfa
        subst hfa
        rw [hheapB, Option.some.injEq] at hha
        subst hha
        refine ⟨rfl, by simp, ?_⟩
        intro bb' hbb' hee'
        exact ⟨bBn, by simp, rfl, rfl⟩
      · intro a' b' hfa hha hcond
        exfalso
        rw [hback, Option.some.injEq] at hfa
        subst hfa
        rw [hheapB, Option.some.injEq] at hha
        subst hha
        rw [hend] at hcond
        cases hcond

/-! ### Every reachable state is well-formed -/

theorem pop_front_pos {s t : SkDeque} (hop : s.pop_front = some t) :
    0 < s.fCount := by
  by_contra h
  push_neg at h
  rw [SkDeque.pop_front, if_pos h] at hop
  cases hop

theorem pop_back_pos {s t : SkDeque} (hop : s.pop_back = some t) :
    0 < s.fCount := by
  by_contra h
  push_neg at h
  rw [SkDeque.pop_back, if_pos h] at hop
  cases hop

theorem Reach.toWFs {s : SkDeque} (hr : Reach s) : WFs s := by
  induction hr with
  | init0 es ac hes hac => exact ⟨[], WF_mk0 hes hac⟩
  | initS es cap ac hes hac => exact WF_mkWithStorage hes hac
  | pushF s t v hr hop ih =>
    obtain ⟨ch, hwf⟩ := ih
    obtain ⟨t2, ch2, hop2, hwf2, _⟩ := pushFrontW_spec hwf v
    rw [hop] at hop2
    cases hop2
    exact ⟨ch2, hwf2⟩
  | pushB s t v hr hop ih =>
    obtain ⟨ch, hwf⟩ := ih
    obtain ⟨t2, ch2, hop2, hwf2, _⟩ := pushBackW_spec hwf v
    rw [hop] at hop2
    cases hop2
    exact ⟨ch2, hwf2⟩
  | popF s t hr hop ih =>
    obtain ⟨ch, hwf⟩ := ih
    obtain ⟨t2, ch2, hop2, hwf2, _⟩ := popFront_spec hwf (pop_front_pos hop)
    rw [hop] at hop2
    cases hop2
    exact ⟨ch2, hwf2⟩
  | popB s t hr hop ih =>
    obtain ⟨ch, hwf⟩ := ih
    obtain ⟨t2, ch2, hop2, hwf2, _⟩ := popBack_spec hwf (pop_back_pos hop)
    rw [hop] at hop2
    cases hop2
    exact ⟨ch2, hwf2⟩
  | write s a off v hr ih =>
    obtain ⟨ch, hwf⟩ := ih
    obtain ⟨ch2, hwf2, _⟩ := hwf.writeSlot a off v
    exact ⟨ch2, hwf2⟩

/-! ### front() observes the head of the abstract list -/

theorem blockElems_headq {es bb ee : Nat} {b : Block} (hes : 0 < es)
    (h1 : b.fBegin = some bb) (h2 : b.fEnd = some ee) (hge : bb + es ≤ ee) :
    (blockElems es b).head? = some (b.data bb) := by
  rw [blockElems_eq_map 0, blockSlots_eq h1 h2]
  have hdiv : 1 ≤ (ee - bb) / es := (Nat.one_le_div_iff hes).mpr (by omega)
  obtain ⟨n, hn⟩ : ∃ n, (ee - bb) / es = n + 1 := ⟨(ee - bb) / es - 1, by omega⟩
  rw [hn, List.range_succ_eq_map]
  simp

theorem blockElems_ne_nil {es bb ee : Nat} {b : Block} (hes : 0 < es)
    (h1 : b.fBegin = some bb) (h2 : b.fEnd = some ee) (hge : bb + es ≤ ee) :
    blockElems es b ≠ [] := by
  intro h
  have := blockElems_headq hes h1 h2 hge
  rw [h] at this
  cases this

/-- On a well-formed state, dereferencing `front()` yields the head of the
abstract element list (and the null signal exactly on the empty list). -/
theorem frontVal_eq_head {s : SkDeque} {ch : List (Addr × Block)} (hwf : WF s ch) :
    s.frontVal = (absList s.fElemSize ch).head? := by
  have hes := hwf.es_pos
  rcases ch with _ | ⟨⟨a, b⟩, R⟩
  · have hf : s.fFront = none := hwf.chain.nil_inv
    rw [absList_nil]
    simp [SkDeque.frontVal, SkDeque.front, hf]
  obtain ⟨hfront, hheap, hprev, hrest⟩ := hwf.chain.cons_inv
  have hfrontp : s.fFront = some a := hfront
  have hheapp : s.heap a = some b := hheap
  have hok : BlockOK s.fElemSize b := hwf.blocks_ok (a, b) (by simp)
  rw [absList_cons]
  rcases hbb : b.fBegin with _ | bb
  · have hbe : blockElems s.fElemSize b = [] := blockElems_isEmpty hbb
    rw [hbe, List.nil_append]
    rcases R with _ | ⟨⟨a2, b2⟩, R2⟩
    · have hn : b.fNext = none := hrest.nil_inv
      rw [absList_nil]
      simp [SkDeque.frontVal, SkDeque.front, hfrontp, hheapp, hbb, hn]
    obtain ⟨hnext, hheap2, hprev2, hrest2⟩ := hrest.cons_inv
    have hnextp : b.fNext = some a2 := hnext
    have hheap2p : s.heap a2 = some b2 := hheap2
    rw [absList_cons]
    rcases hbb2 : b2.fBegin with _ | bb2
    · have hb2e : blockElems s.fElemSize b2 = [] := blockElems_isEmpty hbb2
      have hR2 : R2 = [] := by
        rcases R2 with _ | ⟨q3, R3⟩
        · rfl
        · exfalso
          refine hwf.mid (a2, b2) ?_ hbb2
          rw [List.tail_cons, List.dropLast_cons_of_ne_nil (by simp)]
          simp
      subst hR2
      rw [hb2e, absList_nil]
      simp [SkDeque.frontVal, SkDeque.front, hfrontp, hheapp, hbb, hnextp, hheap2p, hbb2]
    · obtain ⟨ee2, hee2⟩ := (hwf.blocks_ok (a2, b2) (by simp)).fEnd_some hbb2
      have hee2p : b2.fEnd = some ee2 := hee2
      obtain ⟨hged2, _, _⟩ := (hwf.blocks_ok (a2, b2) (by simp)).rng hbb2 hee2
      rw [List.head?_append_of_ne_nil _ (blockElems_ne_nil hes hbb2 hee2p hged2),
        blockElems_headq hes hbb2 hee2p hged2]
      simp [SkDeque.frontVal, SkDeque.front, hfrontp, hheapp, hbb, hnextp, hheap2p, hbb2]
  · obtain ⟨ee, hee⟩ := hok.fEnd_some hbb
    obtain ⟨hged, _, _⟩ := hok.rng hbb hee
    rw [List.head?_append_of_ne_nil _ (blockElems_ne_nil hes hbb hee hged),
      blockElems_headq hes hbb hee hged]
    simp [SkDeque.frontVal, SkDeque.front, hfrontp, hheapp, hbb]

/-! ### Whole runs of pushes and observed pops -/

theorem runPushes_spec : ∀ (vs : List Val) {s : SkDeque} {ch : List (Addr × Block)},
    WF s ch →
    ∃ t ch2, runPushes s vs = some t ∧ WF t ch2 ∧
      t.fElemSize = s.fElemSize ∧
      absList t.fElemSize ch2 = absList s.fElemSize ch ++ vs := by
  intro vs
  induction vs with
  | nil =>
    intro s ch hwf
    exact ⟨s, ch, rfl, hwf, rfl, by simp⟩
  | cons v vs ih =>
    intro s ch hwf
    obtain ⟨t, ch2, hop, hwf2, habs, hes, _⟩ := pushBackW_spec hwf v
    obtain ⟨u, ch3, hrun, hwf3, hesu, habs3⟩ := ih hwf2
    refine ⟨u, ch3, ?_, hwf3, by rw [hesu, hes], ?_⟩
    · simp [runPushes, hop, hrun]
    · rw [habs3, habs, List.append_assoc, List.singleton_append]

theorem runPopsObs_spec : ∀ (n : Nat) {s : SkDeque} {ch : List (Addr × Block)},
    WF s ch → (absList s.fElemSize ch).length = n →
    ∃ u, runPopsObs s n = some (absList s.fElemSize ch, u) ∧ u.fCount = 0 := by
  intro n
  induction n with
  | zero =>
    intro s ch hwf hlen
    have habs : absList s.fElemSize ch = [] := List.eq_nil_of_length_eq_zero hlen
    refine ⟨s, ?_, ?_⟩
    · rw [habs]
      rfl
    · rw [hwf.count_eq, habs]
      rfl
  | succ n ih =>
    intro s ch hwf hlen
    obtain ⟨v, rest, hcons⟩ : ∃ v rest, absList s.fElemSize ch = v :: rest := by
      rcases habs : absList s.fElemSize ch with _ | ⟨v, rest⟩
      · rw [habs] at hlen
        cases hlen
      · exact ⟨v, rest, rfl⟩
    have hpos : 0 < s.fCount := by
      rw [hwf.count_eq, hcons]
      have h1 : 0 < (v :: rest).length := Nat.succ_pos _
      exact_mod_cast h1
    obtain ⟨t, ch2, hop, hwf2, habs2, hesEq, _⟩ := popFront_spec hwf hpos
    have hfv : s.frontVal = some v := by
      rw [frontVal_eq_head hwf, hcons]
      rfl
    have hlen2 : (absList t.fElemSize ch2).length = n := by
      rw [habs2, hcons, List.tail_cons]
      rw [hcons] at hlen
      simpa using hlen
    obtain ⟨u, hrun, hcnt⟩ := ih hwf2 hlen2
    refine ⟨u, ?_, hcnt⟩
    rw [hcons]
    simp only [runPopsObs, hfv, hop, Option.some_bind, hrun, Option.map_some']
    rw [habs2, hcons]
    rfl

/-! ### Small structural helpers for the claim theorems -/

theorem map_getLastq {A B : Type} (f : A → B) :
    ∀ (L : List A), (L.map f).getLast? = (L.getLast?).map f := by
  intro L
  induction L with
  | nil => rfl
  | cons x L ih =>
    cases L with
    | nil => rfl
    | cons y M =>
      rw [List.map_cons, List.map_cons, List.getLast?_cons_cons,
        List.getLast?_cons_cons, ← List.map_cons]
      exact ih

theorem Chain.last_next_none {h : Addr → Option Block} {p c : Option Addr}
    {L : List (Addr × Block)} {a : Addr} {b : Block}
    (hch : Chain h p c (L ++ [(a, b)])) : b.fNext = none := by
  induction L generalizing p c with
  | nil =>
    obtain ⟨hc, ha, hp, hrest⟩ := hch.cons_inv
    exact hrest.nil_inv
  | cons q L ih =>
    obtain ⟨hc, ha, hp, hrest⟩ := hch.cons_inv
    exact ih hrest

theorem WF.numBlocks_eq {s : SkDeque} {ch : List (Addr × Block)} (hwf : WF s ch) :
    s.numBlocksAllocated = ch.length := by
  show s.sChain.length = ch.length
  rw [hwf.sChain_eq]

theorem WF.front_head {s : SkDeque} {ch : List (Addr × Block)} (hwf : WF s ch) :
    s.fFront = (ch.head?).map Prod.fst := by
  rcases ch with _ | ⟨⟨a, b⟩, R⟩
  · exact hwf.chain.nil_inv
  · obtain ⟨hfront, _, _, _⟩ := hwf.chain.cons_inv
    exact hfront

theorem WF.back_last {s : SkDeque} {ch : List (Addr × Block)} (hwf : WF s ch) :
    s.fBack = (ch.getLast?).map Prod.fst := by
  rw [hwf.back_eq, map_getLastq]

theorem d5_reach : Reach d5 :=
  Reach.pushB d4 d5 5
    (Reach.pushB d3 d4 4
      (Reach.pushB d2 d3 3
        (Reach.pushB d1 d2 2
          (Reach.pushB d0 d1 1
            (Reach.init0 4 2 (by decide) (by decide)) rfl) rfl) rfl) rfl) rfl

theorem c1s3_reach : Reach c1s3 :=
  Reach.popF c1s2 c1s3
    (Reach.pushB c1s1 c1s2 2
      (Reach.pushB c1s0 c1s1 1
        (Reach.initS 4 4 1 (by decide) (by decide)) rfl) rfl) rfl

theorem c4s4_reach : Reach c4s4 :=
  Reach.popB c4s3 c4s4
    (Reach.popF c4s2 c4s3
      (Reach.pushB c4s1 c4s2 2
        (Reach.pushB c4s0 c4s1 1
          (Reach.init0 4 1 (by decide) (by decide)) rfl) rfl) rfl) rfl

/-! ### Iterator machinery: the skip loops characterized over the chain -/

theorem skipEmptyFwd_none {h : Addr → Option Block} (fuel : Nat) :
    skipEmptyFwd h none fuel = none := by
  cases fuel <;> rfl

theorem skipEmptyBwd_none {h : Addr → Option Block} (fuel : Nat) :
    skipEmptyBwd h none fuel = none := by
  cases fuel <;> rfl

/-- With enough fuel, the forward skip loop lands on the first block of the
chain segment whose `fBegin` is set (`none` if there is no such block). -/
theorem skipEmptyFwd_eq_find {h : Addr → Option Block} {p c : Option Addr}
    {L : List (Addr × Block)} (hch : Chain h p c L) :
    ∀ {fuel : Nat}, L.length < fuel →
    skipEmptyFwd h c fuel = (L.find? fun q => q.2.fBegin.isSome).map Prod.fst := by
  induction hch with
  | nil =>
    intro fuel hfuel
    simp [skipEmptyFwd_none]
  | cons p a b rest ha hp hrest ih =>
    intro fuel hfuel
    match fuel, hfuel with
    | fuel + 1, hfuel =>
      simp only [skipEmptyFwd, ha]
      rcases hbb : b.fBegin with _ | bb
      · rw [if_pos rfl, List.find?_cons_of_neg _ (by simp [hbb])]
        exact ih (by simpa using hfuel)
      · rw [if_neg (by simp), List.find?_cons_of_pos _ (by simp [hbb])]
        rfl

theorem SegB.nil_cursor {h : Addr → Option Block} {n c : Option Addr}
    (hs : SegB h n c []) : c = none := by
  cases hs with
  | nil => rfl

theorem SegB.cons_elim {h : Addr → Option Block} {n c : Option Addr}
    {q : Addr × Block} {L : List (Addr × Block)} (hs : SegB h n c (q :: L)) :
    c = some q.1 ∧ h q.1 = some q.2 ∧ q.2.fNext = n ∧ SegB h (some q.1) q.2.fPrev L := by
  obtain ⟨a, b⟩ := q
  cases hs with
  | cons _ _ _ _ ha hn hrest => exact ⟨rfl, ha, hn, hrest⟩

theorem chain_segB_acc {h : Addr → Option Block} :
    ∀ {p c : Option Addr} {L : List (Addr × Block)}, Chain h p c L →
    ∀ {acc : List (Addr × Block)}, SegB h c p acc →
    ∃ r, SegB h none r (L.reverse ++ acc) := by
  intro p c L hch
  induction hch with
  | nil p =>
    intro acc hacc
    exact ⟨p, by simpa using hacc⟩
  | cons p a b rest ha hp hrest ih =>
    intro acc hacc
    have hacc2 : SegB h b.fNext (some a) ((a, b) :: acc) :=
      SegB.cons b.fNext a b acc ha rfl (by rw [hp]; exact hacc)
    obtain ⟨r, hr⟩ := ih hacc2
    refine ⟨r, ?_⟩
    simpa [List.append_assoc] using hr

/-- On a well-formed state the backward walk from `fBack` covers the chain
in reverse. -/
theorem WF.segB_back {s : SkDeque} {ch : List (Addr × Block)} (hwf : WF s ch) :
    SegB s.heap none s.fBack ch.reverse := by
  obtain ⟨r, hr⟩ := chain_segB_acc hwf.chain (SegB.nil s.fFront)
  have hr2 : SegB s.heap none r ch.reverse := by simpa using hr
  have hrb : r = s.fBack := by
    rcases List.eq_nil_or_concat' ch with rfl | ⟨L, q, rfl⟩
    · rw [(hwf.ends_none).2]
      simpa using hr2.nil_cursor
    · have hrev : (L ++ [q]).reverse = q :: L.reverse := by simp
      rw [hrev] at hr2
      rw [hwf.back_concat]
      exact (hr2.cons_elim).1
  rw [← hrb]
  exact hr2

/-- With enough fuel, the backward skip loop lands on the first block of
the backward segment whose `fEnd` is set. -/
theorem skipEmptyBwd_eq_find {h : Addr → Option Block} {n c : Option Addr}
    {M : List (Addr × Block)} (hs : SegB h n c M) :
    ∀ {fuel : Nat}, M.length < fuel →
    skipEmptyBwd h c fuel = (M.find? fun q => q.2.fEnd.isSome).map Prod.fst := by
  induction hs with
  | nil =>
    intro fuel hfuel
    simp [skipEmptyBwd_none]
  | cons n a b rest ha hn hrest ih =>
    intro fuel hfuel
    match fuel, hfuel with
    | fuel + 1, hfuel =>
      simp only [skipEmptyBwd, ha]
      rcases hee : b.fEnd with _ | ee
      · rw [if_pos rfl, List.find?_cons_of_neg _ (by simp [hee])]
        exact ih (by simpa using hfuel)
      · rw [if_neg (by simp), List.find?_cons_of_pos _ (by simp [hee])]
        rfl

/-- An exhausted iterator stays exhausted under `next()`, emitting the null
signal forever. -/
theorem nextStream_exhausted {d : SkDeque} {it : Iter} (hpos : it.fPos = none) :
    ∀ k, nextStream d it k = some (List.replicate k none) := by
  intro k
  induction k with
  | zero => rfl
  | succ k ih =>
    simp only [nextStream, Iter.next, hpos]
    rw [ih]
    simp [List.replicate_succ]

/-- An exhausted iterator stays exhausted under `prev()` as well. -/
theorem prevStream_exhausted {d : SkDeque} {it : Iter} (hpos : it.fPos = none) :
    ∀ k, prevStream d it k = some (List.replicate k none) := by
  intro k
  induction k with
  | zero => rfl
  | succ k ih =>
    simp only [prevStream, Iter.prev, hpos]
    rw [ih]
    simp [List.replicate_succ]

/-- Streaming `next()` through one block: starting `k + 1` slots before the
end of the block, the iterator emits those slots in order and then behaves
as the handoff iterator built from `fNext`. -/
theorem nextStream_block {s : SkDeque} {a : Addr} {b : Block} {ee : Nat}
    (hheap : s.heap a = some b) (hee : b.fEnd = some ee) (hes : 0 < s.fElemSize) :
    ∀ (k : Nat), ∀ (p m : Nat), ∀ (rest : List (Option (Addr × Nat))),
    p + (k + 1) * s.fElemSize = ee →
    nextStream s
      { fCurBlock := skipEmptyFwd s.heap b.fNext (s.nextAddr + 1),
        fPos :=
          match skipEmptyFwd s.heap b.fNext (s.nextAddr + 1) with
          | none => none
          | some a2 => (s.heap a2).bind fun b2 => b2.fBegin,
        fElemSize := s.fElemSize } m = some rest →
    nextStream s { fCurBlock := some a, fPos := some p, fElemSize := s.fElemSize }
      (k + 1 + m)
      = some (((List.range (k + 1)).map fun i => some (a, p + i * s.fElemSize)) ++ rest) := by
  intro k
  induction k with
  | zero =>
    intro p m rest hp hrest
    rw [Nat.one_mul] at hp
    have hcnt : 0 + 1 + m = m + 1 := by omega
    rw [hcnt]
    simp only [nextStream, Iter.next]
    rw [hheap]
    simp only [hee]
    rw [if_neg (by omega), if_pos hp]
    dsimp only
    rw [hrest]
    simp only [Option.map_some']
    have hr : List.range 1 = [0] := rfl
    rw [hr]
    simp
  | succ k ih =>
    intro p m rest hp hrest
    have h2 : p + s.fElemSize + (k + 1) * s.fElemSize = ee := by
      rw [← hp]
      ring
    obtain ⟨t, ht, htp⟩ : ∃ t, (k + 1) * s.fElemSize = t ∧ 0 < t :=
      ⟨(k + 1) * s.fElemSize, rfl, Nat.mul_pos (Nat.succ_pos _) hes⟩
    have h2t : p + s.fElemSize + t = ee := by rw [← ht]; exact h2
    have hcnt : k + 1 + 1 + m = (k + 1 + m) + 1 := by omega
    rw [hcnt]
    simp only [nextStream, Iter.next]
    rw [hheap]
    simp only [hee]
    rw [if_neg (by omega), if_neg (by omega)]
    dsimp only
    rw [ih (p + s.fElemSize) m rest h2 hrest]
    simp only [Option.map_some']
    refine congrArg some ?_
    have hr2 : (List.range (k + 1 + 1)).map (fun i => some (a, p + i * s.fElemSize))
        = some (a, p) :: (List.range (k + 1)).map
            (fun i => some (a, p + s.fElemSize + i * s.fElemSize)) := by
      rw [List.range_succ_eq_map, List.map_cons, List.map_map]
      congr 1
      · simp
      · refine List.map_congr_left fun i hi => ?_
        simp only [Function.comp_apply, Option.some.injEq, Prod.mk.injEq, true_and]
        rw [Nat.succ_mul]
        omega
    rw [hr2, List.cons_append]

/-- Streaming `prev()` through one block: starting `k` slots above the
begin of the block, the iterator emits the `k + 1` slots downwards and then
behaves as the handoff iterator built from `fPrev`. -/
theorem prevStream_block {s : SkDeque} {a : Addr} {b : Block} {bb : Nat}
    (hheap : s.heap a = some b) (hbb : b.fBegin = some bb) (hes : 0 < s.fElemSize) :
    ∀ (k : Nat), ∀ (m : Nat), ∀ (rest : List (Option (Addr × Nat))),
    prevStream s
      { fCurBlock := skipEmptyBwd s.heap b.fPrev (s.nextAddr + 1),
        fPos :=
          match skipEmptyBwd s.heap b.fPrev (s.nextAddr + 1) with
          | none => none
          | some a2 => (s.heap a2).bind fun b2 => b2.fEnd.map fun ee2 => ee2 - s.fElemSize,
        fElemSize := s.fElemSize } m = some rest →
    prevStream s
      { fCurBlock := some a, fPos := some (bb + k * s.fElemSize),
        fElemSize := s.fElemSize } (k + 1 + m)
      = some ((((List.range (k + 1)).map fun i => some (a, bb + i * s.fElemSize)).reverse) ++ rest) := by
  intro k
  induction k with
  | zero =>
    intro m rest hrest
    have hcnt : 0 + 1 + m = m + 1 := by omega
    rw [hcnt]
    simp only [prevStream, Iter.prev]
    rw [hheap]
    simp only [hbb]
    rw [Nat.zero_mul, Nat.add_zero]
    rw [if_neg (by omega), if_pos (by omega)]
    dsimp only
    rw [hrest]
    simp only [Option.map_some']
    have hr : List.range 1 = [0] := rfl
    rw [hr]
    simp
  | succ k ih =>
    intro m rest hrest
    have hcnt : k + 1 + 1 + m = (k + 1 + m) + 1 := by omega
    rw [hcnt]
    simp only [prevStream, Iter.prev]
    rw [hheap]
    simp only [hbb]
    obtain ⟨t, ht, htp⟩ : ∃ t, (k + 1) * s.fElemSize = t ∧ s.fElemSize ≤ t :=
      ⟨(k + 1) * s.fElemSize, rfl, Nat.le_mul_of_pos_left _ (Nat.succ_pos _)⟩
    rw [ht]
    rw [if_neg (by omega), if_neg (by omega)]
    have hsub : bb + t - s.fElemSize = bb + k * s.fElemSize := by
      rw [← ht, Nat.succ_mul]
      omega
    rw [hsub]
    dsimp only
    rw [ih m rest hrest]
    simp only [Option.map_some']
    refine congrArg some ?_
    have hstep : ∀ n : Nat,
        ((List.range (n + 1)).map fun i => some (a, bb + i * s.fElemSize)).reverse
          = some (a, bb + n * s.fElemSize) ::
            ((List.range n).map fun i => some (a, bb + i * s.fElemSize)).reverse := by
      intro n
      rw [List.range_succ, List.map_append, List.map_cons, List.map_nil,
        List.reverse_append]
      simp
    rw [hstep (k + 1), ← ht]
    simp [List.cons_append]

/-- Streaming `next()` from the entry iterator of a chain suffix whose
non-final blocks are all non-empty: the stream is the suffix's live slots
in order, padded with the null signal. -/
theorem nextStream_entry {s : SkDeque} (hes : 0 < s.fElemSize) :
    ∀ (S : List (Addr × Block)) {p c : Option Addr},
    Chain s.heap p c S →
    (∀ q ∈ S, BlockOK s.fElemSize q.2) →
    (∀ q ∈ S.dropLast, q.2.fBegin ≠ none) →
    S.length < s.nextAddr + 1 →
    ∀ (j : Nat),
    nextStream s
      { fCurBlock := (S.find? fun q => q.2.fBegin.isSome).map Prod.fst,
        fPos :=
          match (S.find? fun q => q.2.fBegin.isSome).map Prod.fst with
          | none => none
          | some a2 => (s.heap a2).bind fun b2 => b2.fBegin,
        fElemSize := s.fElemSize }
      ((liveSlots s.fElemSize S).length + j)
      = some ((liveSlots s.fElemSize S).map some ++ List.replicate j none) := by
  intro S
  induction S with
  | nil =>
    intro p c hch hblocks htail hfuel j
    rw [liveSlots_nil]
    simp only [List.length_nil, Nat.zero_add, List.map_nil, List.nil_append,
      List.find?_nil]
    exact nextStream_exhausted rfl j
  | cons q S2 ih =>
    obtain ⟨a2, b2⟩ := q
    intro p c hch hblocks htail hfuel j
    obtain ⟨hc, ha2, hp2, hrest⟩ := hch.cons_inv
    have ha2p : s.heap a2 = some b2 := ha2
    rcases hbb2 : b2.fBegin with _ | bb2
    · -- an empty block here can only be the final one
      have hS2 : S2 = [] := by
        rcases S2 with _ | ⟨r, S3⟩
        · rfl
        · exfalso
          refine htail (a2, b2) ?_ hbb2
          rw [List.dropLast_cons_of_ne_nil (by simp)]
          simp
      subst hS2
      rw [liveSlots_cons, blockSlots_isEmpty hbb2, liveSlots_nil]
      rw [List.find?_cons_of_neg _ (by simp [hbb2]), List.find?_nil]
      simp only [List.length_nil, Nat.zero_add, List.map_nil, List.nil_append,
        List.append_nil]
      exact nextStream_exhausted rfl j
    · -- the head block is the entry block
      have hok : BlockOK s.fElemSize b2 := hblocks (a2, b2) (by simp)
      obtain ⟨ee2, hee2⟩ := hok.fEnd_some hbb2
      have hee2p : b2.fEnd = some ee2 := hee2
      obtain ⟨hged2, heed2, hdvd2⟩ := hok.rng hbb2 hee2
      have hkmul : bb2 + ((ee2 - bb2) / s.fElemSize) * s.fElemSize = ee2 :=
        div_mul_add_eq (by omega) hdvd2
      have hkpos : 1 ≤ (ee2 - bb2) / s.fElemSize :=
        (Nat.one_le_div_iff hes).mpr (by omega)
      obtain ⟨k0, hk0⟩ : ∃ k0, (ee2 - bb2) / s.fElemSize = k0 + 1 :=
        ⟨(ee2 - bb2) / s.fElemSize - 1, by omega⟩
      have hskip : skipEmptyFwd s.heap b2.fNext (s.nextAddr + 1)
          = (S2.find? fun r => r.2.fBegin.isSome).map Prod.fst := by
        refine skipEmptyFwd_eq_find hrest ?_
        simp only [List.length_cons] at hfuel
        omega
      have hcont := ih hrest (fun r hr => hblocks r (by simp [hr]))
        (fun r hr => htail r (by
          rcases S2 with _ | ⟨x, S3⟩
          · simp at hr
          · rw [List.dropLast_cons_of_ne_nil (by simp)]
            exact List.mem_cons_of_mem _ hr))
        (by simp only [List.length_cons] at hfuel; omega) j
      rw [← hskip] at hcont
      have hmain := nextStream_block ha2p hee2p hes k0 bb2
        ((liveSlots s.fElemSize S2).length + j)
        ((liveSlots s.fElemSize S2).map some ++ List.replicate j none)
        (by rw [← hk0]; exact hkmul) hcont
      rw [List.find?_cons_of_pos _ (by simp [hbb2])]
      simp only [Option.map_some']
      rw [liveSlots_cons]
      have hcount : (blockSlots s.fElemSize a2 b2 ++ liveSlots s.fElemSize S2).length + j
          = k0 + 1 + ((liveSlots s.fElemSize S2).length + j) := by
        rw [List.length_append, blockSlots_length hbb2 hee2p, hk0]
        omega
      rw [hcount]
      have hlist : (blockSlots s.fElemSize a2 b2 ++ liveSlots s.fElemSize S2).map some
            ++ List.replicate j none
          = ((List.range (k0 + 1)).map fun i => some (a2, bb2 + i * s.fElemSize))
            ++ ((liveSlots s.fElemSize S2).map some ++ List.replicate j none) := by
        rw [List.map_append, List.append_assoc, blockSlots_eq hbb2 hee2p, hk0,
          List.map_map]
        rfl
      rw [hlist]
      rw [ha2p]
      simp only [Option.some_bind, hbb2]
      exact hmain

theorem bwdSlots_nil {es : Nat} : bwdSlots es [] = [] := rfl

theorem bwdSlots_cons {es : Nat} {q : Addr × Block} {M : List (Addr × Block)} :
    bwdSlots es (q :: M) = (blockSlots es q.1 q.2).reverse ++ bwdSlots es M := by
  simp [bwdSlots]

theorem bwdSlots_append {es : Nat} {M1 M2 : List (Addr × Block)} :
    bwdSlots es (M1 ++ M2) = bwdSlots es M1 ++ bwdSlots es M2 := by
  simp [bwdSlots]

theorem bwdSlots_reverse {es : Nat} :
    ∀ (ch : List (Addr × Block)), bwdSlots es ch.reverse = (liveSlots es ch).reverse := by
  intro ch
  induction ch with
  | nil => rfl
  | cons q ch ih =>
    rw [List.reverse_cons, bwdSlots_append, ih, liveSlots_cons, List.reverse_append]
    rw [bwdSlots_cons, bwdSlots_nil, List.append_nil]

/-- Streaming `prev()` from the entry iterator of a backward segment whose
non-final blocks are all non-empty: the stream is the segment's slots in
backward order, padded with the null signal. -/
theorem prevStream_entry {s : SkDeque} (hes : 0 < s.fElemSize) :
    ∀ (M : List (Addr × Block)) {n c : Option Addr},
    SegB s.heap n c M →
    (∀ q ∈ M, BlockOK s.fElemSize q.2) →
    (∀ q ∈ M.dropLast, q.2.fEnd ≠ none) →
    M.length < s.nextAddr + 1 →
    ∀ (j : Nat),
    prevStream s
      { fCurBlock := (M.find? fun q => q.2.fEnd.isSome).map Prod.fst,
        fPos :=
          match (M.find? fun q => q.2.fEnd.isSome).map Prod.fst with
          | none => none
          | some a2 => (s.heap a2).bind fun b2 => b2.fEnd.map fun ee2 => ee2 - s.fElemSize,
        fElemSize := s.fElemSize }
      ((bwdSlots s.fElemSize M).length + j)
      = some ((bwdSlots s.fElemSize M).map some ++ List.replicate j none) := by
  intro M
  induction M with
  | nil =>
    intro n c hseg hblocks htail hfuel j
    rw [bwdSlots_nil]
    simp only [List.length_nil, Nat.zero_add, List.map_nil, List.nil_append,
      List.find?_nil]
    exact prevStream_exhausted rfl j
  | cons q M2 ih =>
    obtain ⟨a2, b2⟩ := q
    intro n c hseg hblocks htail hfuel j
    obtain ⟨hc, ha2, hn2, hrest⟩ := hseg.cons_elim
    have ha2p : s.heap a2 = some b2 := ha2
    have hok : BlockOK s.fElemSize b2 := hblocks (a2, b2) (by simp)
    rcases hend : b2.fEnd with _ | ee2
    · -- an empty block here can only be the final one of the backward walk
      have hbb2 : b2.fBegin = none := hok.2.1.mpr hend
      have hM2 : M2 = [] := by
        rcases M2 with _ | ⟨r, M3⟩
        · rfl
        · exfalso
          refine htail (a2, b2) ?_ hend
          rw [List.dropLast_cons_of_ne_nil (by simp)]
          simp
      subst hM2
      rw [bwdSlots_cons, blockSlots_isEmpty hbb2, bwdSlots_nil]
      rw [List.find?_cons_of_neg _ (by simp [hend]), List.find?_nil]
      simp only [List.length_nil, Nat.zero_add, List.map_nil, List.nil_append,
        List.append_nil, List.reverse_nil]
      exact prevStream_exhausted rfl j
    · -- the head of the backward segment is the entry block
      obtain ⟨bb2, hbb2⟩ := hok.fBegin_some hend
      have hbb2p : b2.fBegin = some bb2 := hbb2
      obtain ⟨hged2, heed2, hdvd2⟩ := hok.rng hbb2 hend
      have hkmul : bb2 + ((ee2 - bb2) / s.fElemSize) * s.fElemSize = ee2 :=
        div_mul_add_eq (by omega) hdvd2
      have hkpos : 1 ≤ (ee2 - bb2) / s.fElemSize :=
        (Nat.one_le_div_iff hes).mpr (by omega)
      obtain ⟨k0, hk0⟩ : ∃ k0, (ee2 - bb2) / s.fElemSize = k0 + 1 :=
        ⟨(ee2 - bb2) / s.fElemSize - 1, by omega⟩
      have hposeq : ee2 - s.fElemSize = bb2 + k0 * s.fElemSize := by
        rw [← hkmul, hk0, Nat.succ_mul]
        omega
      have hskip : skipEmptyBwd s.heap b2.fPrev (s.nextAddr + 1)
          = (M2.find? fun r => r.2.fEnd.isSome).map Prod.fst := by
        refine skipEmptyBwd_eq_find hrest ?_
        simp only [List.length_cons] at hfuel
        omega
      have hcont := ih hrest (fun r hr => hblocks r (by simp [hr]))
        (fun r hr => htail r (by
          rcases M2 with _ | ⟨x, M3⟩
          · simp at hr
          · rw [List.dropLast_cons_of_ne_nil (by simp)]
            exact List.mem_cons_of_mem _ hr))
        (by simp only [List.length_cons] at hfuel; omega) j
      rw [← hskip] at hcont
      have hmain := prevStream_block ha2p hbb2p hes k0
        ((bwdSlots s.fElemSize M2).length + j)
        ((bwdSlots s.fElemSize M2).map some ++ List.replicate j none)
        hcont
      rw [List.find?_cons_of_pos _ (by simp [hend])]
      simp only [Option.map_some']
      rw [bwdSlots_cons]
      have hcount : ((blockSlots s.fElemSize a2 b2).reverse ++ bwdSlots s.fElemSize M2).length + j
          = k0 + 1 + ((bwdSlots s.fElemSize M2).length + j) := by
        rw [List.length_append, List.length_reverse, blockSlots_length hbb2p hend, hk0]
        omega
      rw [hcount]
      have hlist : ((blockSlots s.fElemSize a2 b2).reverse ++ bwdSlots s.fElemSize M2).map some
            ++ List.replicate j none
          = (((List.range (k0 + 1)).map fun i => some (a2, bb2 + i * s.fElemSize)).reverse)
            ++ ((bwdSlots s.fElemSize M2).map some ++ List.replicate j none) := by
        rw [List.map_append, List.append_assoc, List.map_reverse,
          blockSlots_eq hbb2p hend, hk0, List.map_map]
        rfl
      rw [hlist]
      rw [ha2p]
      simp only [Option.some_bind, hend, Option.map_some']
      rw [hposeq]
      exact hmain

theorem liveSlots_length_eq {es : Nat} :
    ∀ (ch : List (Addr × Block)), (liveSlots es ch).length = (absList es ch).length := by
  intro ch
  induction ch with
  | nil => rfl
  | cons q ch ih =>
    rw [liveSlots_cons, absList_cons, List.length_append, List.length_append, ih,
      blockElems_eq_map q.1, List.length_map]

theorem WF.all_empty_of_count_zero {s : SkDeque} {ch : List (Addr × Block)}
    (hwf : WF s ch) (h0 : s.fCount = 0) : ∀ q ∈ ch, q.2.fBegin = none := by
  have habs : absList s.fElemSize ch = [] := by
    refine List.eq_nil_of_length_eq_zero ?_
    have := hwf.count_eq
    rw [h0] at this
    exact_mod_cast this.symm
  intro q hq
  rcases hbb : q.2.fBegin with _ | bb
  · rfl
  · exfalso
    have hok := hwf.blocks_ok q hq
    obtain ⟨ee, hee⟩ := hok.fEnd_some hbb
    obtain ⟨hged, _, _⟩ := hok.rng hbb hee
    refine blockElems_ne_nil hwf.es_pos hbb hee hged ?_
    have hmem : blockElems s.fElemSize q.2 ∈ ch.map fun r => blockElems s.fElemSize r.2 :=
      List.mem_map_of_mem _ hq
    exact (List.flatten_eq_nil_iff.mp habs) _ hmem

/-- The fuel `nextAddr + 1` always suffices for the chain of a well-formed
state. -/
theorem WF.fuel {s : SkDeque} {ch : List (Addr × Block)} (hwf : WF s ch) :
    ch.length < s.nextAddr + 1 := by
  have := length_le_of_nodup_lt hwf.nodup hwf.bound
  simp only [List.length_map] at this
  omega

/-- Forward iteration from `reset(kFront)` yields the chain's live slots in
front-to-back order, then the null signal forever. -/
theorem reset_front_stream {s : SkDeque} {ch : List (Addr × Block)} (hwf : WF s ch)
    (j : Nat) :
    nextStream s (Iter.reset s IterStart.kFront)
      ((liveSlots s.fElemSize ch).length + j)
      = some ((liveSlots s.fElemSize ch).map some ++ List.replicate j none) := by
  have hes := hwf.es_pos
  have hfuel := hwf.fuel
  have hskip : skipEmptyFwd s.heap s.fFront (s.nextAddr + 1)
      = (ch.find? fun q => q.2.fBegin.isSome).map Prod.fst :=
    skipEmptyFwd_eq_find hwf.chain hfuel
  show nextStream s
      { fCurBlock := skipEmptyFwd s.heap s.fFront (s.nextAddr + 1),
        fPos :=
          match skipEmptyFwd s.heap s.fFront (s.nextAddr + 1) with
          | none => none
          | some a => (s.heap a).bind fun b => b.fBegin,
        fElemSize := s.fElemSize } _ = _
  rw [hskip]
  rcases ch with _ | ⟨⟨a, b⟩, R⟩
  · exact nextStream_entry hes [] hwf.chain (by simp) (by simp) hfuel j
  · obtain ⟨hc, ha, hp, hrest⟩ := hwf.chain.cons_inv
    rcases hbb : b.fBegin with _ | bb
    · rw [List.find?_cons_of_neg _ (by simp [hbb])]
      rw [liveSlots_cons, blockSlots_isEmpty hbb, List.nil_append]
      refine nextStream_entry hes R hrest
        (fun r hr => hwf.blocks_ok r (by simp [hr])) ?_
        (by simp only [List.length_cons] at hfuel; omega) j
      intro r hr
      exact hwf.mid r (by simpa using hr)
    · refine nextStream_entry hes ((a, b) :: R) hwf.chain
        (fun r hr => hwf.blocks_ok r hr) ?_ hfuel j
      intro r hr
      rcases R with _ | ⟨x, R2⟩
      · simp at hr
      · rw [List.dropLast_cons_of_ne_nil (by simp)] at hr
        rcases List.mem_cons.mp hr with rfl | hr
        · intro hnone
          simp only at hnone
          rw [hbb] at hnone
          cases hnone
        · exact hwf.mid r hr

/-- Backward iteration from `reset(kBack)` yields the chain's live slots in
back-to-front order, then the null signal forever. -/
theorem reset_back_stream {s : SkDeque} {ch : List (Addr × Block)} (hwf : WF s ch)
    (j : Nat) :
    prevStream s (Iter.reset s IterStart.kBack)
      ((liveSlots s.fElemSize ch).length + j)
      = some (((liveSlots s.fElemSize ch).reverse).map some ++ List.replicate j none) := by
  have hes := hwf.es_pos
  have hfuel := hwf.fuel
  have hfuelM : ch.reverse.length < s.nextAddr + 1 := by
    rw [List.length_reverse]
    exact hfuel
  have hseg := hwf.segB_back
  have hskip : skipEmptyBwd s.heap s.fBack (s.nextAddr + 1)
      = (ch.reverse.find? fun q => q.2.fEnd.isSome).map Prod.fst :=
    skipEmptyBwd_eq_find hseg hfuelM
  have hlen : (liveSlots s.fElemSize ch).length = (bwdSlots s.fElemSize ch.reverse).length := by
    rw [bwdSlots_reverse, List.length_reverse]
  show prevStream s
      { fCurBlock := skipEmptyBwd s.heap s.fBack (s.nextAddr + 1),
        fPos :=
          match skipEmptyBwd s.heap s.fBack (s.nextAddr + 1) with
          | none => none
          | some a => (s.heap a).bind fun b => b.fEnd.map fun ee => ee - s.fElemSize,
        fElemSize := s.fElemSize } _ = _
  rw [hskip, hlen, ← bwdSlots_reverse]
  rcases List.eq_nil_or_concat' ch with rfl | ⟨L, ⟨aB, bB⟩, rfl⟩
  · exact prevStream_entry hes [] hseg (by simp) (by simp) (by simpa using hfuelM) j
  · have hrev : ((L ++ [(aB, bB)]).reverse : List (Addr × Block))
        = (aB, bB) :: L.reverse := by simp
    rw [hrev]
    rw [hrev] at hseg hfuelM
    have hokB : BlockOK s.fElemSize bB := hwf.blocks_ok (aB, bB) (by simp)
    obtain ⟨hcB, haB, hnB, hrestB⟩ := hseg.cons_elim
    rcases hend : bB.fEnd with _ | ee
    · -- the back block is empty-marked: the entry skip passes it
      have hbbB : bB.fBegin = none := hokB.2.1.mpr hend
      rw [List.find?_cons_of_neg _ (by simp [hend])]
      rw [bwdSlots_cons]
      rw [blockSlots_isEmpty hbbB]
      simp only [List.reverse_nil, List.nil_append]
      refine prevStream_entry hes L.reverse hrestB
        (fun r hr => hwf.blocks_ok r (by
          rw [List.mem_reverse] at hr
          simp [hr])) ?_
        (by simp only [List.length_cons] at hfuelM; omega) j
      intro r hr
      rcases L with _ | ⟨x, L2⟩
      · simp at hr
      · have hrev2 : ((x :: L2).reverse : List (Addr × Block))
            = L2.reverse ++ [x] := by simp
        rw [hrev2, List.dropLast_concat] at hr
        rw [List.mem_reverse] at hr
        have hnonempty : r.2.fBegin ≠ none := by
          refine hwf.mid r ?_
          simp only [List.cons_append, List.tail_cons]
          rw [List.dropLast_concat]
          exact hr
        intro hnone
        exact hnonempty ((hwf.blocks_ok r (by
          simp only [List.cons_append, List.mem_cons, List.mem_append]
          tauto)).2.1.mpr hnone)
    · -- the back block holds elements
      refine prevStream_entry hes ((aB, bB) :: L.reverse) hseg
        (fun r hr => hwf.blocks_ok r (by
          rcases List.mem_cons.mp hr with rfl | hr
          · simp
          · rw [List.mem_reverse] at hr
            simp [hr])) ?_ hfuelM j
      intro r hr
      rcases L with _ | ⟨x, L2⟩
      · simp at hr
      · have hrev2 : ((x :: L2).reverse : List (Addr × Block))
            = L2.reverse ++ [x] := by simp
        rw [hrev2, List.dropLast_cons_of_ne_nil (by simp), List.dropLast_concat] at hr
        rcases List.mem_cons.mp hr with rfl | hr
        · intro hnone
          rw [hend] at hnone
          cases hnone
        · rw [List.mem_reverse] at hr
          have hnonempty : r.2.fBegin ≠ none := by
            refine hwf.mid r ?_
            simp only [List.cons_append, List.tail_cons]
            rw [List.dropLast_concat]
            exact hr
          intro hnone
          exact hnonempty ((hwf.blocks_ok r (by
            simp only [List.cons_append, List.mem_cons, List.mem_append]
            tauto)).2.1.mpr hnone)

/-- On an empty (count 0) well-formed deque, both resets leave the cursor
at the null sentinel. -/
theorem reset_empty_fPos {s : SkDeque} {ch : List (Addr × Block)} (hwf : WF s ch)
    (h0 : s.fCount = 0) :
    (Iter.reset s IterStart.kFront).fPos = none ∧
    (Iter.reset s IterStart.kBack).fPos = none := by
  have hemp := hwf.all_empty_of_count_zero h0
  have hfindF : (ch.find? fun q => q.2.fBegin.isSome) = none :=
    List.find?_eq_none.mpr (fun q hq => by simp [hemp q hq])
  have hfindB : (ch.reverse.find? fun q => q.2.fEnd.isSome) = none := by
    refine List.find?_eq_none.mpr (fun q hq => ?_)
    have hq2 := List.mem_reverse.mp hq
    have := (hwf.blocks_ok q hq2).2.1.mp (hemp q hq2)
    simp [this]
  constructor
  · show (match skipEmptyFwd s.heap s.fFront (s.nextAddr + 1) with
      | none => none
      | some a => (s.heap a).bind fun b => b.fBegin) = none
    rw [skipEmptyFwd_eq_find hwf.chain hwf.fuel, hfindF]
    rfl
  · show (match skipEmptyBwd s.heap s.fBack (s.nextAddr + 1) with
      | none => none
      | some a => (s.heap a).bind fun b => b.fEnd.map fun ee => ee - s.fElemSize) = none
    rw [skipEmptyBwd_eq_find hwf.segB_back (by rw [List.length_reverse]; exact hwf.fuel),
      hfindB]
    rfl

/-! ### Claim theorems -/

/-- C1: refuted.  The deque does release the caller-supplied inline block
back to the allocator: over inline storage holding one element, pushing two
values and popping twice from the front reaches a state whose next
`pop_front` calls the generic release routine on the inline block — its
address lands on the freed list and its heap cell is gone — even though
`fInitialStorage` still designates that block.  (`freeBlock` is a bare
`sk_free`; only the destructor checks `fInitialStorage`.) -/
theorem C1_inline_block_released :
    ∃ s t : SkDeque, Reach s ∧ s.fInitialStorage = some 0 ∧
      s.pop_front = some t ∧
      t.freed = [0] ∧ t.heap 0 = none ∧ t.fInitialStorage = some 0 :=
  ⟨c1s3, c1s4, c1s3_reach, rfl, rfl, rfl, rfl, rfl⟩

/-- C2: for every element size, every block allocation count and every
list of values, pushing them all at the back (writing each returned slot)
and then popping the same number of times from the front observes — via
`front()` before each pop — exactly the pushed values in push order, and
the final count is zero. -/
theorem C2_fifo_push_back_pop_front (es ac : Nat) (hes : 0 < es) (hac : 1 ≤ ac)
    (vs : List Val) :
    ∃ t u, runPushes (SkDeque.mk0 es ac) vs = some t ∧
      runPopsObs t vs.length = some (vs, u) ∧ u.fCount = 0 := by
  obtain ⟨t, ch2, hrun, hwf2, hes2, habs⟩ := runPushes_spec vs (WF_mk0 hes hac)
  have habs2 : absList t.fElemSize ch2 = vs := by
    rw [habs, absList_nil, List.nil_append]
  obtain ⟨u, hpops, hcnt⟩ := runPopsObs_spec vs.length hwf2 (by rw [habs2])
  rw [habs2] at hpops
  exact ⟨t, u, hrun, hpops, hcnt⟩

theorem C2_witness :
    0 < 2 ∧ 1 ≤ 1 ∧
    ∃ t u, runPushes (SkDeque.mk0 2 1) [7, 8, 9] = some t ∧
      runPopsObs t ([7, 8, 9] : List Val).length = some ([7, 8, 9], u) ∧
      u.fCount = 0 :=
  ⟨by decide, by decide, C2_fifo_push_back_pop_front 2 1 (by decide) (by decide) [7, 8, 9]⟩

/-- C4: refuted.  The count indeed never becomes negative, but the second
half of the claim fails: in the reachable two-block state where both blocks
are empty-marked (count 0), `back()` does not return the null signal — the
single fall-through lands on a block whose `fEnd` is still the null
sentinel, and the source then returns `NULL - fElemSize`, a non-null
garbage pointer (`junk`), while `front()` does return null. -/
theorem C4_back_junk_on_empty_deque :
    ∃ s : SkDeque, Reach s ∧ s.fCount = 0 ∧
      s.front = Ptr.null ∧ s.back = Ptr.junk ∧ s.back ≠ Ptr.null :=
  ⟨c4s4, c4s4_reach, rfl, rfl, rfl, by decide⟩

/-- C5: confirmed.  A pop that removes the last element of its end block
(the case `fEnd = fBegin + fElemSize`) does not free the block: the freed
list and `numBlocksAllocated()` are unchanged and the block is left with
both sentinels null.  A pop that instead finds its end block already
empty-marked advances the end pointer past it and frees exactly that
block: its address is prepended to the freed list, its heap cell is gone,
and `numBlocksAllocated()` drops by one.  Stated for both ends. -/
theorem C5_two_step_lazy_release {s : SkDeque} {ch : List (Addr × Block)}
    (hwf : WF s ch) (hpos : 0 < s.fCount) :
    (∀ a b, s.fFront = some a → s.heap a = some b → b.fBegin ≠ none →
      ∃ t, s.pop_front = some t ∧ t.freed = s.freed ∧
        t.numBlocksAllocated = s.numBlocksAllocated ∧
        (∀ bb, b.fBegin = some bb → b.fEnd = some (bb + s.fElemSize) →
          ∃ b2, t.heap a = some b2 ∧ b2.fBegin = none ∧ b2.fEnd = none)) ∧
    (∀ a b, s.fFront = some a → s.heap a = some b → b.fBegin = none →
      ∃ t, s.pop_front = some t ∧ t.freed = a :: s.freed ∧ t.heap a = none ∧
        t.numBlocksAllocated + 1 = s.numBlocksAllocated ∧ t.fFront = b.fNext) ∧
    (∀ a b, s.fBack = some a → s.heap a = some b → b.fEnd ≠ none →
      ∃ t, s.pop_back = some t ∧ t.freed = s.freed ∧
        t.numBlocksAllocated = s.numBlocksAllocated ∧
        (∀ bb, b.fBegin = some bb → b.fEnd = some (bb + s.fElemSize) →
          ∃ b2, t.heap a = some b2 ∧ b2.fBegin = none ∧ b2.fEnd = none)) ∧
    (∀ a b, s.fBack = some a → s.heap a = some b → b.fEnd = none →
      ∃ t, s.pop_back = some t ∧ t.freed = a :: s.freed ∧ t.heap a = none ∧
        t.numBlocksAllocated + 1 = s.numBlocksAllocated ∧ t.fBack = b.fPrev) := by
  obtain ⟨t, ch2, hopf, hwf2, _, _, _, _, _, _, hkeepF, hfreeF⟩ := popFront_spec hwf hpos
  obtain ⟨u, ch3, hopb, hwf3, _, _, _, _, _, _, hkeepB, hfreeB⟩ := popBack_spec hwf hpos
  refine ⟨?_, ?_, ?_, ?_⟩
  · intro a b hfa hha hne
    obtain ⟨hfr, hlen, hmark⟩ := hkeepF a b hfa hha hne
    exact ⟨t, hopf, hfr, by rw [hwf2.numBlocks_eq, hwf.numBlocks_eq, hlen], hmark⟩
  · intro a b hfa hha hemp
    obtain ⟨hfr, hdead, hlen, hadv⟩ := hfreeF a b hfa hha hemp
    exact ⟨t, hopf, hfr, hdead, by rw [hwf2.numBlocks_eq, hwf.numBlocks_eq, hlen], hadv⟩
  · intro a b hfa hha hne
    obtain ⟨hfr, hlen, hmark⟩ := hkeepB a b hfa hha hne
    exact ⟨u, hopb, hfr, by rw [hwf3.numBlocks_eq, hwf.numBlocks_eq, hlen], hmark⟩
  · intro a b hfa hha hemp
    obtain ⟨hfr, hdead, hlen, hadv⟩ := hfreeB a b hfa hha hemp
    exact ⟨u, hopb, hfr, hdead, by rw [hwf3.numBlocks_eq, hwf.numBlocks_eq, hlen], hadv⟩

theorem C5_witness :
    ∃ s ch, WF s ch ∧ 0 < s.fCount ∧
      ((∀ a b, s.fFront = some a → s.heap a = some b → b.fBegin ≠ none →
        ∃ t, s.pop_front = some t ∧ t.freed = s.freed ∧
          t.numBlocksAllocated = s.numBlocksAllocated ∧
          (∀ bb, b.fBegin = some bb → b.fEnd = some (bb + s.fElemSize) →
            ∃ b2, t.heap a = some b2 ∧ b2.fBegin = none ∧ b2.fEnd = none)) ∧
      (∀ a b, s.fFront = some a → s.heap a = some b → b.fBegin = none →
        ∃ t, s.pop_front = some t ∧ t.freed = a :: s.freed ∧ t.heap a = none ∧
          t.numBlocksAllocated + 1 = s.numBlocksAllocated ∧ t.fFront = b.fNext) ∧
      (∀ a b, s.fBack = some a → s.heap a = some b → b.fEnd ≠ none →
        ∃ t, s.pop_back = some t ∧ t.freed = s.freed ∧
          t.numBlocksAllocated = s.numBlocksAllocated ∧
          (∀ bb, b.fBegin = some bb → b.fEnd = some (bb + s.fElemSize) →
            ∃ b2, t.heap a = some b2 ∧ b2.fBegin = none ∧ b2.fEnd = none)) ∧
      (∀ a b, s.fBack = some a → s.heap a = some b → b.fEnd = none →
        ∃ t, s.pop_back = some t ∧ t.freed = a :: s.freed ∧ t.heap a = none ∧
          t.numBlocksAllocated + 1 = s.numBlocksAllocated ∧ t.fBack = b.fPrev)) := by
  obtain ⟨t, ch2, hop, hwf2, _, _, _, _, hcnt, _⟩ :=
    pushBackW_spec (@WF_mk0 3 1 (by decide) (by decide)) 11
  have hpos : 0 < t.fCount := by
    rw [hcnt]
    decide
  exact ⟨t, ch2, hwf2, hpos, C5_two_step_lazy_release hwf2 hpos⟩

/-- C6: confirmed.  In every reachable state, every block of the chain
satisfies the occupancy invariant: the begin/end sentinels are null
together, and a non-empty occupied range satisfies
`begin + elemSize ≤ end ≤ stop` (so `start-of-chunk ≤ begin ≤ end ≤ stop`
in offset form) with `end - begin` an exact multiple of the element
size. -/
theorem C6_block_occupancy_invariant {s : SkDeque} (hr : Reach s) :
    ∀ q ∈ s.sChain, (q.2.fBegin = none ↔ q.2.fEnd = none) ∧
      ∀ bb ee, q.2.fBegin = some bb → q.2.fEnd = some ee →
        bb + s.fElemSize ≤ ee ∧ ee ≤ q.2.fStop ∧ (ee - bb) % s.fElemSize = 0 := by
  obtain ⟨ch, hwf⟩ := hr.toWFs
  rw [hwf.sChain_eq]
  intro q hq
  exact ⟨(hwf.blocks_ok q hq).2.1, (hwf.blocks_ok q hq).2.2⟩

theorem C6_witness :
    d5.fElemSize = 4 ∧
    ∀ q ∈ d5.sChain, (q.2.fBegin = none ↔ q.2.fEnd = none) ∧
      ∀ bb ee, q.2.fBegin = some bb → q.2.fEnd = some ee →
        bb + d5.fElemSize ≤ ee ∧ ee ≤ q.2.fStop ∧ (ee - bb) % d5.fElemSize = 0 :=
  ⟨rfl, C6_block_occupancy_invariant d5_reach⟩

/-- C7: confirmed.  With element size 4 and allocation count 2 and no
inline storage, pushing 1..5 at the back gives count 5, three allocated
blocks, value 1 behind `front()` and value 5 behind `back()`; five
subsequent front pops observe 1..5, leave count 0, and both `front()` and
`back()` then report the null signal. -/
theorem C7_concrete_scenario :
    ∃ t u, runPushes (SkDeque.mk0 4 2) [1, 2, 3, 4, 5] = some t ∧
      t.fCount = 5 ∧ t.numBlocksAllocated = 3 ∧
      t.frontVal = some 1 ∧ t.backVal = some 5 ∧
      runPopsObs t 5 = some ([1, 2, 3, 4, 5], u) ∧
      u.fCount = 0 ∧ u.front = Ptr.null ∧ u.back = Ptr.null := by
  have e1 : d0.pushBackW 1 = some d1 := rfl
  have e2 : d1.pushBackW 2 = some d2 := rfl
  have e3 : d2.pushBackW 3 = some d3 := rfl
  have e4 : d3.pushBackW 4 = some d4 := rfl
  have e5 : d4.pushBackW 5 = some d5 := rfl
  have h1 : runPushes (SkDeque.mk0 4 2) [1, 2, 3, 4, 5] = some d5 := by
    show runPushes d0 [1, 2, 3, 4, 5] = some d5
    simp only [runPushes, e1, e2, e3, e4, e5, Option.some_bind]
  have f1 : d5.frontVal = some 1 := rfl
  have g1 : d5.pop_front = some dp1 := rfl
  have f2 : dp1.frontVal = some 2 := rfl
  have g2 : dp1.pop_front = some dp2 := rfl
  have f3 : dp2.frontVal = some 3 := rfl
  have g3 : dp2.pop_front = some dp3 := rfl
  have f4 : dp3.frontVal = some 4 := rfl
  have g4 : dp3.pop_front = some dp4 := rfl
  have f5 : dp4.frontVal = some 5 := rfl
  have g5 : dp4.pop_front = some dp5 := rfl
  have h2 : runPopsObs d5 5 = some ([1, 2, 3, 4, 5], dp5) := by
    simp only [runPopsObs, f1, g1, f2, g2, f3, g3, f4, g4, f5, g5,
      Option.some_bind, Option.map_some']
  exact ⟨d5, dp5, h1, by decide, by decide, f1, by decide, h2,
    by decide, by decide, by decide⟩

/-- C8: confirmed.  On any reachable state with positive count, both
`pop_front` and `pop_back` run to completion: no null pointer is followed
and no internal assertion fails (the embedding returns `none` exactly in
those cases). -/
theorem C8_pop_preconditions_safe {s : SkDeque} (hr : Reach s)
    (hpos : 0 < s.fCount) :
    (s.pop_front).isSome ∧ (s.pop_back).isSome := by
  obtain ⟨ch, hwf⟩ := hr.toWFs
  obtain ⟨t, ch2, hopf, _⟩ := popFront_spec hwf hpos
  obtain ⟨u, ch3, hopb, _⟩ := popBack_spec hwf hpos
  constructor
  · rw [hopf]
    rfl
  · rw [hopb]
    rfl

theorem C8_witness :
    0 < d5.fCount ∧ (d5.pop_front).isSome ∧ (d5.pop_back).isSome :=
  ⟨by decide, C8_pop_preconditions_safe d5_reach (by decide)⟩

/-- C9: confirmed.  In every reachable state the front pointer is the head
of the block chain and the back pointer its tail: the head block's `fPrev`
and the tail block's `fNext` are null, so the chain extends neither before
`fFront` nor after `fBack`, and `numBlocksAllocated()` — which walks
forward from `fFront` — counts exactly every block of the chain, the
empty-marked ones included. -/
theorem C9_front_back_are_chain_ends {s : SkDeque} (hr : Reach s) :
    s.fFront = (s.sChain.head?).map Prod.fst ∧
    s.fBack = (s.sChain.getLast?).map Prod.fst ∧
    (∀ q, s.sChain.head? = some q → q.2.fPrev = none) ∧
    (∀ q, s.sChain.getLast? = some q → q.2.fNext = none) ∧
    s.numBlocksAllocated = s.sChain.length := by
  obtain ⟨ch, hwf⟩ := hr.toWFs
  rw [hwf.sChain_eq]
  refine ⟨hwf.front_head, hwf.back_last, ?_, ?_, ?_⟩
  · intro q hq
    rcases ch with _ | ⟨⟨a, b⟩, R⟩
    · cases hq
    · rw [List.head?_cons, Option.some.injEq] at hq
      obtain ⟨_, _, hprev, _⟩ := hwf.chain.cons_inv
      subst hq
      exact hprev
  · intro q hq
    rcases List.eq_nil_or_concat' ch with rfl | ⟨L, r, rfl⟩
    · cases hq
    · rw [List.getLast?_concat, Option.some.injEq] at hq
      subst hq
      exact hwf.chain.last_next_none
  · exact hwf.numBlocks_eq

theorem C9_witness :
    d5.fFront = (d5.sChain.head?).map Prod.fst ∧
    d5.fBack = (d5.sChain.getLast?).map Prod.fst ∧
    (∀ q, d5.sChain.head? = some q → q.2.fPrev = none) ∧
    (∀ q, d5.sChain.getLast? = some q → q.2.fNext = none) ∧
    d5.numBlocksAllocated = d5.sChain.length :=
  C9_front_back_are_chain_ends d5_reach

/-- C3: confirmed.  On every reachable state there is a list of exactly
`count()` slots — the chain's live slots in front-to-back order — such that
an iterator reset at the front and stepped with `next()` returns those
slots in order (each call returning the pre-advance position, empty blocks
skipped by the reset/handoff skip loops) and then the null signal forever,
while an iterator reset at the back and stepped with `prev()` returns the
same slots in reverse order and then the null signal forever. -/
theorem C3_iterator_yields_count_slots {s : SkDeque} (hr : Reach s) (j : Nat) :
    ∃ ch slots, WF s ch ∧ slots = liveSlots s.fElemSize ch ∧
      (slots.length : Int) = s.fCount ∧
      nextStream s (Iter.reset s IterStart.kFront) (slots.length + j)
        = some (slots.map some ++ List.replicate j none) ∧
      prevStream s (Iter.reset s IterStart.kBack) (slots.length + j)
        = some (slots.reverse.map some ++ List.replicate j none) := by
  obtain ⟨ch, hwf⟩ := hr.toWFs
  refine ⟨ch, _, hwf, rfl, ?_, reset_front_stream hwf j, reset_back_stream hwf j⟩
  rw [liveSlots_length_eq]
  exact hwf.count_eq.symm

theorem C3_witness :
    ∃ ch slots, WF d5 ch ∧ slots = liveSlots d5.fElemSize ch ∧
      (slots.length : Int) = d5.fCount ∧
      nextStream d5 (Iter.reset d5 IterStart.kFront) (slots.length + 2)
        = some (slots.map some ++ List.replicate 2 none) ∧
      prevStream d5 (Iter.reset d5 IterStart.kBack) (slots.length + 2)
        = some (slots.reverse.map some ++ List.replicate 2 none) :=
  C3_iterator_yields_count_slots d5_reach 2

/-- C10: confirmed.  An iterator whose cursor is the null sentinel is stuck
there: `next()` and `prev()` both return the null signal and the unchanged
iterator.  The default-constructed iterator starts in that state, and a
reset over a deque with count 0 (all blocks empty-marked) lands in it as
well. -/
theorem C10_exhaustion_absorbing {d : SkDeque} {it : Iter} (hpos : it.fPos = none) :
    Iter.next d it = some (none, it) ∧
    Iter.prev d it = some (none, it) ∧
    Iter.init.fPos = none ∧
    (∀ s ch, WF s ch → s.fCount = 0 →
      (Iter.reset s IterStart.kFront).fPos = none ∧
      (Iter.reset s IterStart.kBack).fPos = none) := by
  refine ⟨?_, ?_, rfl, fun s ch hwf h0 => reset_empty_fPos hwf h0⟩
  · simp [Iter.next, hpos]
  · simp [Iter.prev, hpos]

theorem C10_witness :
    Iter.init.fPos = none ∧
    (Iter.next d5 Iter.init = some (none, Iter.init) ∧
     Iter.prev d5 Iter.init = some (none, Iter.init) ∧
     Iter.init.fPos = none ∧
     (∀ s ch, WF s ch → s.fCount = 0 →
       (Iter.reset s IterStart.kFront).fPos = none ∧
       (Iter.reset s IterStart.kBack).fPos = none)) :=
  ⟨rfl, C10_exhaustion_absorbing rfl⟩

end SkiaDeque